import Mathlib

/-!
# Verification of the `structures` data-structure library

Shallow embedding of the C++ sources (min-max heap, rank-pairing heap,
range-minimum query, union-find, updateable priority queue, suffix tree)
together with proofs and refutations of the specified properties.

Machine integers (`size_t`, `int`, `int64_t`, `uint64_t`) are modelled by
`Nat` / `Int`; the embedded index arithmetic only runs at points where the
C++ values are small and non-negative, except where noted in comments.
Fallible operations (assertions, null-pointer dereferences) return `Except`.
-/

/-- Outcome of a C++ operation that does not return normally: a failed
`assert` (which prints a diagnostic and aborts), or a dereference of a null
pointer (undefined behavior, no diagnostic). -/
inductive RTFail where
  | assertionFailure
  | nullDeref
deriving Repr, DecidableEq

namespace MMH

/-! ## Min-max heap (`min_max_heap.hpp`)

The heap stores its elements in a `vector<T> values`; we embed the vector as a
`List α` for a linear order `α`, with `idx` playing the role of `operator[]`
(all reads performed by the algorithm are in bounds, so the default value is
never observable on the executions we reason about). -/

variable {α : Type} [LinearOrder α] [Inhabited α]

/-- `values[i]` -/
def idx (values : List α) (i : ℕ) : α := values.getD i default

/-- `std::swap(values[i], values[j])` -/
def swap (values : List α) (i j : ℕ) : List α :=
  (values.set i (idx values j)).set j (idx values i)

/-- `MinMaxHeap::cmp` from the source:
`return (level % 2 == 0) != (v1 > v2);` -/
def cmp (v1 v2 : α) (level : ℤ) : Bool :=
  (decide (level % 2 = 0)) != (decide (v1 > v2))

/-- The `while (next_level_begin - 1 < values.size())` loop shared by the
heapifying constructor and `post_add`: doubles `next_level_begin` and
increments `level` until `next_level_begin - 1 ≥ size`.  The loop variable
starts at 1 and doubles, hence the positivity argument. -/
def level_loop (size : ℕ) : (nlb : ℕ) → ℤ → 0 < nlb → ℤ × ℕ := fun nlb level h =>
  if _h2 : nlb - 1 < size then
    level_loop size (nlb * 2) (level + 1) (by positivity)
  else
    (level, nlb)
  termination_by nlb _ _ => size + 1 - nlb
  decreasing_by omega

/-- One iteration of the grandchild loop of `restore_heap_below`:
`if (j >= values.size()) break; most = cmp(values[most], values[j], level) ? most : j;`
(after the `break` every later iteration is a no-op, so the loop is
equivalent to its guarded unrolling). -/
def gc_step (values : List α) (level : ℤ) (most j : ℕ) : ℕ :=
  if j ≥ values.length then most
  else if cmp (idx values most) (idx values j) level then most else j

/-- The extremum of `values[i]` and the (up to four) grandchildren
`values[4i+3 .. 4i+6]`, computed exactly as the `most` variable of
`restore_heap_below` in the case where grandchildren exist
(`leftest = 4*i + 3`). -/
def gc_most (values : List α) (i : ℕ) (level : ℤ) : ℕ :=
  gc_step values level
    (gc_step values level
      (gc_step values level
        (if cmp (idx values i) (idx values (4 * i + 3)) level then i else 4 * i + 3)
        (4 * i + 3 + 1))
      (4 * i + 3 + 2))
    (4 * i + 3 + 3)

theorem gc_step_or (values : List α) (level : ℤ) (most j : ℕ) :
    gc_step values level most j = most ∨
      (gc_step values level most j = j ∧ j < values.length) := by
  unfold gc_step
  split
  · exact Or.inl rfl
  · split
    · exact Or.inl rfl
    · exact Or.inr ⟨rfl, by omega⟩

theorem gc_most_spec (values : List α) (i : ℕ) (level : ℤ)
    (h : 4 * i + 3 < values.length) :
    gc_most values i level = i ∨
      (4 * i + 3 ≤ gc_most values i level ∧ gc_most values i level < values.length ∧
        gc_most values i level ≤ 4 * i + 6) := by
  unfold gc_most
  have h0 : (if cmp (idx values i) (idx values (4 * i + 3)) level then i else 4 * i + 3) = i ∨
      ((if cmp (idx values i) (idx values (4 * i + 3)) level then i else 4 * i + 3) = 4 * i + 3 ∧
        4 * i + 3 < values.length) := by
    split
    · exact Or.inl rfl
    · exact Or.inr ⟨rfl, h⟩
  rcases gc_step_or values level
      (gc_step values level
        (gc_step values level
          (if cmp (idx values i) (idx values (4 * i + 3)) level then i else 4 * i + 3)
          (4 * i + 3 + 1)) (4 * i + 3 + 2)) (4 * i + 3 + 3) with h3 | h3 <;>
    rcases gc_step_or values level
        (gc_step values level
          (if cmp (idx values i) (idx values (4 * i + 3)) level then i else 4 * i + 3)
          (4 * i + 3 + 1)) (4 * i + 3 + 2) with h2 | h2 <;>
      rcases gc_step_or values level
          (if cmp (idx values i) (idx values (4 * i + 3)) level then i else 4 * i + 3)
          (4 * i + 3 + 1) with h1 | h1 <;>
        rcases h0 with h0 | h0 <;> omega

theorem swap_length (values : List α) (i j : ℕ) :
    (swap values i j).length = values.length := by
  simp [swap]

/-- `MinMaxHeap::restore_heap_below` from the source, acting on the embedded
vector. -/
def restore_heap_below (values : List α) (i : ℕ) (level : ℤ) : List α :=
  let rightest := 4 * i + 6
  let leftest := rightest - 3
  if _h1 : leftest ≥ values.length then
    -- i has no grandchildren
    let left := 2 * i + 1
    let right := left + 1
    if left ≥ values.length then
      -- i has no children
      values
    else
      let most := if cmp (idx values i) (idx values left) level then i else left
      let most := if right < values.length then
          (if cmp (idx values most) (idx values right) level then most else right)
        else most
      -- if necessary swap, no need to recurse further
      if most ≠ i then swap values i most else values
  else
    -- find the extremal element among the grandchildren
    let most := gc_most values i level
    if leftest + 2 ≥ values.length ∧
        cmp (idx values (2 * i + 2)) (idx values most) level then
      -- the right child has no children: swap with it directly
      swap values i (2 * i + 2)
    else if h3 : most ≠ i then
      let values1 := swap values i most
      let intermediate := if most ≤ leftest + 1 then 2 * i + 1 else 2 * i + 2
      let values2 :=
        if cmp (idx values1 most) (idx values1 intermediate) (level + 1) then
          swap values1 intermediate most
        else values1
      restore_heap_below values2 most (level + 2)
    else values
  termination_by values.length - i
  decreasing_by
    rcases gc_most_spec values i level (by omega) with hmost | hmost
    · exact absurd hmost h3
    · split <;> (try split) <;> simp only [swap_length] <;> omega

/-- `MinMaxHeap::restore_heap_above` from the source. -/
def restore_heap_above (values : List α) (i : ℕ) (level : ℤ) : List α :=
  if i ≤ 2 then
    -- i has no grandparent
    values
  else
    let grandparent := (i + 1) / 4 - 1
    if cmp (idx values i) (idx values grandparent) (level - 2) then
      restore_heap_above (swap values i grandparent) grandparent (level - 2)
    else values
  termination_by i
  decreasing_by
    have : (i + 1) / 4 < i := by omega
    omega

/-- `MinMaxHeap::post_add` from the source (the `values.size() == 0` case is
unreachable: `post_add` runs right after a `push_back`). -/
def post_add (values : List α) : List α :=
  if values.length = 1 then values
  else
    let i := values.length - 1
    let parent := (i + 1) / 2 - 1
    let lv := level_loop values.length 1 (-1) one_pos
    let level := lv.1
    if cmp (idx values i) (idx values parent) (level - 1) then
      restore_heap_above (swap values i parent) parent (level - 1)
    else
      restore_heap_above values i level

/-- `MinMaxHeap::push` (and `emplace`, which only differs by constructing the
value in place). -/
def push (values : List α) (value : α) : List α :=
  post_add (values ++ [value])

/-- One row `for (size_t i = internal_level_begin; i < internal_level_end; i++)`
of the heapifying constructor. -/
def heapify_row (values : List α) (b e : ℕ) (level : ℤ) : List α :=
  (List.range' b (e - b)).foldl (fun v i => restore_heap_below v i level) values

/-- The `while (level >= 0)` loop of the heapifying constructor. -/
def heapify_rows (values : List α) (ilb ile : ℕ) (level : ℤ) : List α :=
  if h : 0 ≤ level then
    heapify_rows (heapify_row values ilb ile level) ((ilb + 1) / 2 - 1) ilb (level - 1)
  else values
  termination_by (level + 1).toNat
  decreasing_by omega

/-- The heapifying constructor `MinMaxHeap(begin, end)`. -/
def heapify (values : List α) : List α :=
  if values.isEmpty then values
  else
    let lv := level_loop values.length 1 (-2) one_pos
    heapify_rows values (lv.2 / 4 - 1) (lv.2 / 2 - 1) lv.1

/-- `MinMaxHeap::pop_min` under its precondition `!values.empty()` (the failing
assertion on an empty heap is modelled separately by `pop_minE`). -/
def pop_min (values : List α) : List α :=
  match values with
  | [] => []
  | _ :: _ =>
    restore_heap_below ((values.set 0 (idx values (values.length - 1))).dropLast) 0 0

/-- `MinMaxHeap::pop_max` under its precondition `!values.empty()`. -/
def pop_max (values : List α) : List α :=
  match values with
  | [] => []
  | _ :: _ =>
    if values.length ≤ 2 then values.dropLast
    else
      let i := if idx values 1 > idx values 2 then 1 else 2
      restore_heap_below ((values.set i (idx values (values.length - 1))).dropLast) i 1

/-- `MinMaxHeap::min` under its precondition. -/
def min_fn (values : List α) : α := idx values 0

/-- `MinMaxHeap::max` under its precondition:
size 1 gives `values[0]`, size 2 gives `values[1]`, otherwise
`std::max(values[1], values[2])`. -/
def max_fn (values : List α) : α :=
  if values.length = 1 then idx values 0
  else if values.length = 2 then idx values 1
  else max (idx values 1) (idx values 2)

/-- `MinMaxHeap::min` with its runtime check made explicit:
`assert(!values.empty()); return values[0];`. -/
def minE (values : List α) : Except RTFail α :=
  if values.isEmpty then .error .assertionFailure else .ok (min_fn values)

/-- `MinMaxHeap::max` with its runtime check made explicit. -/
def maxE (values : List α) : Except RTFail α :=
  if values.isEmpty then .error .assertionFailure else .ok (max_fn values)

/-- `MinMaxHeap::pop_min` with its runtime check made explicit. -/
def pop_minE (values : List α) : Except RTFail (List α) :=
  if values.isEmpty then .error .assertionFailure else .ok (pop_min values)

/-- `MinMaxHeap::pop_max` with its runtime check made explicit. -/
def pop_maxE (values : List α) : Except RTFail (List α) :=
  if values.isEmpty then .error .assertionFailure else .ok (pop_max values)

end MMH

namespace RPH

/-! ## Rank-pairing heap (`rank_pairing_heap.hpp`)

`RankPairingHeap<T, PriorityType, Compare>` is embedded at `T = ℕ`,
`PriorityType = ℤ`, with the comparator an explicit function argument
(mirroring the `Compare` template parameter).  Heap-allocated `Node`
objects are embedded as an arena (`nodes : List Node`); a `Node*` is an
`Option ℕ` index into the arena (`none` = `nullptr`).  `delete` has no
effect on an arena, so popped nodes simply become unreachable, exactly as
the dangling C++ pointers do.  The `unordered_set<Node*> other_roots` and
`unordered_map<T, Node*> current_nodes` are embedded as insertion-ordered
duplicate-free lists, making iteration order deterministic. -/

/-- `RankPairingHeap::Node`: `pair<T, PriorityType> value`, `uint64_t rank`,
and the three pointers. -/
structure Node where
  value : ℕ
  prio : ℤ
  rank : ℕ
  parent : Option ℕ := none
  left : Option ℕ := none
  right : Option ℕ := none
deriving Repr, DecidableEq, Inhabited

/-- The data members of `RankPairingHeap`. -/
structure Heap where
  nodes : List Node := []
  current_nodes : List (ℕ × Option ℕ) := []
  first_root : Option ℕ := none
  other_roots : List ℕ := []
  num_items : ℕ := 0
deriving Repr, DecidableEq, Inhabited

/-- Dereference a node index (all dereferences performed by the embedded
operations are of live arena indices). -/
def nd (s : Heap) (i : ℕ) : Node := s.nodes.getD i default

def setNode (s : Heap) (i : ℕ) (n : Node) : Heap :=
  { s with nodes := s.nodes.set i n }

/-- `unordered_set::insert` on the insertion-ordered embedding. -/
def setInsert (l : List ℕ) (x : ℕ) : List ℕ :=
  if x ∈ l then l else l ++ [x]

/-- `unordered_map::operator[] = v` on the insertion-ordered embedding. -/
def mapSet : List (ℕ × Option ℕ) → ℕ → Option ℕ → List (ℕ × Option ℕ)
  | [], k, v => [(k, v)]
  | (k1, v1) :: rest, k, v =>
    if k1 = k then (k1, v) :: rest else (k1, v1) :: mapSet rest k v

variable (compare : ℤ → ℤ → Bool)

/-- `RankPairingHeap::top` (precondition: non-empty; the unchecked null
dereference is modelled by `topE`). -/
def top (s : Heap) : ℕ × ℤ :=
  ((nd s (s.first_root.getD 0)).value, (nd s (s.first_root.getD 0)).prio)

/-- `RankPairingHeap::top` with the null dereference made explicit: the
source is `return first_root->value;` with no emptiness check. -/
def topE (s : Heap) : Except RTFail (ℕ × ℤ) :=
  match s.first_root with
  | none => .error .nullDeref
  | some _ => .ok (top s)

/-- `RankPairingHeap::link`. -/
def link (s : Heap) (winner loser : ℕ) : Heap :=
  -- tied contests increase the winner's rank
  let s1 := if (nd s winner).rank = (nd s loser).rank then
      setNode s winner { nd s winner with rank := (nd s winner).rank + 1 }
    else s
  -- place winner's left subtree on loser's right subtree
  let s2 := setNode s1 loser { nd s1 loser with right := (nd s1 winner).left }
  let s3 := match (nd s2 loser).right with
    | some r => setNode s2 r { nd s2 r with parent := some loser }
    | none => s2
  -- winner's left subtree is now the loser
  let s4 := setNode s3 winner { nd s3 winner with left := some loser }
  setNode s4 loser { nd s4 loser with parent := some winner }

/-- `RankPairingHeap::place_half_tree`. -/
def place_half_tree (s : Heap) (node : ℕ) : Heap :=
  match s.first_root with
  | none => { s with first_root := some node }
  | some fr =>
    if compare (top s).2 (nd s node).prio then
      { s with other_roots := setInsert s.other_roots fr, first_root := some node }
    else
      { s with other_roots := setInsert s.other_roots node }

/-- The `while (next_parent)` loop of `RankPairingHeap::reprioritize`,
restoring the type-2 rank property above the cut point.  One fuel unit per
iteration; the callers pass `s.nodes.length` fuel, which the parent chain
of a (finite, acyclic) heap never exhausts. -/
def restore_ranks (s : Heap) : Option ℕ → ℕ → Heap
  | _, 0 => s
  | none, _ + 1 => s
  | some p, fuel + 1 =>
    let node := nd s p
    match node.left, node.right with
    | some l, some r =>
      -- make it a (1,1), (1,2), or (0,i) node
      let next_rank0 := max (nd s l).rank (nd s r).rank
      let next_rank := if next_rank0 - min (nd s l).rank (nd s r).rank ≤ 1 then
          next_rank0 + 1 else next_rank0
      if next_rank ≥ node.rank then s
      else restore_ranks (setNode s p { node with rank := next_rank }) node.parent fuel
    | none, some r =>
      restore_ranks (setNode s p { node with rank := (nd s r).rank + 1 }) node.parent fuel
    | some l, none =>
      restore_ranks (setNode s p { node with rank := (nd s l).rank + 1 }) node.parent fuel
    | none, none =>
      restore_ranks (setNode s p { node with rank := 0 }) node.parent fuel

/-- `RankPairingHeap::reprioritize`. -/
def reprioritize (s : Heap) (node : ℕ) (priority : ℤ) : Heap :=
  if compare (nd s node).prio priority then
    -- we're giving it a higher priority than it currently has
    let s1 := setNode s node { nd s node with prio := priority }
    match (nd s1 node).parent with
    | none =>
      -- this is the root of a half tree
      if compare (top s1).2 priority then
        match s1.first_root with
        | some fr =>
          { s1 with other_roots := (setInsert s1.other_roots fr).erase node,
                    first_root := some node }
        | none => s1  -- unreachable: a parentless live node means a non-empty forest
      else s1
    | some next_parent =>
      -- remove this node from the tree and put its right subtree in its place
      let s2 := setNode s1 node { nd s1 node with parent := none }
      let s3 := if (nd s2 next_parent).left = some node then
          setNode s2 next_parent { nd s2 next_parent with left := (nd s2 node).right }
        else
          setNode s2 next_parent { nd s2 next_parent with right := (nd s2 node).right }
      let s4 := match (nd s3 node).right with
        | some r => setNode s3 r { nd s3 r with parent := some next_parent }
        | none => s3
      let s5 := setNode s4 node { nd s4 node with right := none }
      let s6 := place_half_tree compare s5 node
      -- restore the type-2 rank property above the node
      restore_ranks s6 (some next_parent) s6.nodes.length
  else s

/-- `RankPairingHeap::push_or_reprioritize`. -/
def push_or_reprioritize (s : Heap) (value : ℕ) (priority : ℤ) : Heap :=
  match s.current_nodes.lookup value with
  | some loc =>
    -- we've seen this value before
    match loc with
    | some node => reprioritize compare s node priority
    | none => s  -- it has been popped: do nothing
  | none =>
    -- we haven't seen this value before, make a new node
    let node : ℕ := s.nodes.length
    let s1 := { s with nodes := s.nodes ++ [{ value := value, prio := priority, rank := 0 }] }
    let s2 := place_half_tree compare s1 node
    { s2 with current_nodes := mapSet s2.current_nodes value (some node),
              num_items := s2.num_items + 1 }

/-- The spine-collection loop of `RankPairingHeap::pop`: repeatedly pushes
`prev_spine_node->right` onto `new_roots`, clearing the right pointer and
the parent pointer of each detached node. -/
def collect_spine (s : Heap) (prev : ℕ) (acc : List ℕ) (fuel : ℕ) : Heap × List ℕ :=
  match fuel with
  | 0 => (s, acc)
  | fuel + 1 =>
    match (nd s prev).right with
    | none => (s, acc)
    | some r =>
      let s1 := setNode s prev { nd s prev with right := none }
      let s2 := setNode s1 r { nd s1 r with parent := none }
      collect_spine s2 r (acc ++ [r]) fuel

/-- The one-pass bucketed linking loop of `RankPairingHeap::pop`, followed by
the final sweep that places any half trees still in the buckets. -/
def bucket_pass (s : Heap) : List ℕ → List (Option ℕ) → Heap
  | [], buckets =>
    -- get any half trees still in the buckets and add them to the main tree
    buckets.foldl (fun s b => match b with
      | some r => place_half_tree compare s r
      | none => s) s
  | root :: rest, buckets =>
    -- compact the ranks to make 1-nodes
    let newRank := match (nd s root).left with
      | some l => (nd s l).rank + 1
      | none => 0
    let s1 := setNode s root { nd s root with rank := newRank }
    -- ensure that we have enough buckets
    let buckets1 := buckets ++ List.replicate (newRank + 1 - buckets.length) none
    match buckets1.getD newRank none with
    | some other =>
      -- there's already a tree in this bucket: link, place, empty the bucket
      let s2 := if compare (nd s1 root).prio (nd s1 other).prio then
          place_half_tree compare (link s1 other root) other
        else
          place_half_tree compare (link s1 root other) root
      bucket_pass s2 rest (buckets1.set newRank none)
    | none =>
      -- the bucket is empty, fill it with the current half tree
      bucket_pass s1 rest (buckets1.set newRank (some root))

/-- `RankPairingHeap::pop` on a non-empty heap whose first root is `fr`. -/
def pop (s : Heap) (fr : ℕ) : Heap :=
  -- bookkeeping, and mark this value as popped
  let s1 := { s with num_items := s.num_items - 1,
                     current_nodes := mapSet s.current_nodes (top s).1 none }
  -- disassemble the first tree and collect the right spine
  let step2 := match (nd s1 fr).left with
    | some l =>
      let s1a := setNode s1 l { nd s1 l with parent := none }
      collect_spine s1a l [l] s1.nodes.length
    | none => (s1, [])
  let s2 := step2.1
  -- collect the other current roots too
  let new_roots := step2.2 ++ s2.other_roots
  let s3 := { s2 with other_roots := [] }
  -- get rid of the first root (in the arena, `delete` just unlinks it)
  let s4 := { setNode s3 fr { nd s3 fr with left := none } with first_root := none }
  -- one-pass algorithm over the roots described in paper
  bucket_pass compare s4 new_roots []

/-- `RankPairingHeap::pop` with the unchecked null dereference made explicit:
the source immediately evaluates `current_nodes[top().first]`, and `top()`
is `return first_root->value;` with no emptiness check. -/
def popE (s : Heap) : Except RTFail Heap :=
  match s.first_root with
  | none => .error .nullDeref
  | some fr => .ok (pop compare s fr)

/-- `RankPairingHeap::empty`: `return first_root == nullptr;`. -/
def isEmpty (s : Heap) : Bool := s.first_root = none

/-- Modelled from the spec: the rank-restoration walk as §4.2 describes it —
"for each ancestor p, recompute rank based on the ranks of its present
children (0, 1, or 2 of them) according to the rule — rank =
(only-child-rank + 1) if exactly one child exists, else
max(left, right) + (1 if |left-right| ≤ 1 else 0).  Stop ascending as soon
as the recomputed rank is not less than the stored rank." -/
def restore_ranks_spec (s : Heap) : Option ℕ → ℕ → Heap
  | _, 0 => s
  | none, _ + 1 => s
  | some p, fuel + 1 =>
    let node := nd s p
    let recomputed : ℕ :=
      match node.left, node.right with
      | some l, some r =>
        max (nd s l).rank (nd s r).rank +
          (if max (nd s l).rank (nd s r).rank - min (nd s l).rank (nd s r).rank ≤ 1
            then 1 else 0)
      | some l, none => (nd s l).rank + 1
      | none, some r => (nd s r).rank + 1
      | none, none => 0
    if node.rank ≤ recomputed then s
    else restore_ranks_spec (setNode s p { node with rank := recomputed }) node.parent fuel

/-- Modelled from the spec, §4.2: `reprioritize` on a live non-root node with
a strictly increased priority — update the priority, cut the node from its
parent (the parent's pointer to the node is replaced by the node's right
subtree, with parent fixup, and the node's right pointer is cleared),
re-insert it via `place_half_tree`, then restore ranks by the walk of
`restore_ranks_spec` from the former parent. -/
def reprioritize_cut_spec (s : Heap) (node : ℕ) (priority : ℤ) : Heap :=
  let s1 := setNode s node { nd s node with prio := priority }
  match (nd s1 node).parent with
  | none => s1
  | some next_parent =>
    let s2 := setNode s1 node { nd s1 node with parent := none }
    let s3 := if (nd s2 next_parent).left = some node then
        setNode s2 next_parent { nd s2 next_parent with left := (nd s2 node).right }
      else
        setNode s2 next_parent { nd s2 next_parent with right := (nd s2 node).right }
    let s4 := match (nd s3 node).right with
      | some r => setNode s3 r { nd s3 r with parent := some next_parent }
      | none => s3
    let s5 := setNode s4 node { nd s4 node with right := none }
    let s6 := place_half_tree compare s5 node
    restore_ranks_spec s6 (some next_parent) s6.nodes.length

/-- The rank-restoration walk as the source actually behaves, stated in the
style of `restore_ranks_spec`: the early stop applies only when the ancestor
has both children; with at most one child the recomputed rank is stored
unconditionally (even when it is not smaller than the stored rank) and the
walk continues to the next ancestor. -/
def restore_ranks_amended (s : Heap) : Option ℕ → ℕ → Heap
  | _, 0 => s
  | none, _ + 1 => s
  | some p, fuel + 1 =>
    let node := nd s p
    let recomputed : ℕ :=
      match node.left, node.right with
      | some l, some r =>
        max (nd s l).rank (nd s r).rank +
          (if max (nd s l).rank (nd s r).rank - min (nd s l).rank (nd s r).rank ≤ 1
            then 1 else 0)
      | some l, none => (nd s l).rank + 1
      | none, some r => (nd s r).rank + 1
      | none, none => 0
    if node.left.isSome ∧ node.right.isSome ∧ node.rank ≤ recomputed then s
    else restore_ranks_amended (setNode s p { node with rank := recomputed }) node.parent fuel

/-- `reprioritize_cut_spec` with the walk replaced by the amended one. -/
def reprioritize_cut_amended (s : Heap) (node : ℕ) (priority : ℤ) : Heap :=
  let s1 := setNode s node { nd s node with prio := priority }
  match (nd s1 node).parent with
  | none => s1
  | some next_parent =>
    let s2 := setNode s1 node { nd s1 node with parent := none }
    let s3 := if (nd s2 next_parent).left = some node then
        setNode s2 next_parent { nd s2 next_parent with left := (nd s2 node).right }
      else
        setNode s2 next_parent { nd s2 next_parent with right := (nd s2 node).right }
    let s4 := match (nd s3 node).right with
      | some r => setNode s3 r { nd s3 r with parent := some next_parent }
      | none => s3
    let s5 := setNode s4 node { nd s4 node with right := none }
    let s6 := place_half_tree compare s5 node
    restore_ranks_amended s6 (some next_parent) s6.nodes.length

/-- The default comparator `less<PriorityType>` at `PriorityType = ℤ`. -/
def ltCompare : ℤ → ℤ → Bool := fun a b => a < b

/-- The operation sequence that exhibits the rank-walk divergence: sixteen
singleton pushes, four pops (each preceded by a push of a fresh sacrificial
maximum so that only the sacrificial singleton is dismantled), building one
rank-4 half tree, followed by two upward reprioritizations that leave node 7
as a (0,2) node whose remaining rank-difference-0 child survives a further
cut. -/
def c3_ops : List (Heap → Heap) :=
  ((List.range 16).map (fun v s => push_or_reprioritize ltCompare s v ((v : ℤ) + 1))) ++
  [fun s => push_or_reprioritize ltCompare s 16 100,
   fun s => match s.first_root with | some fr => pop ltCompare s fr | none => s,
   fun s => push_or_reprioritize ltCompare s 17 101,
   fun s => match s.first_root with | some fr => pop ltCompare s fr | none => s,
   fun s => push_or_reprioritize ltCompare s 18 102,
   fun s => match s.first_root with | some fr => pop ltCompare s fr | none => s,
   fun s => push_or_reprioritize ltCompare s 19 103,
   fun s => match s.first_root with | some fr => pop ltCompare s fr | none => s,
   fun s => push_or_reprioritize ltCompare s 13 200,
   fun s => push_or_reprioritize ltCompare s 11 300]

/-- The heap reached by `c3_ops` from the empty heap. -/
def c3_state : Heap := c3_ops.foldl (fun s f => f s) {}

/-- A small heap with one live and one popped value: push value 0 at
priority 3, push value 1 at priority 5, then pop (removing value 1). -/
def c5_state : Heap :=
  let s := push_or_reprioritize ltCompare (push_or_reprioritize ltCompare {} 0 3) 1 5
  match s.first_root with
  | some fr => pop ltCompare s fr
  | none => s

end RPH

namespace RMQ

/-! ## Range-minimum query (`range_min_query.hpp`)

`RangeMinQuery<RandomAccessIterator>` is embedded over a sequence
`a : List ℤ`, with iterators as indices into `a`.  Heap-allocated
`CartesianTree::Node` objects are an arena, as for the rank-pairing heap.
The `while (!queue.empty())` loop of `CartesianTree::bit_encoding` reads
`queue.front()` but never pops the queue, so it never terminates; it is
embedded with explicit fuel, `none` meaning the loop is still running when
the fuel runs out. -/

/-- `RangeMinQuery::CartesianTree::Node`. -/
structure CTNode where
  iter : ℕ
  parent : Option ℕ := none
  left : Option ℕ := none
  right : Option ℕ := none
deriving Repr, DecidableEq, Inhabited

/-- A built Cartesian tree: the node arena and the root pointer. -/
structure CTArena where
  nodes : List CTNode := []
  root : Option ℕ := none
deriving Repr, DecidableEq, Inhabited

/-- The parent-climbing loop of the `CartesianTree` constructor:
`while (here ? *(new_node->iter) < *(here->iter) : false) here = here->parent;`.
The fuel (one more than the arena size at each call site) always outlasts the
finite parent chain. -/
def ct_climb (a : List ℤ) (nodes : List CTNode) (newIter : ℕ) :
    Option ℕ → ℕ → Option ℕ
  | here, 0 => here
  | none, _ + 1 => none
  | some h, fuel + 1 =>
    if a.getD newIter 0 < a.getD (nodes.getD h default).iter 0 then
      ct_climb a nodes newIter (nodes.getD h default).parent fuel
    else some h

/-- One iteration of the `for (; iter != end; iter++)` loop of the
`CartesianTree` constructor, on the state (arena, root, prev). -/
def ct_step (a : List ℤ) (st : List CTNode × ℕ × ℕ) (iterIdx : ℕ) :
    List CTNode × ℕ × ℕ :=
  let (nodes, root, prev) := st
  let nid := nodes.length
  match ct_climb a nodes iterIdx (some prev) (nodes.length + 1) with
  | some h =>
    -- new_node->parent = here; new_node->left = here->right; here->right = new_node
    let nodes1 := nodes ++ [{ iter := iterIdx, parent := some h,
                              left := (nodes.getD h default).right }]
    let nodes2 := nodes1.set h { nodes1.getD h default with right := some nid }
    (nodes2, root, nid)
  | none =>
    -- new_node->left = root; root = new_node
    (nodes ++ [{ iter := iterIdx, left := some root }], nid, nid)

/-- The `CartesianTree` constructor over `a[b..e)`.  Note that the source's
`for` loop restarts at `begin` after `root = new Node(iter)`, so the first
element is inserted twice (the loop body runs once for `iter = begin`). -/
def ct_build (a : List ℤ) (b e : ℕ) : CTArena :=
  if b = e then { root := none }
  else
    let st := (List.range' b (e - b)).foldl (ct_step a) ([{ iter := b }], 0, 0)
    { nodes := st.1, root := some st.2.1 }

/-- The `while (!queue.empty())` loop of `CartesianTree::bit_encoding`.  The
body reads `queue.front()` and pushes the children of a non-null front node,
but never pops, exactly as in the source; `none` means the fuel ran out with
the queue still non-empty. -/
def bit_encoding_loop (nodes : List CTNode) :
    List (Option ℕ) → ℕ → ℕ → ℕ → Option ℕ
  | _, _, _, 0 => none
  | [], encoding, _, _ + 1 => some encoding
  | node :: rest, encoding, i, fuel + 1 =>
    match node with
    | some n =>
      bit_encoding_loop nodes
        ((node :: rest) ++ [(nodes.getD n default).left, (nodes.getD n default).right])
        (encoding ||| 2 ^ i) (i + 1) fuel
    | none => bit_encoding_loop nodes (node :: rest) encoding (i + 1) fuel

/-- `CartesianTree::bit_encoding`, with fuel. -/
def bit_encoding (t : CTArena) (fuel : ℕ) : Option ℕ :=
  bit_encoding_loop t.nodes [t.root] 0 0 fuel

/-- The `while (tmp > 1) { log_size++; tmp /= 2; }` loop of the
`RangeMinQuery` constructor. -/
def log_size_loop (tmp : ℕ) (log : ℕ) : ℕ :=
  if tmp > 1 then log_size_loop (tmp / 2) (log + 1) else log
  termination_by tmp
  decreasing_by omega

/-- The table-building loop of the `RangeMinQuery` constructor: returns
`(greatest_smaller_power_of_2, powers_of_2)`.  Note
`greatest_smaller_power_of_2.resize(size, 0)` sizes the table to the number
of elements, not to `blocks.size() + 1`. -/
def build_tables (size : ℕ) : List ℕ × List ℕ :=
  let st := (List.range' 1 (size - 1)).foldl
    (fun st i =>
      let (gsp, powers, power_of_2, next_power_of_2, power) := st
      if i = next_power_of_2 then
        (gsp.set i (power + 1), powers ++ [next_power_of_2], next_power_of_2,
          next_power_of_2 * 2, power + 1)
      else
        (gsp.set i power, powers, power_of_2, next_power_of_2, power))
    (List.replicate size 0, [1], 1, 2, 0)
  (st.1, st.2.1)

/-- The `RangeMinQuery` constructor, followed to the first statement whose
value the rest of the construction depends on: the `bit_encoding()` of the
first block's Cartesian tree inside the block loop (reached whenever the
input is non-empty).  Everything after that call — memo deduplication,
`interval_memo()`, the block vector, and the sparse table — is unreachable,
because `bit_encoding` never returns. -/
def construct_to_first_block_id (a : List ℤ) (fuel : ℕ) : Option ℕ :=
  let size := a.length
  let log_size := log_size_loop size 0
  let block_size := log_size / 4 + 1
  let _tables := build_tables size
  if a.isEmpty then some 0
  else
    let block_end := min block_size size
    bit_encoding (ct_build a 0 block_end) fuel

end RMQ

namespace RPH

theorem restore_ranks_eq_amended (s : Heap) (cur : Option ℕ) (fuel : ℕ) :
    restore_ranks s cur fuel = restore_ranks_amended s cur fuel := by
  induction fuel generalizing s cur with
  | zero => cases cur <;> rfl
  | succ fuel ih =>
    cases cur with
    | none => rfl
    | some p =>
      simp only [restore_ranks, restore_ranks_amended]
      cases hL : (nd s p).left <;> cases hR : (nd s p).right <;>
        simp only [hL, hR, Option.isSome_none, Option.isSome_some, Bool.false_eq_true,
          false_and, and_false, true_and, if_false, ite_false]
      · exact ih _ _
      · exact ih _ _
      · exact ih _ _
      · split_ifs <;> first | rfl | omega | exact ih _ _

end RPH

namespace RPH

theorem nd_setNode_self (s : Heap) (i : ℕ) (n : Node) (h : i < s.nodes.length) :
    nd (setNode s i n) i = n := by
  simp [nd, setNode, List.getD_eq_getElem?_getD, List.getElem?_set_self, h]

/-- **C3** (amended): when `push_or_reprioritize` strictly raises the priority
of a live non-root node, the result is: cut the node from its parent,
re-insert it via `place_half_tree`, and walk up from the former parent
recomputing each ancestor's rank from its present children — but the early
stop (recomputed rank not less than the stored rank) applies only to
ancestors with both children; an ancestor with at most one child gets the
recomputed rank stored unconditionally (even when that raises its rank) and
the walk continues. -/
theorem C3_reprioritize_walk (compare : ℤ → ℤ → Bool) (s : Heap) (v node : ℕ) (p : ℤ)
    (hlook : s.current_nodes.lookup v = some (some node))
    (hlen : node < s.nodes.length)
    (hup : compare (nd s node).prio p = true)
    (hpar : ((nd s node).parent).isSome) :
    push_or_reprioritize compare s v p = reprioritize_cut_amended compare s node p := by
  have hnd1 : nd (setNode s node { nd s node with prio := p }) node =
      { nd s node with prio := p } := nd_setNode_self _ _ _ hlen
  rcases Option.isSome_iff_exists.mp hpar with ⟨np, hnp⟩
  have hstep : push_or_reprioritize compare s v p = reprioritize compare s node p := by
    unfold push_or_reprioritize
    rw [hlook]
  rw [hstep]
  unfold reprioritize reprioritize_cut_amended
  rw [if_pos hup]
  have hsc : (nd (setNode s node { nd s node with prio := p }) node).parent = some np := by
    rw [hnd1]; exact hnp
  dsimp only at hsc ⊢
  rw [hsc]
  exact restore_ranks_eq_amended _ _ _

set_option maxHeartbeats 40000000 in
/-- **C3** (witness for the amended theorem): the amended walk description is
exercised at the concrete heap `c3_state`, reprioritizing value 14 to 400. -/
theorem C3_reprioritize_walk_witness :
    c3_state.current_nodes.lookup 14 = some (some 14) ∧
    push_or_reprioritize ltCompare c3_state 14 400 =
      reprioritize_cut_amended ltCompare c3_state 14 400 :=
  ⟨by decide,
   C3_reprioritize_walk ltCompare c3_state 14 14 400 (by decide) (by decide)
     (by decide) (by decide)⟩

set_option maxHeartbeats 40000000 in
/-- **C3** (counterexample): at the reachable heap `c3_state` (node 14 is
live, non-root, and its priority is strictly raised), the source walk does
not implement the spec's walk: the spec walk stops at the former parent
(node 7, one remaining child of equal rank, so the recomputed rank 3 is not
less than the stored rank 2), while the source raises node 7's rank from 2
to 3 (and then node 15's from 3 to 4). -/
theorem C3_reprioritize_walk_counterexample :
    c3_state.current_nodes.lookup 14 = some (some 14) ∧
    ltCompare (nd c3_state 14).prio 400 = true ∧
    (nd c3_state 14).parent = some 7 ∧
    (nd (push_or_reprioritize ltCompare c3_state 14 400) 7).rank = 3 ∧
    (nd (reprioritize_cut_spec ltCompare c3_state 14 400) 7).rank = 2 ∧
    push_or_reprioritize ltCompare c3_state 14 400 ≠
      reprioritize_cut_spec ltCompare c3_state 14 400 := by
  have h1 : (nd (push_or_reprioritize ltCompare c3_state 14 400) 7).rank = 3 := by decide
  have h2 : (nd (reprioritize_cut_spec ltCompare c3_state 14 400) 7).rank = 2 := by decide
  refine ⟨by decide, by decide, by decide, h1, h2, fun h => ?_⟩
  rw [h, h2] at h1
  exact absurd h1 (by decide)

end RPH

/-- **C4** (counterexample): `top()` and `pop()` on an empty rank-pairing
heap do not abort with an assertion-style diagnostic — the source has no
emptiness check and dereferences the null `first_root` (undefined
behavior). -/
theorem C4_empty_counterexample :
    RPH.topE {} = .error .nullDeref ∧
    RPH.topE {} ≠ .error .assertionFailure ∧
    RPH.popE RPH.ltCompare {} = .error .nullDeref ∧
    RPH.popE RPH.ltCompare {} ≠ .error .assertionFailure := by
  refine ⟨rfl, fun h => absurd (Except.error.inj h) (by decide),
    rfl, fun h => absurd (Except.error.inj h) (by decide)⟩

/-- **C4** (amended): `min()`, `max()`, `pop_min()` and `pop_max()` on an
empty min-max heap fail the `assert(!values.empty())` assertion (an
unrecoverable abort with a diagnostic); `top()` and `pop()` on an empty
rank-pairing heap instead dereference a null pointer without any check or
diagnostic. -/
theorem C4_empty_behavior :
    MMH.minE ([] : List ℤ) = .error .assertionFailure ∧
    MMH.maxE ([] : List ℤ) = .error .assertionFailure ∧
    MMH.pop_minE ([] : List ℤ) = .error .assertionFailure ∧
    MMH.pop_maxE ([] : List ℤ) = .error .assertionFailure ∧
    RPH.topE {} = .error .nullDeref ∧
    RPH.popE RPH.ltCompare {} = .error .nullDeref :=
  ⟨rfl, rfl, rfl, rfl, rfl, rfl⟩

namespace RPH

/-- **C5**: `push_or_reprioritize` leaves the heap state entirely unchanged
when the value has already been popped (its map entry is the null
tombstone), and when the value is live but the new priority does not
compare greater than the stored priority. -/
theorem C5_push_or_reprioritize_noop (compare : ℤ → ℤ → Bool) (s : Heap)
    (v : ℕ) (p : ℤ) :
    (s.current_nodes.lookup v = some none → push_or_reprioritize compare s v p = s) ∧
    (∀ node, s.current_nodes.lookup v = some (some node) →
      compare (nd s node).prio p = false → push_or_reprioritize compare s v p = s) := by
  constructor
  · intro h
    unfold push_or_reprioritize
    rw [h]
  · intro node h hc
    have hstep : push_or_reprioritize compare s v p = reprioritize compare s node p := by
      unfold push_or_reprioritize
      rw [h]
    rw [hstep]
    unfold reprioritize
    simp [hc]

/-- **C5** (witness): on the concrete heap `c5_state` (values 0 and 1 were
pushed with priorities 3 and 5, then the top was popped, so value 1 is a
tombstone and value 0 is live at priority 3), re-pushing the popped value 1
and down-reprioritizing the live value 0 both leave the state unchanged. -/
theorem C5_push_or_reprioritize_noop_witness :
    c5_state.current_nodes.lookup 1 = some none ∧
    push_or_reprioritize ltCompare c5_state 1 7 = c5_state ∧
    c5_state.current_nodes.lookup 0 = some (some 0) ∧
    ltCompare (nd c5_state 0).prio 2 = false ∧
    push_or_reprioritize ltCompare c5_state 0 2 = c5_state :=
  ⟨by decide,
   (C5_push_or_reprioritize_noop ltCompare c5_state 1 7).1 (by decide),
   by decide, by decide,
   (C5_push_or_reprioritize_noop ltCompare c5_state 0 2).2 0 (by decide) (by decide)⟩

end RPH

/-- **C6** (counterexample): at `a = b = 0` on the odd level 1, the claim
says `cmp` returns true (since `a ≥ b`), but the source
`(level % 2 == 0) != (a > b)` returns false. -/
theorem C6_cmp_counterexample :
    MMH.cmp (0 : ℤ) 0 1 = false ∧ (0 : ℤ) ≥ 0 := by
  refine ⟨by decide, le_refl 0⟩

/-- **C6** (amended): `MinMaxHeap::cmp(a, b, level)` returns true iff `a ≤ b`
on even levels, and iff `a > b` (strictly) on odd levels — on odd levels a
tie yields false, unlike the claimed `a ≥ b`. -/
theorem C6_cmp_characterization {α : Type} [LinearOrder α] [Inhabited α]
    (a b : α) (level : ℤ) :
    MMH.cmp a b level = if level % 2 = 0 then decide (a ≤ b) else decide (a > b) := by
  unfold MMH.cmp
  by_cases h : level % 2 = 0
  · rcases le_or_lt a b with hab | hab
    · have hnot : ¬ (a > b) := not_lt.mpr hab
      simp [h, hab, hnot]
    · have hnot : ¬ (a ≤ b) := not_le.mpr hab
      simp [h, hab, hnot]
  · simp [h]

namespace RMQ

theorem bit_encoding_loop_none (nodes : List CTNode) (queue : List (Option ℕ))
    (enc i fuel : ℕ) (h : queue ≠ []) :
    bit_encoding_loop nodes queue enc i fuel = none := by
  induction fuel generalizing queue enc i with
  | zero =>
    cases queue with
    | nil => exact absurd rfl h
    | cons node rest => cases node <;> rfl
  | succ fuel ih =>
    cases queue with
    | nil => exact absurd rfl h
    | cons node rest =>
      cases node with
      | none => exact ih _ _ _ h
      | some n => exact ih _ _ _ (by simp)

/-- **C1**: the claim is vacuous on the code as written, and the code is at
fault: `CartesianTree::bit_encoding` reads `queue.front()` but never pops
the queue, so its `while (!queue.empty())` loop runs forever, and the
`RangeMinQuery` constructor — which calls it on the first block of any
non-empty input — never returns.  On the spec's own scenario sequence
`[4, 1, 3, 2, 5, 0, 6]` the embedded constructor is still looping after any
amount of fuel, so no query `range_min(lo, hi)` is ever reachable.  (Were
construction to complete, `range_min` additionally assigns `iter = lower`
instead of `iter = upper` when the upper sparse-table candidate is
smaller.) -/
theorem C1_construction_never_terminates :
    ∀ fuel : ℕ, construct_to_first_block_id [4, 1, 3, 2, 5, 0, 6] fuel = none := by
  intro fuel
  have e1 : log_size_loop 1 2 = 2 := by rw [log_size_loop]; norm_num
  have e2 : log_size_loop 3 1 = 2 := by rw [log_size_loop]; norm_num [e1]
  have e3 : log_size_loop 7 0 = 2 := by rw [log_size_loop]; norm_num [e2]
  have h1 : construct_to_first_block_id [4, 1, 3, 2, 5, 0, 6] fuel =
      bit_encoding (ct_build [4, 1, 3, 2, 5, 0, 6] 0 1) fuel := by
    simp only [construct_to_first_block_id, List.length_cons, List.length_nil, e3]
    norm_num
  rw [h1]
  exact bit_encoding_loop_none _ _ _ _ _ (by simp)

end RMQ

namespace ST

/-! ## Suffix tree (`suffix_tree.hpp`)

Only the class declaration of `SuffixTree` is present under `src/` (the
member definitions, including Ukkonen's construction and the query walks,
live in an implementation file that the repository snapshot does not
contain), so `longest_overlap` is modelled from the spec.  Strings are
`List Char`; the sentinel (the null character) is outside the alphabet of
both arguments by the documented precondition. -/

/-- Whether the first `k` characters of the query equal the last `k`
characters of the text: `Q[0..k) == S[|S|-k..|S|)`. -/
def overlap_at (s q : List Char) (k : ℕ) : Bool :=
  decide (q.take k = s.drop (s.length - k))

/-- Modelled from the spec: the scan for the largest overlap length, from
`k` down to 0.  (`SuffixTree::longest_overlap` is missing from `src/`;
§4.3 of the spec defines it as "the length of the longest prefix of `query`
that equals some suffix of `text`", with 0 for an empty tree or query.) -/
def overlap_from (s q : List Char) : ℕ → ℕ
  | 0 => 0
  | k + 1 => if overlap_at s q (k + 1) then k + 1 else overlap_from s q k

/-- Modelled from the spec: `SuffixTree::longest_overlap` — the largest
`k ≤ min(|S|, |Q|)` with `Q[0..k) == S[|S|-k..|S|)` (0 when only the empty
prefix matches, in particular for an empty tree or an empty query). -/
def longest_overlap (s q : List Char) : ℕ :=
  overlap_from s q (min s.length q.length)

theorem overlap_from_le (s q : List Char) (k : ℕ) : overlap_from s q k ≤ k := by
  induction k with
  | zero => simp [overlap_from]
  | succ k ih =>
    rw [overlap_from]
    split
    · exact le_refl _
    · exact le_trans ih (Nat.le_succ k)

theorem overlap_from_matches (s q : List Char) (k : ℕ) :
    overlap_at s q (overlap_from s q k) = true := by
  induction k with
  | zero => simp [overlap_from, overlap_at]
  | succ k ih =>
    rw [overlap_from]
    split
    · assumption
    · exact ih

theorem overlap_from_greatest (s q : List Char) (k j : ℕ) (hj : j ≤ k)
    (hm : overlap_at s q j = true) : j ≤ overlap_from s q k := by
  induction k with
  | zero => omega
  | succ k ih =>
    rw [overlap_from]
    split
    · omega
    · rcases Nat.lt_or_ge j (k + 1) with h | h
      · exact ih (by omega)
      · have : j = k + 1 := by omega
        subst this
        simp_all

/-- **C8**: for every text `S` and query `Q`, `longest_overlap` returns the
maximum `k` such that `Q[0..k)` equals `S[|S|-k..|S|)`: the returned length
is within both strings, the prefix of that length equals the corresponding
suffix, and any other within-bounds matching length is no larger (hence the
result is 0 for an empty text or an empty query). -/
theorem C8_longest_overlap_is_greatest_match (s q : List Char) :
    longest_overlap s q ≤ s.length ∧ longest_overlap s q ≤ q.length ∧
    q.take (longest_overlap s q) = s.drop (s.length - longest_overlap s q) ∧
    (∀ j, j ≤ s.length → j ≤ q.length →
      q.take j = s.drop (s.length - j) → j ≤ longest_overlap s q) := by
  refine ⟨?_, ?_, ?_, ?_⟩
  · exact le_trans (overlap_from_le s q _) (min_le_left _ _)
  · exact le_trans (overlap_from_le s q _) (min_le_right _ _)
  · have h := overlap_from_matches s q (min s.length q.length)
    exact of_decide_eq_true h
  · intro j hs hq hm
    exact overlap_from_greatest s q _ j (le_min hs hq) (decide_eq_true hm)

/-- **C8** (witness): the spec's own scenario — text `ACGTGACA`, query
`ACAGCCT` — where the longest prefix of the query matching a suffix of the
text is `ACA`, of length 3. -/
theorem C8_longest_overlap_is_greatest_match_witness :
    3 ≤ longest_overlap
        ['A', 'C', 'G', 'T', 'G', 'A', 'C', 'A'] ['A', 'C', 'A', 'G', 'C', 'C', 'T'] ∧
    longest_overlap
        ['A', 'C', 'G', 'T', 'G', 'A', 'C', 'A'] ['A', 'C', 'A', 'G', 'C', 'C', 'T'] = 3 :=
  ⟨(C8_longest_overlap_is_greatest_match
      ['A', 'C', 'G', 'T', 'G', 'A', 'C', 'A'] ['A', 'C', 'A', 'G', 'C', 'C', 'T']).2.2.2
      3 (by decide) (by decide) (by decide),
   by decide⟩

end ST

namespace UPQ

/-! ## Updateable priority queue (`updateable_priority_queue.hpp`)

`UpdateablePriorityQueue<T, Identity, Container, Compare>` wraps a
`priority_queue` and an `unordered_set<Identity> seen`.  The underlying
heap is embedded as a list kept sorted in non-increasing order under a
linear order on `T` (the abstract content of a binary heap: `top` is the
greatest element, `pop` removes it, `push` inserts); `seen` is a
duplicate-free list.  The identity extractor `get_identity` is an explicit
function argument, as in the source. -/

variable {T Id : Type} [LinearOrder T] [DecidableEq Id]

/-- Insertion into the non-increasing list modelling `queue.push` /
`queue.emplace` (among equal elements the new one is placed last; the
claims do not depend on the tie order of `std::priority_queue`). -/
def insertSorted : List T → T → List T
  | [], x => [x]
  | y :: ys, x => if x ≤ y then y :: insertSorted ys x else x :: y :: ys

/-- `unordered_set::insert`. -/
def seenInsert (l : List Id) (x : Id) : List Id :=
  if x ∈ l then l else l ++ [x]

/-- The two data members of `UpdateablePriorityQueue`. -/
structure State (T Id : Type) where
  queue : List T := []
  seen : List Id := []
deriving Repr, DecidableEq

variable (get_identity : T → Id)

/-- The cleanup loop shared by `pop` and `emplace`:
`while (!empty() && seen.count(get_identity(queue.top()))) queue.pop();`. -/
def drain (seen : List Id) : List T → List T
  | [] => []
  | x :: rest => if get_identity x ∈ seen then drain seen rest else x :: rest

/-- `UpdateablePriorityQueue::push`: queue the item only if its identity has
not been seen. -/
def push (s : State T Id) (item : T) : State T Id :=
  if get_identity item ∈ s.seen then s
  else { s with queue := insertSorted s.queue item }

/-- `UpdateablePriorityQueue::pop` under its precondition of a non-empty
queue (`top()` asserts): mark the top's identity seen, pop it, and drain
seen repeats from the top.  On an empty queue the embedding is a no-op (the
C++ would fail `top()`'s assertion). -/
def pop (s : State T Id) : State T Id :=
  match s.queue with
  | [] => s
  | x :: rest =>
    let seen1 := seenInsert s.seen (get_identity x)
    { queue := drain get_identity seen1 rest, seen := seen1 }

/-- `UpdateablePriorityQueue::emplace`: always add the item, then clean up
any invariant-violating repeats on top of the queue. -/
def emplace (s : State T Id) (item : T) : State T Id :=
  { s with queue := drain get_identity s.seen (insertSorted s.queue item) }

/-- A client operation on the queue. -/
inductive Op (T : Type) where
  | push (x : T)
  | emplace (x : T)
  | pop

def applyOp (s : State T Id) : Op T → State T Id
  | .push x => push get_identity s x
  | .emplace x => emplace get_identity s x
  | .pop => pop get_identity s

/-- Running a sequence of operations from the empty queue. -/
def run (ops : List (Op T)) : State T Id :=
  ops.foldl (applyOp get_identity) {}

theorem drain_head (seen : List Id) (q : List T) :
    drain get_identity seen q = [] ∨
      ∃ x rest, drain get_identity seen q = x :: rest ∧ get_identity x ∉ seen := by
  induction q with
  | nil => exact Or.inl rfl
  | cons x rest ih =>
    rw [drain]
    split
    · exact ih
    · exact Or.inr ⟨x, rest, rfl, by assumption⟩

theorem insertSorted_head (q : List T) (x : T) :
    ∀ y rest, insertSorted q x = y :: rest → y = x ∨ (∃ t, q = y :: t) := by
  cases q with
  | nil =>
    intro y rest h
    rw [insertSorted] at h
    injection h with h1 _
    exact Or.inl h1.symm
  | cons z zs =>
    intro y rest h
    rw [insertSorted] at h
    split at h
    · injection h with h1 _
      exact Or.inr ⟨zs, by rw [h1]⟩
    · injection h with h1 _
      exact Or.inl h1.symm

/-- The top-is-unseen invariant. -/
def Inv (s : State T Id) : Prop :=
  ∀ x rest, s.queue = x :: rest → get_identity x ∉ s.seen

theorem inv_applyOp (s : State T Id) (op : Op T) (h : Inv get_identity s) :
    Inv get_identity (applyOp get_identity s op) := by
  cases op with
  | push item =>
    rw [applyOp, push]
    split
    · exact h
    · rename_i hni
      intro x rest hq
      replace hq : insertSorted s.queue item = x :: rest := hq
      show get_identity x ∉ s.seen
      rcases insertSorted_head s.queue item x rest hq with h1 | ⟨t, h1⟩
      · subst h1
        exact hni
      · exact h x t h1
  | emplace item =>
    intro x rest hq
    replace hq : drain get_identity s.seen (insertSorted s.queue item) = x :: rest := hq
    show get_identity x ∉ s.seen
    rcases drain_head get_identity s.seen (insertSorted s.queue item) with h1 | ⟨y, t, h1, h2⟩
    · rw [h1] at hq
      exact absurd hq (by simp)
    · rw [h1] at hq
      injection hq with hx _
      subst hx
      exact h2
  | pop =>
    rw [applyOp, pop]
    rcases hq2 : s.queue with _ | ⟨z, zs⟩
    · exact h
    · intro x rest hq
      replace hq : drain get_identity (seenInsert s.seen (get_identity z)) zs = x :: rest := hq
      show get_identity x ∉ seenInsert s.seen (get_identity z)
      rcases drain_head get_identity (seenInsert s.seen (get_identity z)) zs
        with h1 | ⟨y, t, h1, h2⟩
      · rw [h1] at hq
        exact absurd hq (by simp)
      · rw [h1] at hq
        injection hq with hx _
        subst hx
        exact h2

/-- **C9**: after any sequence of `push`, `emplace`, and `pop` operations
from an empty queue, whenever the queue is non-empty the element at its top
has an identity that is not in the seen set — exactly the identities popped
earlier, since only `pop` extends `seen` — because `push` ignores items
with seen identities and `pop` and `emplace` drain seen identities from
the front of the underlying heap before returning. -/
theorem C9_top_never_popped (get_id : T → Id) (ops : List (Op T)) :
    (∀ x rest, (run get_id ops).queue = x :: rest → get_id x ∉ (run get_id ops).seen) ∧
    (∀ item, get_id item ∈ (run get_id ops).seen →
      push get_id (run get_id ops) item = run get_id ops) := by
  constructor
  · have hrun : Inv get_id (run get_id ops) := by
      rw [run]
      have hbase : Inv get_id ({} : State T Id) := by
        intro x rest h
        exact absurd h (by simp)
      generalize ({} : State T Id) = s0 at hbase ⊢
      induction ops generalizing s0 with
      | nil => exact hbase
      | cons op rest ih =>
        rw [List.foldl_cons]
        exact ih _ (inv_applyOp get_id s0 op hbase)
    exact hrun
  · intro item hmem
    rw [push, if_pos hmem]

/-- **C9** (witness): with items as their own identities, push 5 and 3, pop
(removing 5 and marking it seen), then emplace 5 again: the drain removes
the re-added seen item, the queue is `[3]`, and the top 3 was never
popped. -/
theorem C9_top_never_popped_witness :
    (run (id : ℤ → ℤ) [Op.push (5 : ℤ), Op.push 3, Op.pop, Op.emplace 5]).queue =
      [(3 : ℤ)] ∧
    (id (3 : ℤ)) ∉ (run (id : ℤ → ℤ) [Op.push (5 : ℤ), Op.push 3, Op.pop,
      Op.emplace 5]).seen :=
  ⟨by decide,
   (C9_top_never_popped (id : ℤ → ℤ)
      [Op.push (5 : ℤ), Op.push 3, Op.pop, Op.emplace 5]).1 3 [] (by decide)⟩

end UPQ

namespace UF

/-! ## Union-find (`union_find.hpp`)

`UnionFind` stores a `vector<UFNode> uf_nodes`; the embedding is a
`List UFNode`, with the `unordered_set<size_t> children` embedded as an
insertion-ordered duplicate-free list.  The upward traversal of
`find_group` and the downward traversal of `group` are embedded with fuel
(`uf.length + 1` at every call site), which the invariants proved below
show is never exhausted.  The DFS of `group` keeps the stack top at the
head of the list, so the enumeration order differs from the source's
`vector`-backed stack; `group`'s order is documented as arbitrary. -/

/-- `UnionFind::UFNode`. -/
structure UFNode where
  rank : ℕ
  size : ℕ
  head : ℕ
  children : List ℕ
deriving Repr, DecidableEq

instance : Inhabited UFNode := ⟨⟨0, 1, 0, []⟩⟩

/-- `UnionFind::UnionFind(size)`: n singleton nodes. -/
def init (n : ℕ) : List UFNode :=
  (List.range n).map (fun i => ⟨0, 1, i, []⟩)

def nodeAt (uf : List UFNode) (i : ℕ) : UFNode := uf.getD i default

def modifyNode (uf : List UFNode) (i : ℕ) (f : UFNode → UFNode) : List UFNode :=
  uf.set i (f (nodeAt uf i))

/-- `unordered_set::insert` on the insertion-ordered embedding. -/
def childInsert (l : List ℕ) (x : ℕ) : List ℕ :=
  if x ∈ l then l else l ++ [x]

/-- The upward loop of `find_group`:
`while (uf_nodes[i].head != i) { path.push_back(i); i = uf_nodes[i].head; }`.
Returns the collected path and the root. -/
def ascend (uf : List UFNode) : ℕ → List ℕ → ℕ → List ℕ × ℕ
  | i, path, 0 => (path, i)
  | i, path, fuel + 1 =>
    if (nodeAt uf i).head = i then (path, i)
    else ascend uf (nodeAt uf i).head (path ++ [i]) fuel

/-- The path-compression loop of `find_group`, over the consecutive pairs
`(path[p-1], path[p])`: re-point `path[p-1]` at the root, remove it from its
old parent's child set, and add it to the root's child set. -/
def compress (uf : List UFNode) (root : ℕ) : List (ℕ × ℕ) → List UFNode
  | [] => uf
  | (j, pj) :: rest =>
    let uf1 := modifyNode uf j (fun nd => { nd with head := root })
    let uf2 := modifyNode uf1 pj (fun nd => { nd with children := nd.children.erase j })
    let uf3 := modifyNode uf2 root (fun nd => { nd with children := childInsert nd.children j })
    compress uf3 root rest

/-- `UnionFind::find_group`: returns the representative and the (possibly
compressed) new state. -/
def find_group (uf : List UFNode) (i : ℕ) : ℕ × List UFNode :=
  let pr := ascend uf i [] (uf.length + 1)
  (pr.2, compress uf pr.2 (pr.1.zip pr.1.tail))

/-- `UnionFind::union_groups`. -/
def union_groups (uf : List UFNode) (i j : ℕ) : List UFNode :=
  let fi := find_group uf i
  let head_i := fi.1
  let fj := find_group fi.2 j
  let head_j := fj.1
  let uf2 := fj.2
  if head_i = head_j then uf2
  else if (nodeAt uf2 head_i).rank > (nodeAt uf2 head_j).rank then
    -- node_j.head = head_i; node_i.children.insert(head_j); node_i.size += node_j.size
    let uf3 := modifyNode uf2 head_j (fun nd => { nd with head := head_i })
    let uf4 := modifyNode uf3 head_i
      (fun nd => { nd with children := childInsert nd.children head_j })
    modifyNode uf4 head_i
      (fun nd => { nd with size := nd.size + (nodeAt uf4 head_j).size })
  else
    -- node_i.head = head_j; node_j.children.insert(head_i); node_j.size += node_i.size;
    -- if ranks tie, node_j.rank++
    let uf3 := modifyNode uf2 head_i (fun nd => { nd with head := head_j })
    let uf4 := modifyNode uf3 head_j
      (fun nd => { nd with children := childInsert nd.children head_i })
    let uf5 := modifyNode uf4 head_j
      (fun nd => { nd with size := nd.size + (nodeAt uf4 head_i).size })
    if (nodeAt uf5 head_j).rank = (nodeAt uf5 head_i).rank then
      modifyNode uf5 head_j (fun nd => { nd with rank := nd.rank + 1 })
    else uf5

/-- `UnionFind::group_size`: the size stored at the representative. -/
def group_size (uf : List UFNode) (i : ℕ) : ℕ × List UFNode :=
  let fr := find_group uf i
  ((nodeAt fr.2 fr.1).size, fr.2)

/-- The stack-based traversal of `UnionFind::group` (stack top at the head
of the list). -/
def dfs (uf : List UFNode) : List ℕ → List ℕ → ℕ → List ℕ
  | [], acc, _ => acc
  | _, acc, 0 => acc
  | curr :: stack, acc, fuel + 1 =>
    dfs uf ((nodeAt uf curr).children ++ stack) (acc ++ [curr]) fuel

/-- `UnionFind::group`: all members of `i`'s group, via the child sets. -/
def group (uf : List UFNode) (i : ℕ) : List ℕ × List UFNode :=
  let fr := find_group uf i
  (dfs fr.2 [fr.1] [] (fr.2.length + 1), fr.2)

end UF

namespace UF

/-- Pure (non-compressing) root computation: iterate `head` with fuel. -/
def rootF (uf : List UFNode) : ℕ → ℕ → ℕ
  | j, 0 => j
  | j, fuel + 1 => if (nodeAt uf j).head = j then j else rootF uf (nodeAt uf j).head fuel

/-- The representative of `j`'s group, read off without mutating the state
(`uf.length + 1` iterations always reach the fixpoint, by `rootF_spec`). -/
def rootOf (uf : List UFNode) (j : ℕ) : ℕ := rootF uf j (uf.length + 1)

/-- `j` is a root: its head points to itself. -/
def isRoot (uf : List UFNode) (j : ℕ) : Prop := (nodeAt uf j).head = j

/-- Reachability along head pointers (from a node up towards its root). -/
inductive Reaches (uf : List UFNode) : ℕ → ℕ → Prop where
  | refl (j : ℕ) : Reaches uf j j
  | step (j k : ℕ) : (nodeAt uf j).head ≠ j → Reaches uf (nodeAt uf j).head k →
      Reaches uf j k

/-- The two structural invariants that make head chains terminate: heads
stay in range, and ranks strictly increase along non-trivial head edges. -/
def Asc (uf : List UFNode) : Prop :=
  ∀ j, j < uf.length →
    (nodeAt uf j).head < uf.length ∧
    ((nodeAt uf j).head ≠ j →
      (nodeAt uf j).rank < (nodeAt uf (nodeAt uf j).head).rank)

/-- Termination measure for the head chain: how many in-range nodes have
rank at least `j`'s rank. -/
def mAsc (uf : List UFNode) (j : ℕ) : ℕ :=
  ((Finset.range uf.length).filter
    (fun k => (nodeAt uf j).rank ≤ (nodeAt uf k).rank)).card

theorem mAsc_pos (uf : List UFNode) (j : ℕ) (hj : j < uf.length) : 0 < mAsc uf j := by
  apply Finset.card_pos.mpr
  exact ⟨j, Finset.mem_filter.mpr ⟨Finset.mem_range.mpr hj, le_refl _⟩⟩

theorem mAsc_step (uf : List UFNode) (h : Asc uf) (j : ℕ) (hj : j < uf.length)
    (hnr : (nodeAt uf j).head ≠ j) : mAsc uf (nodeAt uf j).head < mAsc uf j := by
  have hrank := (h j hj).2 hnr
  apply Finset.card_lt_card
  constructor
  · intro k hk
    rcases Finset.mem_filter.mp hk with ⟨hk1, hk2⟩
    exact Finset.mem_filter.mpr ⟨hk1, le_trans (le_of_lt hrank) hk2⟩
  · intro hsub
    have hjmem : j ∈ (Finset.range uf.length).filter
        (fun k => (nodeAt uf j).rank ≤ (nodeAt uf k).rank) :=
      Finset.mem_filter.mpr ⟨Finset.mem_range.mpr hj, le_refl _⟩
    have := Finset.mem_filter.mp (hsub hjmem)
    omega

/-- With enough fuel, `rootF` reaches a genuine root, stays in range, and is
`Reaches`-reachable. -/
theorem rootF_spec (uf : List UFNode) (h : Asc uf) :
    ∀ fuel j, j < uf.length → mAsc uf j ≤ fuel →
      isRoot uf (rootF uf j fuel) ∧ rootF uf j fuel < uf.length ∧
        Reaches uf j (rootF uf j fuel) := by
  intro fuel
  induction fuel with
  | zero =>
    intro j hj hm
    exact absurd hm (by have := mAsc_pos uf j hj; omega)
  | succ fuel ih =>
    intro j hj hm
    rw [rootF]
    split
    · exact ⟨by assumption, hj, Reaches.refl j⟩
    · rename_i hnr
      have hstep := mAsc_step uf h j hj hnr
      have hlt := (h j hj).1
      rcases ih (nodeAt uf j).head hlt (by omega) with ⟨h1, h2, h3⟩
      exact ⟨h1, h2, Reaches.step j _ hnr h3⟩

theorem rootF_fuel_max (uf : List UFNode) (h : Asc uf) :
    ∀ fuel1 fuel2 j, j < uf.length → mAsc uf j ≤ fuel1 → mAsc uf j ≤ fuel2 →
      rootF uf j fuel1 = rootF uf j fuel2 := by
  intro fuel1
  induction fuel1 with
  | zero =>
    intro fuel2 j hj hm
    exact absurd hm (by have := mAsc_pos uf j hj; omega)
  | succ fuel1 ih =>
    intro fuel2 j hj hm1 hm2
    cases fuel2 with
    | zero => exact absurd hm2 (by have := mAsc_pos uf j hj; omega)
    | succ fuel2 =>
      rw [rootF, rootF]
      split
      · rfl
      · rename_i hnr
        have hstep := mAsc_step uf h j hj hnr
        exact ih fuel2 (nodeAt uf j).head (h j hj).1 (by omega) (by omega)

theorem mAsc_le_length (uf : List UFNode) (j : ℕ) : mAsc uf j ≤ uf.length := by
  calc mAsc uf j ≤ (Finset.range uf.length).card := Finset.card_filter_le _ _
  _ = uf.length := Finset.card_range _

theorem rootOf_spec (uf : List UFNode) (h : Asc uf) (j : ℕ) (hj : j < uf.length) :
    isRoot uf (rootOf uf j) ∧ rootOf uf j < uf.length ∧ Reaches uf j (rootOf uf j) :=
  rootF_spec uf h _ j hj (le_trans (mAsc_le_length uf j) (by omega))

theorem rootOf_isRoot_self (uf : List UFNode) (j : ℕ) (hr : isRoot uf j) :
    rootOf uf j = j := by
  have hr2 : (nodeAt uf j).head = j := hr
  rw [rootOf, rootF, if_pos hr2]

theorem rootOf_head (uf : List UFNode) (h : Asc uf) (j : ℕ) (hj : j < uf.length)
    (hnr : (nodeAt uf j).head ≠ j) : rootOf uf j = rootOf uf (nodeAt uf j).head := by
  have h1 : rootOf uf j = rootF uf (nodeAt uf j).head uf.length := by
    rw [rootOf, rootF, if_neg hnr]
  rw [h1, rootOf]
  apply rootF_fuel_max uf h _ _ _ (h j hj).1
  · have := mAsc_step uf h j hj hnr
    have := mAsc_le_length uf j
    omega
  · have := mAsc_le_length uf (nodeAt uf j).head
    omega

/-- `Reaches` respects `rootOf`. -/
theorem reaches_rootOf (uf : List UFNode) (h : Asc uf) (j k : ℕ)
    (hr : Reaches uf j k) (hj : j < uf.length) : rootOf uf j = rootOf uf k := by
  induction hr with
  | refl => rfl
  | step a b hnr _ ih =>
    rw [rootOf_head uf h a hj hnr]
    exact ih (h a hj).1

theorem reaches_root_eq (uf : List UFNode) (h : Asc uf) (j r : ℕ)
    (hr : Reaches uf j r) (hj : j < uf.length) (hroot : isRoot uf r) :
    r = rootOf uf j := by
  have h1 := reaches_rootOf uf h j r hr hj
  rw [h1, rootOf_isRoot_self uf r hroot]

/-- Ranks are monotone along `Reaches`. -/
theorem reaches_rank_le (uf : List UFNode) (h : Asc uf) (j k : ℕ)
    (hr : Reaches uf j k) (hj : j < uf.length) :
    (nodeAt uf j).rank ≤ (nodeAt uf k).rank := by
  induction hr with
  | refl => exact le_refl _
  | step a b hnr _ ih =>
    exact le_trans (le_of_lt ((h a hj).2 hnr)) (ih (h a hj).1)

/-- A non-trivial `Reaches` passes through a final step into its target. -/
theorem reaches_last_step (uf : List UFNode) (j k : ℕ) (hr : Reaches uf j k) :
    j = k ∨ ∃ z, Reaches uf j z ∧ (nodeAt uf z).head = k ∧ z ≠ k := by
  induction hr with
  | refl => exact Or.inl rfl
  | step a b hnr hr2 ih =>
    rcases ih with h1 | ⟨z, hz1, hz2, hz3⟩
    · subst h1
      exact Or.inr ⟨a, Reaches.refl a, rfl, Ne.symm hnr⟩
    · exact Or.inr ⟨z, Reaches.step a z hnr hz1, hz2, hz3⟩

theorem reaches_total (uf : List UFNode) (j a b : ℕ)
    (h1 : Reaches uf j a) :
    Reaches uf j b → Reaches uf a b ∨ Reaches uf b a := by
  induction h1 with
  | refl => exact fun h2 => Or.inl h2
  | step _ _ hnr hr ih =>
    intro h2
    cases h2 with
    | refl => exact Or.inr (Reaches.step _ _ hnr hr)
    | step _ _ hnr2 hr2 => exact ih hr2

end UF

namespace UF

theorem length_modifyNode (uf : List UFNode) (i : ℕ) (f : UFNode → UFNode) :
    (modifyNode uf i f).length = uf.length := by
  simp [modifyNode]

theorem nodeAt_modifyNode_self (uf : List UFNode) (i : ℕ) (f : UFNode → UFNode)
    (h : i < uf.length) : nodeAt (modifyNode uf i f) i = f (nodeAt uf i) := by
  simp [modifyNode, nodeAt, List.getD_eq_getElem?_getD, List.getElem?_set_self h]

theorem nodeAt_modifyNode_other (uf : List UFNode) (i : ℕ) (f : UFNode → UFNode)
    (j : ℕ) (h : i ≠ j) : nodeAt (modifyNode uf i f) j = nodeAt uf j := by
  simp [modifyNode, nodeAt, List.getD_eq_getElem?_getD, List.getElem?_set_ne h]

/-- `Asc` only looks at heads and ranks. -/
theorem asc_congr (uf uf' : List UFNode) (hlen : uf'.length = uf.length)
    (hh : ∀ j, (nodeAt uf' j).head = (nodeAt uf j).head)
    (hr : ∀ j, (nodeAt uf' j).rank = (nodeAt uf j).rank)
    (h : Asc uf) : Asc uf' := by
  intro j hj
  rw [hlen] at hj
  rcases h j hj with ⟨h1, h2⟩
  refine ⟨by rw [hh, hlen]; exact h1, ?_⟩
  intro hne
  rw [hh] at hne ⊢
  rw [hr, hr]
  exact h2 hne

/-- `rootF` only looks at heads. -/
theorem rootF_congr (uf uf' : List UFNode)
    (hh : ∀ j, (nodeAt uf' j).head = (nodeAt uf j).head) :
    ∀ fuel j, rootF uf' j fuel = rootF uf j fuel := by
  intro fuel
  induction fuel with
  | zero => intro j; rfl
  | succ fuel ih =>
    intro j
    rw [rootF, rootF, hh]
    split
    · rfl
    · rw [ih]

theorem rootOf_congr (uf uf' : List UFNode) (hlen : uf'.length = uf.length)
    (hh : ∀ j, (nodeAt uf' j).head = (nodeAt uf j).head) (j : ℕ) :
    rootOf uf' j = rootOf uf j := by
  rw [rootOf, rootOf, hlen]
  exact rootF_congr uf uf' hh _ j

theorem reaches_rank_lt (uf : List UFNode) (h : Asc uf) (a b : ℕ)
    (hr : Reaches uf a b) (ha : a < uf.length) (hne : a ≠ b) :
    (nodeAt uf a).rank < (nodeAt uf b).rank := by
  cases hr with
  | refl => exact absurd rfl hne
  | step _ _ hnr hr2 =>
    exact lt_of_lt_of_le ((h a ha).2 hnr)
      (reaches_rank_le uf h _ b hr2 (h a ha).1)

/-- A non-root node is strictly below its root in rank. -/
theorem rank_lt_root (uf : List UFNode) (h : Asc uf) (a : ℕ) (ha : a < uf.length)
    (hnr : ¬ isRoot uf a) :
    (nodeAt uf a).rank < (nodeAt uf (rootOf uf a)).rank := by
  rcases rootOf_spec uf h a ha with ⟨hr1, _, hr3⟩
  refine reaches_rank_lt uf h a _ hr3 ha ?_
  intro heq
  rw [← heq] at hr1
  exact hnr hr1

/-- The full data-structure invariant. -/
structure Inv (uf : List UFNode) : Prop where
  asc : Asc uf
  nodup : ∀ k, k < uf.length → (nodeAt uf k).children.Nodup
  child_iff : ∀ k, k < uf.length → ∀ j,
    (j ∈ (nodeAt uf k).children ↔
      (j < uf.length ∧ (nodeAt uf j).head = k ∧ j ≠ k))
  size_eq : ∀ r, r < uf.length → isRoot uf r →
    (nodeAt uf r).size =
      ((List.range uf.length).filter (fun j => rootOf uf j = r)).length

/-- Re-pointing a non-root node directly at its own root changes no node's
representative. -/
theorem repoint_nonroot_rootOf (uf uf' : List UFNode) (a : ℕ)
    (hlen : uf'.length = uf.length)
    (hheads : ∀ j, j ≠ a → (nodeAt uf' j).head = (nodeAt uf j).head)
    (hha : (nodeAt uf' a).head = rootOf uf a)
    (ha : a < uf.length) (hasc : Asc uf) (hasc' : Asc uf')
    (hnra : ¬ isRoot uf a) :
    ∀ j, j < uf.length → rootOf uf' j = rootOf uf j := by
  rcases rootOf_spec uf hasc a ha with ⟨hra_root, hra_lt, _⟩
  have hra_ne : rootOf uf a ≠ a := by
    intro heq
    rw [heq] at hra_root
    exact hnra hra_root
  have hroot_pres : ∀ x, x ≠ a → isRoot uf x → isRoot uf' x := by
    intro x hx hrx
    rw [isRoot, hheads x hx]
    exact hrx
  intro j hj
  rcases rootOf_spec uf hasc j hj with ⟨hj_root, hj_lt, hj_reach⟩
  -- transport the chain to uf': any node reaching a root in uf still
  -- reaches that root in uf', because a's new edge shortcuts to its root
  have key : ∀ x r0, Reaches uf x r0 → isRoot uf r0 → x < uf.length →
      Reaches uf' x r0 := by
    intro x r0 hx
    induction hx with
    | refl => intro _ _; exact Reaches.refl _
    | step y k hnr hr2 ih =>
      intro hkroot hy
      by_cases hya : y = a
      · subst hya
        -- the chain through y = a ends at a's own root, hence k = rootOf uf a
        have h1 : k = rootOf uf y :=
          reaches_root_eq uf hasc y k (Reaches.step y k hnr hr2) hy hkroot
        have h2 : (nodeAt uf' y).head ≠ y := by
          rw [hha]
          exact hra_ne
        refine Reaches.step y k h2 ?_
        rw [hha, h1]
        exact Reaches.refl _
      · refine Reaches.step y k (by rw [hheads y hya]; exact hnr) ?_
        rw [hheads y hya]
        exact ih hkroot (hasc y hy).1
  have h2 := key j (rootOf uf j) hj_reach hj_root hj
  have h3 : isRoot uf' (rootOf uf j) := by
    apply hroot_pres _ _ hj_root
    intro heq
    rw [heq] at hj_root
    exact hnra hj_root
  exact (reaches_root_eq uf' hasc' j _ h2 (by omega) h3).symm

end UF

namespace UF

theorem reaches_trans (uf : List UFNode) (a b c : ℕ)
    (h1 : Reaches uf a b) (h2 : Reaches uf b c) : Reaches uf a c := by
  induction h1 with
  | refl => exact h2
  | step x y hnr _ ih => exact Reaches.step x c hnr (ih h2)

theorem childInsert_mem (l : List ℕ) (x y : ℕ) :
    y ∈ childInsert l x ↔ y ∈ l ∨ y = x := by
  rw [childInsert]
  split
  · rename_i hx
    constructor
    · exact Or.inl
    · rintro (h | h)
      · exact h
      · rw [h]; exact hx
  · simp

theorem childInsert_nodup (l : List ℕ) (x : ℕ) (h : l.Nodup) :
    (childInsert l x).Nodup := by
  rw [childInsert]
  split
  · exact h
  · rename_i hx
    simp [List.nodup_append, h, hx]

theorem head_modifyNode (uf : List UFNode) (i : ℕ) (f : UFNode → UFNode) (x : ℕ)
    (hi : i < uf.length) (hf : ∀ nd, (f nd).head = nd.head) :
    (nodeAt (modifyNode uf i f) x).head = (nodeAt uf x).head := by
  by_cases hix : i = x
  · subst hix; rw [nodeAt_modifyNode_self _ _ _ hi, hf]
  · rw [nodeAt_modifyNode_other _ _ _ _ hix]

theorem rank_modifyNode (uf : List UFNode) (i : ℕ) (f : UFNode → UFNode) (x : ℕ)
    (hi : i < uf.length) (hf : ∀ nd, (f nd).rank = nd.rank) :
    (nodeAt (modifyNode uf i f) x).rank = (nodeAt uf x).rank := by
  by_cases hix : i = x
  · subst hix; rw [nodeAt_modifyNode_self _ _ _ hi, hf]
  · rw [nodeAt_modifyNode_other _ _ _ _ hix]

theorem size_modifyNode (uf : List UFNode) (i : ℕ) (f : UFNode → UFNode) (x : ℕ)
    (hi : i < uf.length) (hf : ∀ nd, (f nd).size = nd.size) :
    (nodeAt (modifyNode uf i f) x).size = (nodeAt uf x).size := by
  by_cases hix : i = x
  · subst hix; rw [nodeAt_modifyNode_self _ _ _ hi, hf]
  · rw [nodeAt_modifyNode_other _ _ _ _ hix]

theorem children_modifyNode (uf : List UFNode) (i : ℕ) (f : UFNode → UFNode) (x : ℕ)
    (hi : i < uf.length) (hf : ∀ nd, (f nd).children = nd.children) :
    (nodeAt (modifyNode uf i f) x).children = (nodeAt uf x).children := by
  by_cases hix : i = x
  · subst hix; rw [nodeAt_modifyNode_self _ _ _ hi, hf]
  · rw [nodeAt_modifyNode_other _ _ _ _ hix]

/-- One iteration of the path-compression loop: re-point `j` at the root,
remove it from its old parent `pj`'s child set, add it to the root's. -/
def reparent (uf : List UFNode) (root j pj : ℕ) : List UFNode :=
  modifyNode
    (modifyNode (modifyNode uf j (fun nd => { nd with head := root }))
      pj (fun nd => { nd with children := nd.children.erase j }))
    root (fun nd => { nd with children := childInsert nd.children j })

theorem compress_cons (uf : List UFNode) (root j pj : ℕ) (rest : List (ℕ × ℕ)) :
    compress uf root ((j, pj) :: rest) = compress (reparent uf root j pj) root rest := rfl

theorem reparent_length (uf : List UFNode) (root j pj : ℕ) :
    (reparent uf root j pj).length = uf.length := by
  simp [reparent, length_modifyNode]

theorem reparent_head (uf : List UFNode) (root j pj : ℕ)
    (hj : j < uf.length) (hpj : pj < uf.length) (hroot : root < uf.length) :
    ∀ x, (nodeAt (reparent uf root j pj) x).head =
      if x = j then root else (nodeAt uf x).head := by
  intro x
  rw [reparent]
  rw [head_modifyNode _ root (fun nd => { nd with children := childInsert nd.children j })
    x (by simp [length_modifyNode]; omega) (fun _ => rfl)]
  rw [head_modifyNode _ pj (fun nd => { nd with children := nd.children.erase j })
    x (by simp [length_modifyNode]; omega) (fun _ => rfl)]
  by_cases hx : x = j
  · rw [hx, nodeAt_modifyNode_self _ _ _ hj, if_pos rfl]
  · rw [nodeAt_modifyNode_other _ _ _ _ (fun h => hx h.symm), if_neg hx]

theorem reparent_rank (uf : List UFNode) (root j pj : ℕ)
    (hj : j < uf.length) (hpj : pj < uf.length) (hroot : root < uf.length) :
    ∀ x, (nodeAt (reparent uf root j pj) x).rank = (nodeAt uf x).rank := by
  intro x
  rw [reparent]
  rw [rank_modifyNode _ root (fun nd => { nd with children := childInsert nd.children j })
    x (by simp [length_modifyNode]; omega) (fun _ => rfl)]
  rw [rank_modifyNode _ pj (fun nd => { nd with children := nd.children.erase j })
    x (by simp [length_modifyNode]; omega) (fun _ => rfl)]
  rw [rank_modifyNode _ j (fun nd => { nd with head := root }) x hj (fun _ => rfl)]

theorem reparent_size (uf : List UFNode) (root j pj : ℕ)
    (hj : j < uf.length) (hpj : pj < uf.length) (hroot : root < uf.length) :
    ∀ x, (nodeAt (reparent uf root j pj) x).size = (nodeAt uf x).size := by
  intro x
  rw [reparent]
  rw [size_modifyNode _ root (fun nd => { nd with children := childInsert nd.children j })
    x (by simp [length_modifyNode]; omega) (fun _ => rfl)]
  rw [size_modifyNode _ pj (fun nd => { nd with children := nd.children.erase j })
    x (by simp [length_modifyNode]; omega) (fun _ => rfl)]
  rw [size_modifyNode _ j (fun nd => { nd with head := root }) x hj (fun _ => rfl)]

theorem reparent_children (uf : List UFNode) (root j pj : ℕ)
    (hj : j < uf.length) (hpj : pj < uf.length) (hroot : root < uf.length)
    (hpjj : pj ≠ j) (hpjr : pj ≠ root) (hjr : j ≠ root) :
    ∀ x, (nodeAt (reparent uf root j pj) x).children =
      if x = root then childInsert (nodeAt uf x).children j
      else if x = pj then (nodeAt uf x).children.erase j
      else (nodeAt uf x).children := by
  intro x
  rw [reparent]
  by_cases hxr : x = root
  · rw [hxr, if_pos rfl]
    rw [nodeAt_modifyNode_self _ _ _ (by simp [length_modifyNode]; omega)]
    have h1 : (nodeAt (modifyNode (modifyNode uf j (fun nd => { nd with head := root }))
        pj (fun nd => { nd with children := nd.children.erase j })) root).children =
        (nodeAt (modifyNode uf j (fun nd => { nd with head := root })) root).children := by
      rw [nodeAt_modifyNode_other _ _ _ _ hpjr]
    show childInsert (nodeAt (modifyNode (modifyNode uf j
        (fun nd => { nd with head := root })) pj
        (fun nd => { nd with children := nd.children.erase j })) root).children j = _
    rw [h1]
    rw [children_modifyNode _ j (fun nd => { nd with head := root }) root hj (fun _ => rfl)]
  · rw [if_neg hxr]
    rw [nodeAt_modifyNode_other _ _ _ _ (fun h => hxr h.symm)]
    by_cases hxp : x = pj
    · rw [hxp, if_pos rfl]
      rw [nodeAt_modifyNode_self _ _ _ (by simp [length_modifyNode]; omega)]
      show (nodeAt (modifyNode uf j (fun nd => { nd with head := root })) pj).children.erase j = _
      rw [children_modifyNode _ j (fun nd => { nd with head := root }) pj hj (fun _ => rfl)]
    · rw [if_neg hxp]
      rw [nodeAt_modifyNode_other _ _ _ _ (fun h => hxp h.symm)]
      rw [children_modifyNode _ j (fun nd => { nd with head := root }) x hj (fun _ => rfl)]

end UF

namespace UF

theorem reparent_asc (uf : List UFNode) (root j pj : ℕ)
    (hasc : Asc uf)
    (hj : j < uf.length) (hpj : pj < uf.length) (hroot : root < uf.length)
    (hnrj : ¬ isRoot uf j) (hjroot : rootOf uf j = root) :
    Asc (reparent uf root j pj) := by
  intro x hx
  rw [reparent_length] at hx
  rw [reparent_head uf root j pj hj hpj hroot x, reparent_length]
  by_cases hxj : x = j
  · rw [if_pos hxj]
    refine ⟨hroot, ?_⟩
    intro _
    rw [reparent_rank uf root j pj hj hpj hroot x,
        reparent_rank uf root j pj hj hpj hroot root, hxj]
    rw [← hjroot]
    exact rank_lt_root uf hasc j hj hnrj
  · rw [if_neg hxj]
    refine ⟨(hasc x hx).1, ?_⟩
    intro hne
    rw [reparent_rank uf root j pj hj hpj hroot x,
        reparent_rank uf root j pj hj hpj hroot (nodeAt uf x).head]
    exact (hasc x hx).2 hne

theorem reparent_isRoot (uf : List UFNode) (root j pj : ℕ)
    (hj : j < uf.length) (hpj : pj < uf.length) (hroot : root < uf.length)
    (hnrj : ¬ isRoot uf j) (hjr : j ≠ root) :
    ∀ x, isRoot (reparent uf root j pj) x ↔ isRoot uf x := by
  intro x
  rw [isRoot, isRoot, reparent_head uf root j pj hj hpj hroot x]
  by_cases hxj : x = j
  · rw [if_pos hxj, hxj]
    constructor
    · intro h; exact absurd h.symm hjr
    · intro h; exact absurd h hnrj
  · rw [if_neg hxj]

theorem reparent_rootOf (uf : List UFNode) (root j pj : ℕ)
    (hasc : Asc uf)
    (hj : j < uf.length) (hpj : pj < uf.length) (hroot : root < uf.length)
    (hnrj : ¬ isRoot uf j) (hjroot : rootOf uf j = root) :
    ∀ x, x < uf.length → rootOf (reparent uf root j pj) x = rootOf uf x := by
  apply repoint_nonroot_rootOf uf (reparent uf root j pj) j
    (reparent_length uf root j pj)
    (fun x hx => by rw [reparent_head uf root j pj hj hpj hroot x, if_neg hx])
    (by rw [reparent_head uf root j pj hj hpj hroot j, if_pos rfl, hjroot])
    hj hasc (reparent_asc uf root j pj hasc hj hpj hroot hnrj hjroot) hnrj

theorem reparent_inv (uf : List UFNode) (root j pj : ℕ)
    (hinv : Inv uf)
    (hj : j < uf.length) (hroot : root < uf.length)
    (hrootr : isRoot uf root)
    (hpjhead : (nodeAt uf j).head = pj)
    (hnrj : ¬ isRoot uf j) (hnrpj : ¬ isRoot uf pj)
    (hjroot : rootOf uf j = root) :
    Inv (reparent uf root j pj) := by
  have hpj : pj < uf.length := by rw [← hpjhead]; exact (hinv.asc j hj).1
  have hpjj : pj ≠ j := by
    intro h; rw [h] at hpjhead; exact hnrj hpjhead
  have hpjr : pj ≠ root := by
    intro h; rw [h] at hnrpj; exact hnrpj hrootr
  have hjr : j ≠ root := by
    intro h; rw [h] at hnrj; exact hnrj hrootr
  have hhead := reparent_head uf root j pj hj hpj hroot
  have hchild := reparent_children uf root j pj hj hpj hroot hpjj hpjr hjr
  have hlen := reparent_length uf root j pj
  refine ⟨reparent_asc uf root j pj hinv.asc hj hpj hroot hnrj hjroot, ?_, ?_, ?_⟩
  · -- child lists stay duplicate-free
    intro k hk
    rw [hlen] at hk
    rw [hchild k]
    split
    · exact childInsert_nodup _ _ (hinv.nodup k hk)
    · split
      · exact (hinv.nodup k hk).erase j
      · exact hinv.nodup k hk
  · -- child sets still record exactly the incoming head edges
    intro k hk x
    rw [hlen] at hk
    rw [hchild k, hlen, hhead x]
    by_cases hkr : k = root
    · rw [if_pos hkr, childInsert_mem]
      by_cases hxj : x = j
      · constructor
        · intro _
          refine ⟨hxj ▸ hj, ?_, ?_⟩
          · rw [if_pos hxj, hkr]
          · rw [hxj, hkr]; exact hjr
        · intro _; exact Or.inr hxj
      · rw [if_neg hxj]
        constructor
        · rintro (h | h)
          · exact (hinv.child_iff k hk x).mp h
          · exact absurd h hxj
        · intro h; exact Or.inl ((hinv.child_iff k hk x).mpr h)
    · rw [if_neg hkr]
      by_cases hxj : x = j
      · constructor
        · intro h
          exfalso
          by_cases hkp : k = pj
          · rw [if_pos hkp] at h
            rcases (hinv.nodup k hk).mem_erase_iff.mp h with ⟨hne, _⟩
            exact hne hxj
          · rw [if_neg hkp] at h
            rcases (hinv.child_iff k hk x).mp h with ⟨_, h2, _⟩
            rw [hxj, hpjhead] at h2
            exact hkp h2.symm
        · rintro ⟨_, h2, _⟩
          rw [if_pos hxj] at h2
          exact absurd h2.symm hkr
      · rw [if_neg hxj]
        have hright : x ∈ (if k = pj then (nodeAt uf k).children.erase j
            else (nodeAt uf k).children) ↔ x ∈ (nodeAt uf k).children := by
          by_cases hkp : k = pj
          · rw [if_pos hkp, (hinv.nodup k hk).mem_erase_iff]
            constructor
            · exact fun h => h.2
            · exact fun h => ⟨hxj, h⟩
          · rw [if_neg hkp]
        rw [hright, hinv.child_iff k hk x]
  · -- sizes at roots still count the group members
    intro r hr hrroot
    rw [hlen] at hr
    have hrold : isRoot uf r :=
      (reparent_isRoot uf root j pj hj hpj hroot hnrj hjr r).mp hrroot
    rw [reparent_size uf root j pj hj hpj hroot r]
    rw [hinv.size_eq r hr hrold]
    congr 1
    rw [hlen]
    apply List.filter_congr
    intro a ha
    rw [List.mem_range] at ha
    rw [reparent_rootOf uf root j pj hinv.asc hj hpj hroot hnrj hjroot a ha]

end UF

namespace UF

/-- The compression loop preserves the invariant, the length, every node's
representative, and the set of roots, provided the pairs are consecutive
entries of an upward path to `root`. -/
theorem compress_spec (root : ℕ) : ∀ (pairs : List (ℕ × ℕ)) (uf : List UFNode),
    Inv uf → root < uf.length → isRoot uf root →
    (∀ ab ∈ pairs, ab.1 < uf.length ∧ (nodeAt uf ab.1).head = ab.2 ∧
      rootOf uf ab.1 = root ∧ ¬ isRoot uf ab.1 ∧ ¬ isRoot uf ab.2) →
    (pairs.map Prod.fst).Nodup →
    Inv (compress uf root pairs) ∧
    (compress uf root pairs).length = uf.length ∧
    (∀ x, x < uf.length → rootOf (compress uf root pairs) x = rootOf uf x) ∧
    (∀ x, isRoot (compress uf root pairs) x ↔ isRoot uf x) := by
  intro pairs
  induction pairs with
  | nil =>
    intro uf hinv hroot hrootr _ _
    exact ⟨hinv, rfl, fun x _ => rfl, fun x => Iff.rfl⟩
  | cons ab rest ih =>
    rcases ab with ⟨j, pj⟩
    intro uf hinv hroot hrootr hfacts hnodup
    rcases hfacts (j, pj) (List.mem_cons_self _ _) with ⟨hj, hpjhead, hjroot, hnrj, hnrpj⟩
    dsimp only at hj hpjhead hjroot hnrj hnrpj
    have hpj : pj < uf.length := by rw [← hpjhead]; exact (hinv.asc j hj).1
    have hjr : j ≠ root := fun h => hnrj (h ▸ hrootr)
    rw [compress_cons]
    have hinv3 := reparent_inv uf root j pj hinv hj hroot hrootr hpjhead hnrj hnrpj hjroot
    have hlen3 := reparent_length uf root j pj
    have hroots3 := reparent_isRoot uf root j pj hj hpj hroot hnrj hjr
    have hrootOf3 := reparent_rootOf uf root j pj hinv.asc hj hpj hroot hnrj hjroot
    have hhead3 := reparent_head uf root j pj hj hpj hroot
    have hjrest : ∀ ab ∈ rest, ab.1 ≠ j := by
      intro ab hab h
      have h1 : ab.1 ∈ rest.map Prod.fst := List.mem_map_of_mem _ hab
      rw [List.map_cons] at hnodup
      exact (List.nodup_cons.mp hnodup).1 (h ▸ h1)
    have hfacts3 : ∀ ab ∈ rest, ab.1 < (reparent uf root j pj).length ∧
        (nodeAt (reparent uf root j pj) ab.1).head = ab.2 ∧
        rootOf (reparent uf root j pj) ab.1 = root ∧
        ¬ isRoot (reparent uf root j pj) ab.1 ∧
        ¬ isRoot (reparent uf root j pj) ab.2 := by
      intro ab hab
      rcases hfacts ab (List.mem_cons_of_mem _ hab) with ⟨h1, h2, h3, h4, h5⟩
      refine ⟨by rw [hlen3]; exact h1, ?_, ?_, ?_, ?_⟩
      · rw [hhead3 ab.1, if_neg (hjrest ab hab)]; exact h2
      · rw [hrootOf3 ab.1 h1]; exact h3
      · rw [hroots3 ab.1]; exact h4
      · rw [hroots3 ab.2]; exact h5
    rcases ih (reparent uf root j pj) hinv3 (by rw [hlen3]; exact hroot)
      ((hroots3 root).mpr hrootr) hfacts3
      (by rw [List.map_cons] at hnodup; exact (List.nodup_cons.mp hnodup).2)
      with ⟨hI, hL, hR, hRoots⟩
    refine ⟨hI, by rw [hL, hlen3], ?_, ?_⟩
    · intro x hx
      rw [hR x (by rw [hlen3]; exact hx), hrootOf3 x hx]
    · intro x
      rw [hRoots x, hroots3 x]

end UF

namespace UF

/-- The upward loop of `find_group` returns the root, and collects the strict
path: in-range non-roots with the same representative, strictly ascending in
rank, chained by head pointers, starting at the query node. -/
theorem ascend_spec (uf : List UFNode) (hasc : Asc uf) :
    ∀ fuel i path, i < uf.length → mAsc uf i ≤ fuel →
      (ascend uf i path fuel).2 = rootOf uf i ∧
      ∃ L, (ascend uf i path fuel).1 = path ++ L ∧
        (∀ x ∈ L, x < uf.length ∧ ¬ isRoot uf x ∧ rootOf uf x = rootOf uf i ∧
          (nodeAt uf i).rank ≤ (nodeAt uf x).rank) ∧
        L.Nodup ∧
        (L = [] ∨ L.head? = some i) ∧
        (∀ ab ∈ L.zip L.tail, (nodeAt uf ab.1).head = ab.2) := by
  intro fuel
  induction fuel with
  | zero =>
    intro i path hi hm
    exact absurd hm (by have := mAsc_pos uf i hi; omega)
  | succ fuel ih =>
    intro i path hi hm
    rw [ascend]
    split
    · rename_i hr
      refine ⟨(rootOf_isRoot_self uf i hr).symm, [], (List.append_nil path).symm,
        ?_, List.nodup_nil, Or.inl rfl, ?_⟩
      · intro x hx; exact absurd hx (List.not_mem_nil x)
      · intro ab hab; exact absurd hab (List.not_mem_nil ab)
    · rename_i hnr
      have hdlt : (nodeAt uf i).head < uf.length := (hasc i hi).1
      have hmstep := mAsc_step uf hasc i hi hnr
      rcases ih (nodeAt uf i).head (path ++ [i]) hdlt (by omega)
        with ⟨heq, L', hL1, hLmem, hLnd, hLhead, hLzip⟩
      have hro : rootOf uf i = rootOf uf (nodeAt uf i).head :=
        rootOf_head uf hasc i hi hnr
      refine ⟨by rw [heq, hro], i :: L', ?_, ?_, ?_, Or.inr rfl, ?_⟩
      · rw [hL1, List.append_assoc, List.singleton_append]
      · intro x hx
        rcases List.mem_cons.mp hx with hx | hx
        · subst hx
          exact ⟨hi, hnr, rfl, le_refl _⟩
        · rcases hLmem x hx with ⟨h1, h2, h3, h4⟩
          exact ⟨h1, h2, by rw [h3, hro],
            le_trans (le_of_lt ((hasc i hi).2 hnr)) h4⟩
      · refine List.nodup_cons.mpr ⟨?_, hLnd⟩
        intro hmem
        rcases hLmem i hmem with ⟨_, _, _, h4⟩
        have := (hasc i hi).2 hnr
        omega
      · cases L' with
        | nil =>
          intro ab hab
          exact absurd hab (List.not_mem_nil ab)
        | cons y L2 =>
          have hy : y = (nodeAt uf i).head := by
            rcases hLhead with h | h
            · exact absurd h (List.cons_ne_nil y L2)
            · rw [List.head?_cons] at h
              exact Option.some.inj h
          intro ab hab
          rw [List.tail_cons, List.zip_cons_cons] at hab
          rcases List.mem_cons.mp hab with hab | hab
          · rw [hab, hy]
          · exact hLzip ab (by rw [List.tail_cons]; exact hab)

/-- `Prod.fst` of consecutive pairs is a sublist of the original list. -/
theorem zip_tail_fst_sublist : ∀ (L : List ℕ),
    ((L.zip L.tail).map Prod.fst).Sublist L := by
  intro L
  induction L with
  | nil => exact List.Sublist.refl []
  | cons a t ih =>
    cases t with
    | nil => simp
    | cons b t2 =>
      rw [List.tail_cons, List.zip_cons_cons, List.map_cons]
      exact List.Sublist.cons₂ a ih

end UF

namespace UF

/-- `find_group` returns the representative and preserves the invariant, the
length, every representative, and the set of roots. -/
theorem find_group_spec (uf : List UFNode) (i : ℕ) (hinv : Inv uf)
    (hi : i < uf.length) :
    (find_group uf i).1 = rootOf uf i ∧
    Inv (find_group uf i).2 ∧
    (find_group uf i).2.length = uf.length ∧
    (∀ x, x < uf.length → rootOf (find_group uf i).2 x = rootOf uf x) ∧
    (∀ x, isRoot (find_group uf i).2 x ↔ isRoot uf x) := by
  have hm : mAsc uf i ≤ uf.length + 1 := by
    have := mAsc_le_length uf i; omega
  rcases ascend_spec uf hinv.asc (uf.length + 1) i [] hi hm
    with ⟨heq, L, hL1, hLmem, hLnd, _, hLzip⟩
  rw [List.nil_append] at hL1
  rcases rootOf_spec uf hinv.asc i hi with ⟨hrr, hrl, _⟩
  have hpairs : ∀ ab ∈ L.zip L.tail, ab.1 < uf.length ∧
      (nodeAt uf ab.1).head = ab.2 ∧ rootOf uf ab.1 = rootOf uf i ∧
      ¬ isRoot uf ab.1 ∧ ¬ isRoot uf ab.2 := by
    intro ab hab
    rcases ab with ⟨a, b⟩
    rcases List.of_mem_zip hab with ⟨ha, hb⟩
    have hb2 : b ∈ L := List.mem_of_mem_tail hb
    rcases hLmem a ha with ⟨h1, h2, h3, _⟩
    rcases hLmem b hb2 with ⟨_, h5, _, _⟩
    exact ⟨h1, hLzip (a, b) hab, h3, h2, h5⟩
  have hfst : ((L.zip L.tail).map Prod.fst).Nodup :=
    List.Nodup.sublist (zip_tail_fst_sublist L) hLnd
  rcases compress_spec (rootOf uf i) (L.zip L.tail) uf hinv hrl hrr hpairs hfst
    with ⟨hI, hLen, hR, hRoots⟩
  simp only [find_group]
  rw [heq, hL1]
  exact ⟨rfl, hI, hLen, hR, hRoots⟩

end UF

namespace UF

/-- The linking step of `union_groups` with loser root `a` and winner root
`w`: point `a` at `w`, add `a` to `w`'s child set, add `a`'s size into `w`. -/
def splice (uf : List UFNode) (a w : ℕ) : List UFNode :=
  let uf3 := modifyNode uf a (fun nd => { nd with head := w })
  let uf4 := modifyNode uf3 w (fun nd => { nd with children := childInsert nd.children a })
  modifyNode uf4 w (fun nd => { nd with size := nd.size + (nodeAt uf4 a).size })

/-- The tie-break of `union_groups`: increment the winner's rank. -/
def bump (uf : List UFNode) (w : ℕ) : List UFNode :=
  modifyNode uf w (fun nd => { nd with rank := nd.rank + 1 })

theorem union_groups_eq (uf : List UFNode) (i j : ℕ) : union_groups uf i j =
    (let fi := find_group uf i
     let head_i := fi.1
     let fj := find_group fi.2 j
     let head_j := fj.1
     let uf2 := fj.2
     if head_i = head_j then uf2
     else if (nodeAt uf2 head_i).rank > (nodeAt uf2 head_j).rank then
       splice uf2 head_j head_i
     else if (nodeAt (splice uf2 head_i head_j) head_j).rank
         = (nodeAt (splice uf2 head_i head_j) head_i).rank then
       bump (splice uf2 head_i head_j) head_j
     else splice uf2 head_i head_j) := rfl

theorem splice_length (uf : List UFNode) (a w : ℕ) :
    (splice uf a w).length = uf.length := by
  simp [splice, length_modifyNode]

theorem splice_head (uf : List UFNode) (a w : ℕ)
    (ha : a < uf.length) (hw : w < uf.length) :
    ∀ x, (nodeAt (splice uf a w) x).head =
      if x = a then w else (nodeAt uf x).head := by
  intro x
  rw [splice]
  rw [head_modifyNode _ w (fun nd => { nd with size := nd.size +
    (nodeAt (modifyNode (modifyNode uf a (fun nd => { nd with head := w })) w
      (fun nd => { nd with children := childInsert nd.children a })) a).size })
    x (by simp [length_modifyNode]; omega) (fun _ => rfl)]
  rw [head_modifyNode _ w (fun nd => { nd with children := childInsert nd.children a })
    x (by simp [length_modifyNode]; omega) (fun _ => rfl)]
  by_cases hx : x = a
  · rw [hx, nodeAt_modifyNode_self _ _ _ ha, if_pos rfl]
  · rw [nodeAt_modifyNode_other _ _ _ _ (fun h => hx h.symm), if_neg hx]

theorem splice_rank (uf : List UFNode) (a w : ℕ)
    (ha : a < uf.length) (hw : w < uf.length) :
    ∀ x, (nodeAt (splice uf a w) x).rank = (nodeAt uf x).rank := by
  intro x
  rw [splice]
  rw [rank_modifyNode _ w (fun nd => { nd with size := nd.size +
    (nodeAt (modifyNode (modifyNode uf a (fun nd => { nd with head := w })) w
      (fun nd => { nd with children := childInsert nd.children a })) a).size })
    x (by simp [length_modifyNode]; omega) (fun _ => rfl)]
  rw [rank_modifyNode _ w (fun nd => { nd with children := childInsert nd.children a })
    x (by simp [length_modifyNode]; omega) (fun _ => rfl)]
  rw [rank_modifyNode _ a (fun nd => { nd with head := w }) x ha (fun _ => rfl)]

theorem splice_size (uf : List UFNode) (a w : ℕ)
    (ha : a < uf.length) (hw : w < uf.length) (hne : a ≠ w) :
    ∀ x, (nodeAt (splice uf a w) x).size =
      if x = w then (nodeAt uf w).size + (nodeAt uf a).size
      else (nodeAt uf x).size := by
  intro x
  rw [splice]
  have hsza : (nodeAt (modifyNode (modifyNode uf a (fun nd => { nd with head := w })) w
      (fun nd => { nd with children := childInsert nd.children a })) a).size
      = (nodeAt uf a).size := by
    rw [size_modifyNode _ w (fun nd => { nd with children := childInsert nd.children a })
      a (by simp [length_modifyNode]; omega) (fun _ => rfl)]
    rw [size_modifyNode _ a (fun nd => { nd with head := w }) a ha (fun _ => rfl)]
  by_cases hx : x = w
  · rw [hx, nodeAt_modifyNode_self _ _ _ (by simp [length_modifyNode]; omega), if_pos rfl]
    show (nodeAt (modifyNode (modifyNode uf a (fun nd => { nd with head := w })) w
      (fun nd => { nd with children := childInsert nd.children a })) w).size + _ = _
    rw [hsza]
    rw [size_modifyNode _ w (fun nd => { nd with children := childInsert nd.children a })
      w (by simp [length_modifyNode]; omega) (fun _ => rfl)]
    rw [size_modifyNode _ a (fun nd => { nd with head := w }) w ha (fun _ => rfl)]
  · rw [nodeAt_modifyNode_other _ _ _ _ (fun h => hx h.symm), if_neg hx]
    rw [size_modifyNode _ w (fun nd => { nd with children := childInsert nd.children a })
      x (by simp [length_modifyNode]; omega) (fun _ => rfl)]
    rw [size_modifyNode _ a (fun nd => { nd with head := w }) x ha (fun _ => rfl)]

theorem splice_children (uf : List UFNode) (a w : ℕ)
    (ha : a < uf.length) (hw : w < uf.length) (hne : a ≠ w) :
    ∀ x, (nodeAt (splice uf a w) x).children =
      if x = w then childInsert (nodeAt uf x).children a
      else (nodeAt uf x).children := by
  intro x
  rw [splice]
  rw [children_modifyNode _ w (fun nd => { nd with size := nd.size +
    (nodeAt (modifyNode (modifyNode uf a (fun nd => { nd with head := w })) w
      (fun nd => { nd with children := childInsert nd.children a })) a).size })
    x (by simp [length_modifyNode]; omega) (fun _ => rfl)]
  by_cases hx : x = w
  · rw [hx, nodeAt_modifyNode_self _ _ _ (by simp [length_modifyNode]; omega), if_pos rfl]
    show childInsert (nodeAt (modifyNode uf a (fun nd => { nd with head := w })) w).children a = _
    rw [children_modifyNode _ a (fun nd => { nd with head := w }) w ha (fun _ => rfl)]
  · rw [nodeAt_modifyNode_other _ _ _ _ (fun h => hx h.symm), if_neg hx]
    rw [children_modifyNode _ a (fun nd => { nd with head := w }) x ha (fun _ => rfl)]

/-- Re-pointing one root `a` at another root `w` sends `a`'s old group to `w`
and leaves every other representative unchanged. -/
theorem repoint_root_rootOf (uf uf' : List UFNode) (a w : ℕ)
    (hlen : uf'.length = uf.length)
    (hheads : ∀ x, x ≠ a → (nodeAt uf' x).head = (nodeAt uf x).head)
    (hha : (nodeAt uf' a).head = w)
    (ha : a < uf.length) (hw : w < uf.length) (hne : a ≠ w)
    (hasc : Asc uf) (hasc' : Asc uf')
    (hra : isRoot uf a) (hrw : isRoot uf w) :
    ∀ x, x < uf.length →
      rootOf uf' x = if rootOf uf x = a then w else rootOf uf x := by
  intro x hx
  rcases rootOf_spec uf hasc x hx with ⟨hxr, hxl, hxreach⟩
  have key : ∀ y r0, Reaches uf y r0 → Reaches uf' y r0 := by
    intro y r0 hy
    induction hy with
    | refl => exact Reaches.refl _
    | step z k hnr hr2 ih =>
      have hza : z ≠ a := by
        intro h
        rw [h] at hnr
        exact hnr hra
      exact Reaches.step z k (by rw [hheads z hza]; exact hnr)
        (by rw [hheads z hza]; exact ih)
  have hreach' : Reaches uf' x (rootOf uf x) := key x _ hxreach
  by_cases hcase : rootOf uf x = a
  · rw [if_pos hcase]
    have haw : Reaches uf' a w := by
      refine Reaches.step a w (by rw [hha]; exact Ne.symm hne) ?_
      rw [hha]
      exact Reaches.refl w
    have hxw : Reaches uf' x w := reaches_trans uf' x a w (hcase ▸ hreach') haw
    have hww : isRoot uf' w := by
      rw [isRoot, hheads w (Ne.symm hne)]
      exact hrw
    exact (reaches_root_eq uf' hasc' x w hxw (by omega) hww).symm
  · rw [if_neg hcase]
    have hroot' : isRoot uf' (rootOf uf x) := by
      rw [isRoot, hheads _ hcase]
      exact hxr
    exact (reaches_root_eq uf' hasc' x _ hreach' (by omega) hroot').symm

end UF

namespace UF

theorem bump_length (uf : List UFNode) (w : ℕ) : (bump uf w).length = uf.length := by
  simp [bump, length_modifyNode]

theorem bump_head (uf : List UFNode) (w : ℕ) (hw : w < uf.length) :
    ∀ x, (nodeAt (bump uf w) x).head = (nodeAt uf x).head := by
  intro x
  exact head_modifyNode _ w (fun nd => { nd with rank := nd.rank + 1 }) x hw (fun _ => rfl)

theorem bump_size (uf : List UFNode) (w : ℕ) (hw : w < uf.length) :
    ∀ x, (nodeAt (bump uf w) x).size = (nodeAt uf x).size := by
  intro x
  exact size_modifyNode _ w (fun nd => { nd with rank := nd.rank + 1 }) x hw (fun _ => rfl)

theorem bump_children (uf : List UFNode) (w : ℕ) (hw : w < uf.length) :
    ∀ x, (nodeAt (bump uf w) x).children = (nodeAt uf x).children := by
  intro x
  exact children_modifyNode _ w (fun nd => { nd with rank := nd.rank + 1 }) x hw (fun _ => rfl)

theorem bump_rank (uf : List UFNode) (w : ℕ) (hw : w < uf.length) :
    ∀ x, (nodeAt (bump uf w) x).rank =
      if x = w then (nodeAt uf x).rank + 1 else (nodeAt uf x).rank := by
  intro x
  by_cases hx : x = w
  · rw [hx, if_pos rfl, bump, nodeAt_modifyNode_self _ _ _ hw]
  · rw [if_neg hx, bump, nodeAt_modifyNode_other _ _ _ _ (fun h => hx h.symm)]

theorem count_repoint_eq (l : List ℕ) (f : ℕ → ℕ) (a w : ℕ) (hne : a ≠ w) :
    (l.filter (fun x => (if f x = a then w else f x) = w)).length =
    (l.filter (fun x => f x = w)).length + (l.filter (fun x => f x = a)).length := by
  induction l with
  | nil => rfl
  | cons y t ih =>
    simp only [List.filter_cons, decide_eq_true_eq]
    by_cases h1 : f y = a
    · have c1 : (if f y = a then w else f y) = w := by rw [if_pos h1]
      have c2 : ¬ f y = w := fun h => hne (h1.symm.trans h)
      rw [if_pos c1, if_neg c2, if_pos h1]
      simp only [List.length_cons]
      omega
    · by_cases h2 : f y = w
      · rw [if_pos (by rw [if_neg h1]; exact h2), if_pos h2, if_neg h1]
        simp only [List.length_cons]
        omega
      · rw [if_neg (by rw [if_neg h1]; exact h2), if_neg h2, if_neg h1]
        exact ih

theorem filter_repoint_ne (l : List ℕ) (f : ℕ → ℕ) (a w r : ℕ)
    (hrw : r ≠ w) (hra : r ≠ a) :
    l.filter (fun x => (if f x = a then w else f x) = r) =
    l.filter (fun x => f x = r) := by
  apply List.filter_congr
  intro x _
  by_cases h1 : f x = a
  · rw [if_pos h1]
    apply decide_eq_decide.mpr
    constructor
    · intro h; exact absurd h.symm hrw
    · intro h; exact absurd (h1.symm.trans h).symm hra
  · rw [if_neg h1]

theorem splice_asc (uf : List UFNode) (a w : ℕ) (hasc : Asc uf)
    (ha : a < uf.length) (hw : w < uf.length)
    (hrank : (nodeAt uf a).rank < (nodeAt uf w).rank) :
    Asc (splice uf a w) := by
  have hne : a ≠ w := fun h => by rw [h] at hrank; omega
  intro x hx
  rw [splice_length] at hx
  constructor
  · rw [splice_head uf a w ha hw x, splice_length]
    split
    · exact hw
    · exact (hasc x hx).1
  · intro hnex
    rw [splice_head uf a w ha hw x] at hnex ⊢
    rw [splice_rank uf a w ha hw x, splice_rank uf a w ha hw]
    by_cases hx1 : x = a
    · rw [if_pos hx1] at hnex ⊢
      rw [hx1]
      exact hrank
    · rw [if_neg hx1] at hnex ⊢
      exact (hasc x hx).2 hnex

theorem splice_bump_asc (uf : List UFNode) (a w : ℕ) (hasc : Asc uf)
    (ha : a < uf.length) (hw : w < uf.length) (hne : a ≠ w)
    (hra : isRoot uf a) (hrw : isRoot uf w)
    (htie : (nodeAt uf a).rank = (nodeAt uf w).rank) :
    Asc (bump (splice uf a w) w) := by
  have hwlt : w < (splice uf a w).length := by rw [splice_length]; exact hw
  intro x hx
  rw [bump_length, splice_length] at hx
  rw [bump_head _ _ hwlt x, bump_rank _ _ hwlt x,
      bump_rank _ _ hwlt, splice_head uf a w ha hw x,
      splice_rank uf a w ha hw x, splice_rank uf a w ha hw,
      bump_length, splice_length]
  by_cases hx1 : x = a
  · rw [if_pos hx1]
    refine ⟨hw, ?_⟩
    intro _
    rw [if_pos rfl, if_neg (hx1 ▸ hne), hx1, htie]
    omega
  · rw [if_neg hx1]
    refine ⟨(hasc x hx).1, ?_⟩
    intro hnex
    have h2 := (hasc x hx).2 hnex
    by_cases hxw : x = w
    · exfalso
      rw [hxw] at hnex
      exact hnex hrw
    · rw [if_neg hxw]
      split
      · omega
      · exact h2

/-- Any state whose heads, sizes and children differ from `uf` exactly by a
root-to-root link `a → w` (with ranks free), and whose head chains still
ascend, satisfies the full invariant. -/
theorem splice_like_inv (uf M : List UFNode) (a w : ℕ)
    (hinv : Inv uf) (ha : a < uf.length) (hw : w < uf.length) (hne : a ≠ w)
    (hra : isRoot uf a) (hrw : isRoot uf w)
    (hlen : M.length = uf.length)
    (hhead : ∀ x, (nodeAt M x).head = if x = a then w else (nodeAt uf x).head)
    (hsize : ∀ x, (nodeAt M x).size =
      if x = w then (nodeAt uf w).size + (nodeAt uf a).size else (nodeAt uf x).size)
    (hchild : ∀ x, (nodeAt M x).children =
      if x = w then childInsert (nodeAt uf x).children a else (nodeAt uf x).children)
    (hascM : Asc M) : Inv M := by
  refine ⟨hascM, ?_, ?_, ?_⟩
  · intro k hk
    rw [hlen] at hk
    rw [hchild k]
    split
    · exact childInsert_nodup _ _ (hinv.nodup k hk)
    · exact hinv.nodup k hk
  · intro k hk x
    rw [hlen] at hk
    rw [hchild k, hlen, hhead x]
    by_cases hkw : k = w
    · rw [if_pos hkw, childInsert_mem]
      by_cases hxa : x = a
      · constructor
        · intro _
          exact ⟨hxa ▸ ha, by rw [if_pos hxa, hkw], by rw [hxa, hkw]; exact hne⟩
        · intro _; exact Or.inr hxa
      · rw [if_neg hxa]
        constructor
        · rintro (h | h)
          · exact (hinv.child_iff k hk x).mp h
          · exact absurd h hxa
        · intro h; exact Or.inl ((hinv.child_iff k hk x).mpr h)
    · rw [if_neg hkw]
      by_cases hxa : x = a
      · constructor
        · intro h
          rcases (hinv.child_iff k hk x).mp h with ⟨_, h2, h3⟩
          rw [hxa] at h2 h3
          rw [hra] at h2
          exact absurd h2 h3
        · rintro ⟨_, h2, _⟩
          rw [if_pos hxa] at h2
          exact absurd h2.symm hkw
      · rw [if_neg hxa]
        exact hinv.child_iff k hk x
  · intro r hr hrM
    rw [hlen] at hr
    have hrna : r ≠ a := by
      intro h
      rw [isRoot, hhead r, h, if_pos rfl] at hrM
      exact hne hrM.symm
    have hruf : isRoot uf r := by
      rw [isRoot] at hrM ⊢
      rw [hhead r, if_neg hrna] at hrM
      exact hrM
    have hRO : ∀ x, x < uf.length →
        rootOf M x = if rootOf uf x = a then w else rootOf uf x :=
      repoint_root_rootOf uf M a w hlen
        (fun x hx => by rw [hhead x, if_neg hx])
        (by rw [hhead a, if_pos rfl]) ha hw hne hinv.asc hascM hra hrw
    have hfiltcongr : (List.range M.length).filter (fun x => rootOf M x = r) =
        (List.range uf.length).filter
          (fun x => (if rootOf uf x = a then w else rootOf uf x) = r) := by
      rw [hlen]
      apply List.filter_congr
      intro x hx
      rw [List.mem_range] at hx
      rw [hRO x hx]
    rw [hsize r, hfiltcongr]
    by_cases hrww : r = w
    · rw [if_pos hrww, hrww]
      rw [count_repoint_eq (List.range uf.length) (rootOf uf) a w hne]
      rw [hinv.size_eq w hw hrw, hinv.size_eq a ha hra]
    · rw [if_neg hrww]
      rw [filter_repoint_ne (List.range uf.length) (rootOf uf) a w r hrww hrna]
      exact hinv.size_eq r hr hruf

end UF

namespace UF

/-- `union_groups` preserves the invariant and the length. -/
theorem union_groups_inv (uf : List UFNode) (i j : ℕ) (hinv : Inv uf)
    (hi : i < uf.length) (hj : j < uf.length) :
    Inv (union_groups uf i j) ∧ (union_groups uf i j).length = uf.length := by
  rcases find_group_spec uf i hinv hi with ⟨hfi1, hfiInv, hfiLen, hfiR, hfiRoots⟩
  have hj2 : j < (find_group uf i).2.length := by rw [hfiLen]; exact hj
  rcases find_group_spec (find_group uf i).2 j hfiInv hj2
    with ⟨hfj1, hfjInv, hfjLen, hfjR, hfjRoots⟩
  have len2 : (find_group (find_group uf i).2 j).2.length = uf.length :=
    hfjLen.trans hfiLen
  -- both returned heads are roots of the final compressed state, in range
  have hib : (find_group uf i).1 < (find_group (find_group uf i).2 j).2.length := by
    rw [len2, hfi1]
    exact (rootOf_spec uf hinv.asc i hi).2.1
  have hjb : (find_group (find_group uf i).2 j).1 <
      (find_group (find_group uf i).2 j).2.length := by
    rw [hfjLen, hfj1]
    exact (rootOf_spec (find_group uf i).2 hfiInv.asc j hj2).2.1
  have hrih : isRoot (find_group (find_group uf i).2 j).2 (find_group uf i).1 := by
    apply (hfjRoots _).mpr
    rw [hfi1]
    exact (hfiRoots _).mpr (rootOf_spec uf hinv.asc i hi).1
  have hrjh : isRoot (find_group (find_group uf i).2 j).2
      (find_group (find_group uf i).2 j).1 := by
    apply (hfjRoots _).mpr
    rw [hfj1]
    exact (rootOf_spec (find_group uf i).2 hfiInv.asc j hj2).1
  simp only [union_groups_eq]
  by_cases hH : (find_group uf i).1 = (find_group (find_group uf i).2 j).1
  · rw [if_pos hH]
    exact ⟨hfjInv, len2⟩
  · rw [if_neg hH]
    have hne : (find_group (find_group uf i).2 j).1 ≠ (find_group uf i).1 :=
      fun h => hH h.symm
    by_cases hcmp : (nodeAt (find_group (find_group uf i).2 j).2
        (find_group uf i).1).rank > (nodeAt (find_group (find_group uf i).2 j).2
        (find_group (find_group uf i).2 j).1).rank
    · rw [if_pos hcmp]
      have hascM := splice_asc (find_group (find_group uf i).2 j).2
        (find_group (find_group uf i).2 j).1 (find_group uf i).1 hfjInv.asc hjb hib hcmp
      refine ⟨splice_like_inv (find_group (find_group uf i).2 j).2 _
        (find_group (find_group uf i).2 j).1 (find_group uf i).1 hfjInv
        hjb hib hne hrjh hrih (splice_length _ _ _)
        (splice_head _ _ _ hjb hib) (splice_size _ _ _ hjb hib hne)
        (splice_children _ _ _ hjb hib hne) hascM, ?_⟩
      rw [splice_length, len2]
    · rw [if_neg hcmp]
      have hle := not_lt.mp hcmp
      by_cases htie : (nodeAt (find_group (find_group uf i).2 j).2
          (find_group (find_group uf i).2 j).1).rank =
          (nodeAt (find_group (find_group uf i).2 j).2 (find_group uf i).1).rank
      · rw [if_pos (by
          rw [splice_rank _ _ _ hib hjb, splice_rank _ _ _ hib hjb]
          exact htie)]
        have hwlt : (find_group (find_group uf i).2 j).1 <
            (splice (find_group (find_group uf i).2 j).2 (find_group uf i).1
              (find_group (find_group uf i).2 j).1).length := by
          rw [splice_length]; exact hjb
        have hascM := splice_bump_asc (find_group (find_group uf i).2 j).2
          (find_group uf i).1 (find_group (find_group uf i).2 j).1 hfjInv.asc
          hib hjb (fun h => hH h) hrih hrjh htie.symm
        refine ⟨splice_like_inv (find_group (find_group uf i).2 j).2 _
          (find_group uf i).1 (find_group (find_group uf i).2 j).1 hfjInv
          hib hjb (fun h => hH h) hrih hrjh
          ((bump_length _ _).trans (splice_length _ _ _))
          (fun x => (bump_head _ _ hwlt x).trans
            (splice_head _ _ _ hib hjb x))
          (fun x => (bump_size _ _ hwlt x).trans
            (splice_size _ _ _ hib hjb (fun h => hH h) x))
          (fun x => (bump_children _ _ hwlt x).trans
            (splice_children _ _ _ hib hjb (fun h => hH h) x))
          hascM, ?_⟩
        rw [bump_length, splice_length, len2]
      · rw [if_neg (by
          rw [splice_rank _ _ _ hib hjb, splice_rank _ _ _ hib hjb]
          exact htie)]
        have hlt : (nodeAt (find_group (find_group uf i).2 j).2
            (find_group uf i).1).rank < (nodeAt (find_group (find_group uf i).2 j).2
            (find_group (find_group uf i).2 j).1).rank :=
          lt_of_le_of_ne hle (fun h => htie h.symm)
        have hascM := splice_asc (find_group (find_group uf i).2 j).2
          (find_group uf i).1 (find_group (find_group uf i).2 j).1 hfjInv.asc hib hjb hlt
        refine ⟨splice_like_inv (find_group (find_group uf i).2 j).2 _
          (find_group uf i).1 (find_group (find_group uf i).2 j).1 hfjInv
          hib hjb (fun h => hH h) hrih hrjh (splice_length _ _ _)
          (splice_head _ _ _ hib hjb) (splice_size _ _ _ hib hjb (fun h => hH h))
          (splice_children _ _ _ hib hjb (fun h => hH h)) hascM, ?_⟩
        rw [splice_length, len2]

end UF

namespace UF

theorem init_length (n : ℕ) : (init n).length = n := by
  simp [init]

theorem nodeAt_init (n i : ℕ) (hi : i < n) : nodeAt (init n) i = ⟨0, 1, i, []⟩ := by
  rw [nodeAt, init, List.getD_eq_getElem?_getD, List.getElem?_map,
    List.getElem?_range hi]
  rfl

theorem rootOf_init (n i : ℕ) (hi : i < n) : rootOf (init n) i = i :=
  rootOf_isRoot_self (init n) i (by rw [isRoot, nodeAt_init n i hi])

theorem filter_eq_range (r : ℕ) : ∀ n, r < n →
    ((List.range n).filter (fun x => x = r)).length = 1 := by
  intro n
  induction n with
  | zero => intro h; omega
  | succ n ih =>
    intro hr
    rw [List.range_succ, List.filter_append]
    by_cases hrn : r = n
    · have h1 : (List.range n).filter (fun x => decide (x = r)) = [] := by
        apply List.filter_eq_nil_iff.mpr
        intro a ha
        rw [List.mem_range] at ha
        simp only [decide_eq_true_eq]
        omega
      have h2 : [n].filter (fun x => decide (x = r)) = [n] := by
        simp [hrn.symm]
      rw [h1, h2]
      rfl
    · have h2 : [n].filter (fun x => decide (x = r)) = [] := by
        simp
        exact fun h => hrn h.symm
      rw [h2, List.length_append, ih (by omega)]
      rfl

theorem init_inv (n : ℕ) : Inv (init n) := by
  refine ⟨?_, ?_, ?_, ?_⟩
  · intro j hj
    rw [init_length] at hj
    rw [nodeAt_init n j hj]
    exact ⟨by rw [init_length]; exact hj, fun h => absurd rfl h⟩
  · intro k hk
    rw [init_length] at hk
    rw [nodeAt_init n k hk]
    exact List.nodup_nil
  · intro k hk x
    rw [init_length] at hk
    rw [nodeAt_init n k hk]
    constructor
    · intro h; exact absurd h (List.not_mem_nil x)
    · rintro ⟨h1, h2, h3⟩
      rw [init_length] at h1
      rw [nodeAt_init n x h1] at h2
      exact absurd h2 h3
  · intro r hr _
    rw [init_length] at hr
    rw [nodeAt_init n r hr, init_length]
    have hcong : (List.range n).filter (fun x => rootOf (init n) x = r) =
        (List.range n).filter (fun x => x = r) := by
      apply List.filter_congr
      intro x hx
      rw [List.mem_range] at hx
      rw [rootOf_init n x hx]
    rw [hcong, filter_eq_range r n hr]

end UF

namespace UF

/-- The descendants of a node along child sets, with fuel bounding the rank. -/
def subtreeF (uf : List UFNode) : ℕ → ℕ → List ℕ
  | x, 0 => [x]
  | x, fuel + 1 => x :: (nodeAt uf x).children.flatMap (fun c => subtreeF uf c fuel)

theorem reaches_lt (uf : List UFNode) (hasc : Asc uf) (a b : ℕ)
    (h : Reaches uf a b) (ha : a < uf.length) : b < uf.length := by
  induction h with
  | refl => exact ha
  | step x y hnr _ ih => exact ih (hasc x ha).1

theorem flatMap_congr_mem (l : List ℕ) (f g : ℕ → List ℕ)
    (h : ∀ c ∈ l, f c = g c) : l.flatMap f = l.flatMap g := by
  induction l with
  | nil => rfl
  | cons c t ih =>
    rw [List.flatMap_cons, List.flatMap_cons, h c (List.mem_cons_self _ _),
      ih (fun x hx => h x (List.mem_cons_of_mem _ hx))]

/-- Two children of the same node cannot reach one another. -/
theorem children_not_reach (uf : List UFNode) (hinv : Inv uf) (x c1 c2 : ℕ)
    (hx : x < uf.length) (hc1 : c1 ∈ (nodeAt uf x).children)
    (hc2 : c2 ∈ (nodeAt uf x).children) (hne : c1 ≠ c2) :
    ¬ Reaches uf c1 c2 := by
  rcases (hinv.child_iff x hx c1).mp hc1 with ⟨hb1, hh1, hx1⟩
  rcases (hinv.child_iff x hx c2).mp hc2 with ⟨hb2, hh2, hx2⟩
  intro h
  cases h with
  | refl => exact hne rfl
  | step _ _ hnr hr2 =>
    rw [hh1] at hr2
    have h1 : (nodeAt uf x).rank ≤ (nodeAt uf c2).rank :=
      reaches_rank_le uf hinv.asc x c2 hr2 hx
    have h2 : (nodeAt uf c2).rank < (nodeAt uf x).rank := by
      have := (hinv.asc c2 hb2).2 (by rw [hh2]; exact Ne.symm hx2)
      rw [hh2] at this
      exact this
    omega

/-- With fuel exceeding the rank, `subtreeF x` lists exactly the in-range
nodes whose head chain reaches `x`, without duplicates. -/
theorem subtreeF_spec (uf : List UFNode) (hinv : Inv uf) :
    ∀ fuel x, x < uf.length → (nodeAt uf x).rank < fuel →
      (∀ y, y ∈ subtreeF uf x fuel ↔ (y < uf.length ∧ Reaches uf y x)) ∧
      (subtreeF uf x fuel).Nodup := by
  intro fuel
  induction fuel with
  | zero =>
    intro x _ hr
    omega
  | succ fuel ih =>
    intro x hx hr
    have hchildfacts : ∀ c ∈ (nodeAt uf x).children,
        c < uf.length ∧ (nodeAt uf c).head = x ∧ c ≠ x ∧
        (nodeAt uf c).rank < (nodeAt uf x).rank := by
      intro c hc
      rcases (hinv.child_iff x hx c).mp hc with ⟨h1, h2, h3⟩
      have h4 := (hinv.asc c h1).2 (by rw [h2]; exact Ne.symm h3)
      rw [h2] at h4
      exact ⟨h1, h2, h3, h4⟩
    constructor
    · intro y
      rw [subtreeF, List.mem_cons, List.mem_flatMap]
      constructor
      · rintro (h | ⟨c, hc, hyc⟩)
        · exact ⟨h ▸ hx, h ▸ Reaches.refl y⟩
        · rcases hchildfacts c hc with ⟨h1, h2, h3, h4⟩
          rcases ((ih c h1 (by omega)).1 y).mp hyc with ⟨hy1, hy2⟩
          refine ⟨hy1, reaches_trans uf y c x hy2 ?_⟩
          refine Reaches.step c x (by rw [h2]; exact Ne.symm h3) ?_
          rw [h2]
          exact Reaches.refl x
      · rintro ⟨hy1, hy2⟩
        rcases reaches_last_step uf y x hy2 with h | ⟨z, hz1, hz2, hz3⟩
        · exact Or.inl h
        · have hzlt : z < uf.length := reaches_lt uf hinv.asc y z hz1 hy1
          have hzc : z ∈ (nodeAt uf x).children :=
            (hinv.child_iff x hx z).mpr ⟨hzlt, hz2, hz3⟩
          rcases hchildfacts z hzc with ⟨_, _, _, h4⟩
          exact Or.inr ⟨z, hzc, ((ih z hzlt (by omega)).1 y).mpr ⟨hy1, hz1⟩⟩
    · rw [subtreeF]
      refine List.nodup_cons.mpr ⟨?_, ?_⟩
      · rw [List.mem_flatMap]
        rintro ⟨c, hc, hyc⟩
        rcases hchildfacts c hc with ⟨h1, _, _, h4⟩
        rcases ((ih c h1 (by omega)).1 x).mp hyc with ⟨_, hreach⟩
        have := reaches_rank_le uf hinv.asc x c hreach hx
        omega
      · rw [List.nodup_flatMap]
        constructor
        · intro c hc
          rcases hchildfacts c hc with ⟨h1, _, _, h4⟩
          exact (ih c h1 (by omega)).2
        · apply List.Pairwise.imp_of_mem ?_ (hinv.nodup x hx)
          intro c1 c2 hc1 hc2 hne
          intro y hy1 hy2
          rcases hchildfacts c1 hc1 with ⟨hb1, _, _, hr1⟩
          rcases hchildfacts c2 hc2 with ⟨hb2, _, _, hr2⟩
          rcases ((ih c1 hb1 (by omega)).1 y).mp hy1 with ⟨hylt, hyr1⟩
          rcases ((ih c2 hb2 (by omega)).1 y).mp hy2 with ⟨_, hyr2⟩
          rcases reaches_total uf y c1 c2 hyr1 hyr2 with h | h
          · exact children_not_reach uf hinv x c1 c2 hx hc1 hc2 hne h
          · exact children_not_reach uf hinv x c2 c1 hx hc2 hc1 (Ne.symm hne) h

theorem subtreeF_fuel_eq (uf : List UFNode) (hinv : Inv uf) :
    ∀ fuel1 fuel2 x, x < uf.length →
      (nodeAt uf x).rank < fuel1 → (nodeAt uf x).rank < fuel2 →
      subtreeF uf x fuel1 = subtreeF uf x fuel2 := by
  intro fuel1
  induction fuel1 with
  | zero => intro fuel2 x _ h1 _; omega
  | succ fuel1 ih =>
    intro fuel2 x hx h1 h2
    cases fuel2 with
    | zero => omega
    | succ fuel2 =>
      rw [subtreeF, subtreeF]
      congr 1
      apply flatMap_congr_mem
      intro c hc
      rcases (hinv.child_iff x hx c).mp hc with ⟨hb, hh, hcx⟩
      have h4 := (hinv.asc c hb).2 (by rw [hh]; exact Ne.symm hcx)
      rw [hh] at h4
      exact ih fuel2 c hb (by omega) (by omega)

/-- The descendants of `x`, with just enough fuel. -/
def subtree (uf : List UFNode) (x : ℕ) : List ℕ :=
  subtreeF uf x ((nodeAt uf x).rank + 1)

end UF

namespace UF

theorem subtree_cons (uf : List UFNode) (hinv : Inv uf) (x : ℕ) (hx : x < uf.length) :
    subtree uf x = x :: (nodeAt uf x).children.flatMap (subtree uf) := by
  rw [subtree, subtreeF]
  congr 1
  apply flatMap_congr_mem
  intro c hc
  rcases (hinv.child_iff x hx c).mp hc with ⟨hb, hh, hcx⟩
  have h4 := (hinv.asc c hb).2 (by rw [hh]; exact Ne.symm hcx)
  rw [hh] at h4
  rw [subtree]
  exact subtreeF_fuel_eq uf hinv _ _ c hb (by omega) (by omega)

theorem subtree_length_pos (uf : List UFNode) (x : ℕ) :
    0 < (subtree uf x).length := by
  rw [subtree, subtreeF]
  simp

/-- The stack loop of `group` flushes the stack into the accumulator as the
concatenation of the subtrees, given enough fuel. -/
theorem dfs_eq (uf : List UFNode) (hinv : Inv uf) :
    ∀ fuel S A, (∀ x ∈ S, x < uf.length) →
      (S.map (fun x => (subtree uf x).length)).sum ≤ fuel →
      dfs uf S A fuel = A ++ S.flatMap (subtree uf) := by
  intro fuel
  induction fuel with
  | zero =>
    intro S A hS hsum
    cases S with
    | nil => rw [List.flatMap_nil, List.append_nil]; rfl
    | cons c S2 =>
      exfalso
      rw [List.map_cons, List.sum_cons] at hsum
      have := subtree_length_pos uf c
      omega
  | succ fuel ih =>
    intro S A hS hsum
    cases S with
    | nil => rw [List.flatMap_nil, List.append_nil]; rfl
    | cons curr S2 =>
      have hcurr : curr < uf.length := hS curr (List.mem_cons_self _ _)
      have hsub := subtree_cons uf hinv curr hcurr
      have hchildlt : ∀ c ∈ (nodeAt uf curr).children, c < uf.length := by
        intro c hc
        exact ((hinv.child_iff curr hcurr c).mp hc).1
      have hS2 : ∀ x ∈ (nodeAt uf curr).children ++ S2, x < uf.length := by
        intro x hx
        rcases List.mem_append.mp hx with h | h
        · exact hchildlt x h
        · exact hS x (List.mem_cons_of_mem _ h)
      have hlensub : (subtree uf curr).length =
          1 + (((nodeAt uf curr).children).map
            (fun x => (subtree uf x).length)).sum := by
        rw [hsub, List.length_cons, List.length_flatMap]
        have : (List.map (List.length ∘ subtree uf) (nodeAt uf curr).children) =
            (List.map (fun x => (subtree uf x).length) (nodeAt uf curr).children) := rfl
        rw [this]
        omega
      have hsum2 : (((nodeAt uf curr).children ++ S2).map
          (fun x => (subtree uf x).length)).sum ≤ fuel := by
        rw [List.map_append, List.sum_append]
        rw [List.map_cons, List.sum_cons, hlensub] at hsum
        omega
      rw [show dfs uf (curr :: S2) A (fuel + 1) =
        dfs uf ((nodeAt uf curr).children ++ S2) (A ++ [curr]) fuel from rfl]
      rw [ih ((nodeAt uf curr).children ++ S2) (A ++ [curr]) hS2 hsum2]
      rw [List.flatMap_cons, List.flatMap_append, hsub]
      simp [List.append_assoc]

end UF

namespace UF

theorem length_le_of_nodup_lt (l : List ℕ) (n : ℕ) (hnd : l.Nodup)
    (hlt : ∀ x ∈ l, x < n) : l.length ≤ n := by
  rw [← List.toFinset_card_of_nodup hnd]
  have hsub : l.toFinset ⊆ Finset.range n := by
    intro x hx
    rw [List.mem_toFinset] at hx
    rw [Finset.mem_range]
    exact hlt x hx
  calc l.toFinset.card ≤ (Finset.range n).card := Finset.card_le_card hsub
  _ = n := Finset.card_range n

theorem length_eq_of_nodup_mem_iff (l1 l2 : List ℕ) (h1 : l1.Nodup) (h2 : l2.Nodup)
    (h : ∀ x, x ∈ l1 ↔ x ∈ l2) : l1.length = l2.length := by
  rw [← List.toFinset_card_of_nodup h1, ← List.toFinset_card_of_nodup h2]
  congr 1
  ext x
  rw [List.mem_toFinset, List.mem_toFinset]
  exact h x

/-- `group` returns a duplicate-free enumeration of exactly the group of `i`,
whose length is the size reported by `group_size`. -/
theorem group_spec (uf : List UFNode) (i : ℕ) (hinv : Inv uf) (hi : i < uf.length) :
    ((group uf i).1).Nodup ∧
    (∀ x, x ∈ (group uf i).1 ↔ (x < uf.length ∧ rootOf uf x = rootOf uf i)) ∧
    ((group uf i).1).length = (group_size uf i).1 := by
  rcases find_group_spec uf i hinv hi with ⟨hf1, hfInv, hfLen, hfR, hfRoots⟩
  have hrb : (find_group uf i).1 < (find_group uf i).2.length := by
    rw [hfLen, hf1]
    exact (rootOf_spec uf hinv.asc i hi).2.1
  have hrroot : isRoot (find_group uf i).2 (find_group uf i).1 := by
    apply (hfRoots _).mpr
    rw [hf1]
    exact (rootOf_spec uf hinv.asc i hi).1
  rcases subtreeF_spec (find_group uf i).2 hfInv
    ((nodeAt (find_group uf i).2 (find_group uf i).1).rank + 1)
    (find_group uf i).1 hrb (by omega) with ⟨hmem, hnd⟩
  have hmem2 : ∀ y, y ∈ subtree (find_group uf i).2 (find_group uf i).1 ↔
      (y < uf.length ∧ rootOf uf y = rootOf uf i) := by
    intro y
    rw [subtree, hmem y]
    constructor
    · rintro ⟨hy1, hy2⟩
      have hy0 : y < uf.length := by rw [← hfLen]; exact hy1
      refine ⟨hy0, ?_⟩
      rw [← hfR y hy0, ← hf1]
      exact (reaches_root_eq (find_group uf i).2 hfInv.asc y _ hy2 hy1 hrroot).symm
    · rintro ⟨hy1, hy2⟩
      have hy1' : y < (find_group uf i).2.length := by rw [hfLen]; exact hy1
      refine ⟨hy1', ?_⟩
      have h3 : rootOf (find_group uf i).2 y = (find_group uf i).1 := by
        rw [hfR y hy1, hf1]
        exact hy2
      have := (rootOf_spec (find_group uf i).2 hfInv.asc y hy1').2.2
      rw [h3] at this
      exact this
  have hndsub : (subtree (find_group uf i).2 (find_group uf i).1).Nodup := by
    rw [subtree]
    exact hnd
  have hgval : (group uf i).1 = subtree (find_group uf i).2 (find_group uf i).1 := by
    show dfs (find_group uf i).2 [(find_group uf i).1] [] ((find_group uf i).2.length + 1)
      = _
    rw [dfs_eq (find_group uf i).2 hfInv ((find_group uf i).2.length + 1)
      [(find_group uf i).1] [] ?_ ?_]
    · rw [List.flatMap_cons, List.flatMap_nil, List.nil_append, List.append_nil]
    · intro x hx
      rcases List.mem_cons.mp hx with h | h
      · rw [h]; exact hrb
      · exact absurd h (List.not_mem_nil x)
    · rw [List.map_cons, List.map_nil, List.sum_cons, List.sum_nil]
      have hle := length_le_of_nodup_lt (subtree (find_group uf i).2 (find_group uf i).1)
        (find_group uf i).2.length hndsub ?_
      · omega
      · intro x hx
        rw [subtree] at hx
        exact ((hmem x).mp hx).1
  have hsz : (group_size uf i).1 = (nodeAt (find_group uf i).2 (find_group uf i).1).size :=
    rfl
  refine ⟨by rw [hgval]; exact hndsub, ?_, ?_⟩
  · intro x
    rw [hgval]
    exact hmem2 x
  · rw [hgval, hsz, hfInv.size_eq _ hrb hrroot]
    apply length_eq_of_nodup_mem_iff _ _ hndsub
      (List.Nodup.filter _ (List.nodup_range _))
    intro x
    rw [hmem2 x, List.mem_filter, List.mem_range, decide_eq_true_eq]
    constructor
    · rintro ⟨h1, h2⟩
      refine ⟨by rw [hfLen]; exact h1, ?_⟩
      rw [hfR x h1, hf1]
      exact h2
    · rintro ⟨h1, h2⟩
      rw [hfLen] at h1
      rw [hfR x h1, hf1] at h2
      exact ⟨h1, h2⟩

/-- Any sequence of `union_groups` calls, starting from `size` singletons. -/
def runUnions (n : ℕ) (ops : List (ℕ × ℕ)) : List UFNode :=
  ops.foldl (fun uf p => union_groups uf p.1 p.2) (init n)

theorem runUnions_inv (n : ℕ) (ops : List (ℕ × ℕ))
    (hops : ∀ p ∈ ops, p.1 < n ∧ p.2 < n) :
    Inv (runUnions n ops) ∧ (runUnions n ops).length = n := by
  suffices h : ∀ (l : List (ℕ × ℕ)) (uf : List UFNode), Inv uf → uf.length = n →
      (∀ p ∈ l, p.1 < n ∧ p.2 < n) →
      Inv (l.foldl (fun uf p => union_groups uf p.1 p.2) uf) ∧
      (l.foldl (fun uf p => union_groups uf p.1 p.2) uf).length = n by
    exact h ops (init n) (init_inv n) (init_length n) hops
  intro l
  induction l with
  | nil => intro uf h1 h2 _; exact ⟨h1, h2⟩
  | cons p rest ih =>
    intro uf h1 h2 h3
    rcases h3 p (List.mem_cons_self _ _) with ⟨hp1, hp2⟩
    rcases union_groups_inv uf p.1 p.2 h1 (by omega) (by omega) with ⟨h4, h5⟩
    exact ih (union_groups uf p.1 p.2) h4 (h5.trans h2)
      (fun q hq => h3 q (List.mem_cons_of_mem _ hq))

/-- C7: after any sequence of `union_groups` operations on a union-find of any
size, for every index `i`, `group_size(i)` equals the number of indices
returned by `group(i)`, and `group(i)` enumerates each member of `i`'s group
(the indices with `i`'s representative) exactly once. -/
theorem C7_group_size_eq_group_enumeration (n : ℕ) (ops : List (ℕ × ℕ)) (i : ℕ)
    (hops : ∀ p ∈ ops, p.1 < n ∧ p.2 < n) (hi : i < n) :
    (group_size (runUnions n ops) i).1 = ((group (runUnions n ops) i).1).length ∧
    ((group (runUnions n ops) i).1).Nodup ∧
    (∀ x, x ∈ (group (runUnions n ops) i).1 ↔
      (x < n ∧ rootOf (runUnions n ops) x = rootOf (runUnions n ops) i)) := by
  rcases runUnions_inv n ops hops with ⟨hinv, hlen⟩
  rcases group_spec (runUnions n ops) i hinv (by rw [hlen]; exact hi)
    with ⟨h1, h2, h3⟩
  refine ⟨h3.symm, h1, ?_⟩
  intro x
  rw [h2 x, hlen]

theorem C7_group_size_eq_group_enumeration_witness :
    (∀ p ∈ [(0, 1)], p.1 < 3 ∧ p.2 < 3) ∧ 0 < 3 ∧
    ((group_size (runUnions 3 [(0, 1)]) 0).1 =
      ((group (runUnions 3 [(0, 1)]) 0).1).length ∧
     ((group (runUnions 3 [(0, 1)]) 0).1).Nodup ∧
     (∀ x, x ∈ (group (runUnions 3 [(0, 1)]) 0).1 ↔
       (x < 3 ∧ rootOf (runUnions 3 [(0, 1)]) x = rootOf (runUnions 3 [(0, 1)]) 0))) :=
  ⟨by decide, by decide,
    C7_group_size_eq_group_enumeration 3 [(0, 1)] 0 (by decide) (by decide)⟩

end UF

namespace MMH

/-! ### Proof layer for the min-max heap

The tree geometry of the array (`parent`, `grandparent`, depth parity) and a
parity-generic dominance order `Dom`, in which all min-level/max-level
reasoning is carried out uniformly. -/

variable {α : Type} [LinearOrder α] [Inhabited α]

/-- The parent index: `(c + 1) / 2 - 1`. -/
def par (c : ℕ) : ℕ := (c + 1) / 2 - 1

/-- The grandparent index. -/
def gp (c : ℕ) : ℕ := par (par c)

/-- The depth of an index in the implicit tree. -/
def depth (n : ℕ) : ℕ := Nat.log 2 (n + 1)

theorem gp_eq (c : ℕ) : gp c = (c + 1) / 4 - 1 := by
  rw [gp, par, par]
  omega

theorem par_lt (c : ℕ) (h : 1 ≤ c) : par c < c := by
  rw [par]; omega

theorem par_eq_iff (c i : ℕ) (h : 1 ≤ c) : par c = i ↔ (c = 2 * i + 1 ∨ c = 2 * i + 2) := by
  rw [par]; omega

theorem gp_eq_iff (c i : ℕ) (h : 3 ≤ c) : gp c = i ↔ (4 * i + 3 ≤ c ∧ c ≤ 4 * i + 6) := by
  rw [gp_eq]; omega

theorem par_ge_one_iff (c : ℕ) : 1 ≤ par c ↔ 3 ≤ c := by
  rw [par]; omega

theorem depth_zero : depth 0 = 0 := by
  rw [depth]
  exact Nat.log_eq_of_pow_le_of_lt_pow (by norm_num) (by norm_num)

theorem depth_par (c : ℕ) (h : 1 ≤ c) : depth (par c) = depth c - 1 := by
  rw [depth, depth, par]
  have h2 : (c + 1) / 2 - 1 + 1 = (c + 1) / 2 := by omega
  rw [h2, Nat.log_div_base]

theorem depth_pos (c : ℕ) (h : 1 ≤ c) : 1 ≤ depth c := by
  rw [depth]
  by_contra h2
  push_neg at h2
  have h0 : Nat.log 2 (c + 1) = 0 := by omega
  have h3 := Nat.lt_pow_succ_log_self (b := 2) (by norm_num) (c + 1)
  rw [h0] at h3
  norm_num at h3
  omega

theorem depth_ge_two (c : ℕ) (h : 3 ≤ c) : 2 ≤ depth c := by
  rw [depth]
  have := Nat.lt_pow_succ_log_self (b := 2) (by norm_num) (c + 1)
  by_contra h2
  push_neg at h2
  have h3 : Nat.log 2 (c + 1) + 1 ≤ 2 := by omega
  have h4 : (2 : ℕ) ^ (Nat.log 2 (c + 1) + 1) ≤ 2 ^ 2 :=
    Nat.pow_le_pow_right (by norm_num) h3
  omega

theorem even_depth_ge_three (c : ℕ) (h1 : 1 ≤ c) (h2 : depth c % 2 = 0) : 3 ≤ c := by
  by_contra h3
  push_neg at h3
  interval_cases c
  · have : depth 1 = 1 := by
      rw [depth]
      exact Nat.log_eq_of_pow_le_of_lt_pow (by norm_num) (by norm_num)
    omega
  · have : depth 2 = 1 := by
      rw [depth]
      exact Nat.log_eq_of_pow_le_of_lt_pow (by norm_num) (by norm_num)
    omega

/-- Parity-generic dominance: at even parameter it is `≤`, at odd it is `≥`.
`Dom (depth a) (values[a]) (values[d])` is exactly the min-max-heap relation
required between an ancestor `a` and a descendant `d`. -/
def Dom (p : ℕ) (x y : α) : Prop := if p % 2 = 0 then x ≤ y else y ≤ x

theorem dom_refl (p : ℕ) (x : α) : Dom p x x := by
  rw [Dom]; split <;> exact le_refl x

theorem dom_trans (p : ℕ) (x y z : α) (h1 : Dom p x y) (h2 : Dom p y z) : Dom p x z := by
  rw [Dom] at *
  split at h1 <;> rename_i hp
  · rw [if_pos hp] at h2 ⊢; exact le_trans h1 h2
  · rw [if_neg hp] at h2 ⊢; exact le_trans h2 h1

theorem dom_congr (p q : ℕ) (x y : α) (h : p % 2 = q % 2) : Dom p x y ↔ Dom q x y := by
  rw [Dom, Dom, h]

/-- `cmp` decides dominance: `cmp v1 v2 level` is true iff `v1` (weakly)
dominates, for any `level` whose parity matches `p`. -/
theorem cmp_true_dom (x y : α) (L : ℤ) (p : ℕ) (hp : L % 2 = 0 ↔ p % 2 = 0)
    (h : cmp x y L = true) : Dom p x y := by
  rw [cmp, bne_iff_ne, ne_eq] at h
  rw [Dom]
  by_cases hL : L % 2 = 0
  · rw [if_pos (hp.mp hL)]
    have h1 : decide (L % 2 = 0) = true := decide_eq_true hL
    rw [h1] at h
    have h2 : decide (x > y) = false := by
      cases hxy : decide (x > y)
      · rfl
      · exact absurd hxy.symm h
    rw [decide_eq_false_iff_not] at h2
    exact not_lt.mp h2
  · rw [if_neg (fun h2 => hL (hp.mpr h2))]
    have h1 : decide (L % 2 = 0) = false := decide_eq_false hL
    rw [h1] at h
    have h2 : decide (x > y) = true := by
      cases hxy : decide (x > y)
      · exact absurd hxy.symm h
      · rfl
    rw [decide_eq_true_eq] at h2
    exact le_of_lt h2

theorem cmp_false_dom (x y : α) (L : ℤ) (p : ℕ) (hp : L % 2 = 0 ↔ p % 2 = 0)
    (h : cmp x y L = false) : Dom p y x := by
  rw [cmp] at h
  have h0 : decide (L % 2 = 0) = decide (x > y) := by
    by_contra h2
    rw [show (decide (L % 2 = 0) != decide (x > y)) =
      true from bne_iff_ne.mpr h2] at h
    exact Bool.true_eq_false.mp h
  rw [Dom]
  by_cases hL : L % 2 = 0
  · rw [if_pos (hp.mp hL)]
    have h1 : decide (L % 2 = 0) = true := decide_eq_true hL
    rw [h1] at h0
    have h2 : x > y := of_decide_eq_true h0.symm
    exact le_of_lt h2
  · rw [if_neg (fun h2 => hL (hp.mpr h2))]
    have h1 : decide (L % 2 = 0) = false := decide_eq_false hL
    rw [h1] at h0
    have h2 : ¬ x > y := of_decide_eq_false h0.symm
    exact not_lt.mp h2

end MMH

namespace MMH

variable {α : Type} [LinearOrder α] [Inhabited α]

theorem idx_set (values : List α) (i : ℕ) (x : α) (k : ℕ) (hi : i < values.length) :
    idx (values.set i x) k = if k = i then x else idx values k := by
  rw [idx, idx, List.getD_eq_getElem?_getD, List.getD_eq_getElem?_getD,
    List.getElem?_set]
  by_cases hk : i = k
  · rw [if_pos hk, if_pos hi, if_pos hk.symm]
    rfl
  · rw [if_neg hk, if_neg (fun h => hk h.symm)]

theorem idx_swap (values : List α) (i j : ℕ) (k : ℕ)
    (hi : i < values.length) (hj : j < values.length) :
    idx (swap values i j) k =
      if k = j then idx values i else if k = i then idx values j else idx values k := by
  rw [swap, idx_set _ _ _ _ (by rw [List.length_set]; exact hj),
    idx_set _ _ _ _ hi]

theorem idx_mem (values : List α) (k : ℕ) (hk : k < values.length) :
    idx values k ∈ values := by
  rw [idx, List.getD_eq_getElem?_getD, List.getElem?_eq_getElem hk]
  exact List.getElem_mem hk

theorem idx_append_lt (values tail : List α) (k : ℕ) (hk : k < values.length) :
    idx (values ++ tail) k = idx values k := by
  rw [idx, idx, List.getD_eq_getElem?_getD, List.getD_eq_getElem?_getD,
    List.getElem?_append_left hk]

theorem idx_append_last (values : List α) (x : α) :
    idx (values ++ [x]) values.length = x := by
  rw [idx, List.getD_eq_getElem?_getD]
  rw [List.getElem?_append_right (le_refl _)]
  simp

/-- Multiset content of a `set` at an in-bounds index. -/
theorem multiset_set (values : List α) (n : ℕ) (x : α) (h : n < values.length) :
    (↑(values.set n x) : Multiset α) + {idx values n} = ↑values + {x} := by
  induction values generalizing n with
  | nil => simp at h
  | cons a t ih =>
    cases n with
    | zero =>
      show (↑(x :: t) : Multiset α) + {a} = ↑(a :: t) + {x}
      rw [← Multiset.cons_coe, ← Multiset.cons_coe]
      rw [Multiset.cons_add, Multiset.cons_add]
      rw [add_comm (↑t : Multiset α) {a}, add_comm (↑t : Multiset α) {x}]
      rw [Multiset.singleton_add, Multiset.singleton_add]
      exact Multiset.cons_swap x a ↑t
    | succ n =>
      rw [List.length_cons] at h
      have h2 : idx (a :: t) (n + 1) = idx t n := rfl
      rw [h2]
      show (↑(a :: t.set n x) : Multiset α) + {idx t n} = ↑(a :: t) + {x}
      rw [← Multiset.cons_coe, ← Multiset.cons_coe]
      rw [Multiset.cons_add, Multiset.cons_add]
      rw [ih n (by omega)]

theorem multiset_swap (values : List α) (i j : ℕ)
    (hi : i < values.length) (hj : j < values.length) :
    (↑(swap values i j) : Multiset α) = ↑values := by
  rw [swap]
  have h1 := multiset_set values i (idx values j) hi
  have h2 := multiset_set (values.set i (idx values j)) j (idx values i)
    (by rw [List.length_set]; exact hj)
  have h3 : idx (values.set i (idx values j)) j = idx values j := by
    rw [idx_set values i (idx values j) j hi]
    split <;> rfl
  rw [h3] at h2
  exact add_right_cancel (h2.trans h1)

theorem length_swap (values : List α) (i j : ℕ) :
    (swap values i j).length = values.length := swap_length values i j

theorem perm_length (l1 l2 : List α) (h : (↑l1 : Multiset α) = ↑l2) :
    l1.length = l2.length := by
  have := congrArg Multiset.card h
  rw [Multiset.coe_card, Multiset.coe_card] at this
  exact this

/-- Ancestor relation: `Up d a` means `a` lies on `d`'s parent chain. -/
inductive Up : ℕ → ℕ → Prop where
  | refl (j : ℕ) : Up j j
  | step (c a : ℕ) : 1 ≤ c → Up (par c) a → Up c a

theorem up_le (d a : ℕ) (h : Up d a) : a ≤ d := by
  induction h with
  | refl => exact le_refl _
  | step c a hc _ ih =>
    have := par_lt c hc
    omega

theorem up_zero (d : ℕ) : Up d 0 := by
  induction d using Nat.strong_induction_on with
  | _ d ih =>
    cases d with
    | zero => exact Up.refl 0
    | succ d =>
      exact Up.step _ _ (by omega) (ih _ (par_lt _ (by omega)))

theorem up_cases (d a : ℕ) (h : Up d a) : d = a ∨ (1 ≤ d ∧ Up (par d) a) := by
  cases h with
  | refl => exact Or.inl rfl
  | step c a hc h2 => exact Or.inr ⟨hc, h2⟩

theorem up_par (d a : ℕ) (h : Up d a) (hne : d ≠ a) : 1 ≤ d ∧ Up (par d) a := by
  rcases up_cases d a h with h2 | h2
  · exact absurd h2 hne
  · exact h2

theorem up_trans (a b c : ℕ) (h1 : Up a b) (h2 : Up b c) : Up a c := by
  induction h1 with
  | refl => exact h2
  | step x y hx _ ih => exact Up.step x c hx (ih h2)

theorem up_depth_le (d a : ℕ) (h : Up d a) : depth a ≤ depth d := by
  induction h with
  | refl => exact le_refl _
  | step c a hc _ ih =>
    have := depth_par c hc
    have := depth_pos c hc
    omega

theorem up_depth_lt (d a : ℕ) (h : Up d a) (hne : d ≠ a) : depth a < depth d := by
  rcases up_par d a h hne with ⟨hd, h2⟩
  have h3 := up_depth_le _ _ h2
  have := depth_par d hd
  have := depth_pos d hd
  omega

/-- The parent chain of a child of `i` starts at `i`. -/
theorem up_child (i c : ℕ) (h : c = 2 * i + 1 ∨ c = 2 * i + 2) : Up c i :=
  Up.step c i (by omega)
    (by rw [(par_eq_iff c i (by omega)).mpr h]; exact Up.refl i)

theorem up_of_par (d a : ℕ) (hd : 1 ≤ d) (h : Up (par d) a) : Up d a :=
  Up.step d a hd h

/-- Decompose an ancestor of `d` (other than `d` and its parent): it is an
ancestor of the grandparent. -/
theorem up_gp_decomp (d a : ℕ) (h : Up d a) (h1 : a ≠ d) (h2 : a ≠ par d) :
    3 ≤ d ∧ Up (gp d) a := by
  rcases up_par d a h (fun h3 => h1 h3.symm) with ⟨hd, h3⟩
  rcases up_par (par d) a h3 (fun h4 => h2 h4.symm) with ⟨hpd, h4⟩
  exact ⟨(par_ge_one_iff d).mp hpd, h4⟩

/-- Two subtrees rooted at incomparable indices are disjoint. -/
theorem up_total (d a b : ℕ) (h1 : Up d a) : Up d b → Up a b ∨ Up b a := by
  induction h1 with
  | refl => exact fun h2 => Or.inl h2
  | step c x hc h ih =>
    intro h2
    rcases up_cases c b h2 with h3 | h3
    · subst h3
      exact Or.inr (Up.step c x hc h)
    · exact ih h3.2

end MMH

namespace MMH

variable {α : Type} [LinearOrder α] [Inhabited α]

/-- The min-max relation required between an ancestor `a` and a descendant:
at even (min) depth the ancestor is `≤`, at odd (max) depth `≥`. -/
def R (values : List α) (a d : ℕ) : Prop :=
  Dom (depth a) (idx values a) (idx values d)

/-- The local min-max heap invariant: every parent–child and
grandparent–grandchild pair is correctly ordered. -/
def MMHLocal (values : List α) : Prop :=
  ∀ d, d < values.length →
    (1 ≤ d → R values (par d) d) ∧ (3 ≤ d → R values (gp d) d)

theorem depth_gp (d : ℕ) (h : 3 ≤ d) : depth (gp d) = depth d - 2 := by
  rw [gp, depth_par _ ((par_ge_one_iff d).mpr h), depth_par _ (by omega)]
  omega

/-- The local pair conditions imply the relation between every ancestor and
descendant. -/
theorem local_to_global (values : List α) (h : MMHLocal values) :
    ∀ d, d < values.length → ∀ a, Up d a → R values a d := by
  intro d
  induction d using Nat.strong_induction_on with
  | _ d ih =>
    intro hd a hup
    by_cases had : a = d
    · rw [had, R]; exact dom_refl _ _
    rcases up_par d a hup (fun h2 => had h2.symm) with ⟨hd1, hpar⟩
    by_cases hpa : a = par d
    · rw [hpa]; exact (h d hd).1 hd1
    rcases up_gp_decomp d a hup had hpa with ⟨hd3, hgp⟩
    have hdpar : depth (par d) = depth d - 1 := depth_par d hd1
    have hdgp : depth (gp d) = depth d - 2 := depth_gp d hd3
    have hdp1 : 1 ≤ depth d := depth_pos d hd1
    have hdp2 : 2 ≤ depth d := depth_ge_two d hd3
    by_cases hparity : depth a % 2 = depth d % 2
    · -- same parity: chain through the grandparent
      by_cases hgpa : a = gp d
      · rw [hgpa]; exact (h d hd).2 hd3
      have hgplt : gp d < d := by
        have h1 := par_lt d hd1
        have h2 := par_lt (par d) ((par_ge_one_iff d).mpr hd3)
        rw [gp]
        omega
      have hIH : R values a (gp d) := ih (gp d) hgplt (by omega) a hgp
      have hpair : R values (gp d) d := (h d hd).2 hd3
      rw [R] at hIH hpair ⊢
      rw [dom_congr (depth (gp d)) (depth a) _ _ (by omega)] at hpair
      exact dom_trans _ _ _ _ hIH hpair
    · -- opposite parity: chain through the parent
      have hparlt : par d < d := par_lt d hd1
      have hIH : R values a (par d) := ih (par d) hparlt (by omega) a hpar
      have hpair : R values (par d) d := (h d hd).1 hd1
      rw [R] at hIH hpair ⊢
      rw [dom_congr (depth (par d)) (depth a) _ _ (by omega)] at hpair
      exact dom_trans _ _ _ _ hIH hpair

theorem global_min (values : List α) (h : MMHLocal values) (d : ℕ)
    (hd : d < values.length) : idx values 0 ≤ idx values d := by
  have h2 := local_to_global values h d hd 0 (up_zero d)
  rw [R, depth_zero, Dom] at h2
  rw [if_pos rfl] at h2
  exact h2

theorem up_one_or_two (d : ℕ) (hd : 1 ≤ d) : Up d 1 ∨ Up d 2 := by
  induction d using Nat.strong_induction_on with
  | _ d ih =>
    by_cases h3 : 3 ≤ d
    · have hp1 : 1 ≤ par d := (par_ge_one_iff d).mpr h3
      rcases ih (par d) (par_lt d (by omega)) hp1 with h | h
      · exact Or.inl (Up.step d 1 (by omega) h)
      · exact Or.inr (Up.step d 2 (by omega) h)
    · interval_cases d
      · exact Or.inl (Up.refl 1)
      · exact Or.inr (Up.refl 2)

theorem depth_one : depth 1 = 1 := by
  rw [depth]
  exact Nat.log_eq_of_pow_le_of_lt_pow (by norm_num) (by norm_num)

theorem depth_two : depth 2 = 1 := by
  rw [depth]
  exact Nat.log_eq_of_pow_le_of_lt_pow (by norm_num) (by norm_num)

theorem global_max (values : List α) (h : MMHLocal values)
    (hlen : 3 ≤ values.length) (d : ℕ) (hd : d < values.length) :
    idx values d ≤ max (idx values 1) (idx values 2) := by
  by_cases hd1 : 1 ≤ d
  · rcases up_one_or_two d hd1 with hup | hup
    · have h2 := local_to_global values h d hd 1 hup
      rw [R, depth_one, Dom] at h2
      rw [if_neg (by omega)] at h2
      exact le_trans h2 (le_max_left _ _)
    · have h2 := local_to_global values h d hd 2 hup
      rw [R, depth_two, Dom] at h2
      rw [if_neg (by omega)] at h2
      exact le_trans h2 (le_max_right _ _)
  · have hd0 : d = 0 := by omega
    subst hd0
    have h2 := global_min values h 1 (by omega)
    exact le_trans h2 (le_max_left _ _)

theorem idx_eq_getElem (values : List α) (k : ℕ) (hk : k < values.length) :
    idx values k = values[k] := by
  rw [idx, List.getD_eq_getElem?_getD, List.getElem?_eq_getElem hk]
  rfl

theorem mem_exists_idx (values : List α) (x : α) (h : x ∈ values) :
    ∃ k, k < values.length ∧ idx values k = x := by
  rcases List.mem_iff_getElem.mp h with ⟨k, hk, hx⟩
  exact ⟨k, hk, by rw [idx_eq_getElem values k hk]; exact hx⟩

/-- `min()` returns the minimum of the stored elements. -/
theorem min_fn_correct (values : List α) (h : MMHLocal values) (hne : values ≠ []) :
    min_fn values ∈ values ∧ ∀ x ∈ values, min_fn values ≤ x := by
  have hlen : 0 < values.length := List.length_pos.mpr hne
  constructor
  · rw [min_fn]; exact idx_mem values 0 hlen
  · intro x hx
    rcases mem_exists_idx values x hx with ⟨k, hk, hkx⟩
    rw [min_fn, ← hkx]
    exact global_min values h k hk

/-- `max()` returns the maximum of the stored elements. -/
theorem max_fn_correct (values : List α) (h : MMHLocal values) (hne : values ≠ []) :
    max_fn values ∈ values ∧ ∀ x ∈ values, x ≤ max_fn values := by
  have hlen : 0 < values.length := List.length_pos.mpr hne
  rw [max_fn]
  by_cases h1 : values.length = 1
  · rw [if_pos h1]
    refine ⟨idx_mem values 0 hlen, ?_⟩
    intro x hx
    rcases mem_exists_idx values x hx with ⟨k, hk, hkx⟩
    have hk0 : k = 0 := by omega
    rw [← hkx, hk0]
  · rw [if_neg h1]
    by_cases h2 : values.length = 2
    · rw [if_pos h2]
      refine ⟨idx_mem values 1 (by omega), ?_⟩
      intro x hx
      rcases mem_exists_idx values x hx with ⟨k, hk, hkx⟩
      rw [← hkx]
      by_cases hk1 : k = 1
      · rw [hk1]
      · have hk0 : k = 0 := by omega
        rw [hk0]
        have hpair := (h 1 (by omega)).1 (by omega)
        rw [R, Dom] at hpair
        have hp1 : par 1 = 0 := by rw [par]
        rw [hp1, depth_zero, if_pos rfl] at hpair
        exact hpair
    · rw [if_neg h2]
      have h3 : 3 ≤ values.length := by omega
      constructor
      · rcases max_choice (idx values 1) (idx values 2) with hc | hc <;> rw [hc]
        · exact idx_mem values 1 (by omega)
        · exact idx_mem values 2 (by omega)
      · intro x hx
        rcases mem_exists_idx values x hx with ⟨k, hk, hkx⟩
        rw [← hkx]
        exact global_max values h h3 k hk

end MMH

namespace MMH

theorem level_loop_val : ∀ (d size nlb : ℕ) (lv : ℤ) (h : 0 < nlb),
    size + 1 - nlb ≤ d → nlb - 1 < size →
    (level_loop size nlb lv h).1 = lv + 1 + Nat.log 2 (size / nlb) ∧
    (level_loop size nlb lv h).2 = nlb * 2 ^ (1 + Nat.log 2 (size / nlb)) := by
  intro d
  induction d with
  | zero =>
    intro size nlb lv h hd hloop
    omega
  | succ d ih =>
    intro size nlb lv h hd hloop
    rw [level_loop, dif_pos hloop]
    by_cases h2 : nlb * 2 - 1 < size
    · have hdiv2 : 2 ≤ size / nlb := by
        rw [Nat.le_div_iff_mul_le h]
        omega
      have hlog : Nat.log 2 (size / nlb) = Nat.log 2 (size / (nlb * 2)) + 1 := by
        have e1 : size / (nlb * 2) = size / nlb / 2 := (Nat.div_div_eq_div_mul size nlb 2).symm
        have e2 := Nat.log_div_base 2 (size / nlb)
        have e3 : 0 < Nat.log 2 (size / nlb) := Nat.log_pos (by norm_num) hdiv2
        rw [e1]
        omega
      rcases ih size (nlb * 2) (lv + 1) (by positivity) (by omega) h2 with ⟨r1, r2⟩
      constructor
      · rw [r1, hlog]
        push_cast
        ring
      · rw [r2, hlog]
        ring
    · have hdiv : size / nlb < 2 := by
        rw [Nat.div_lt_iff_lt_mul h]
        omega
      have hlog : Nat.log 2 (size / nlb) = 0 :=
        Nat.log_eq_zero_iff.mpr (Or.inl hdiv)
      rw [level_loop, dif_neg (by omega)]
      constructor
      · show lv + 1 = lv + 1 + (Nat.log 2 (size / nlb) : ℤ)
        rw [hlog]
        push_cast
        ring
      · show nlb * 2 = nlb * 2 ^ (1 + Nat.log 2 (size / nlb))
        rw [hlog]
        norm_num

theorem level_loop_one (size : ℕ) (hsize : 1 ≤ size) (lv : ℤ) (hh : 0 < 1) :
    (level_loop size 1 lv hh).1 = lv + 1 + Nat.log 2 size ∧
    (level_loop size 1 lv hh).2 = 2 ^ (1 + Nat.log 2 size) := by
  have h := level_loop_val size size 1 lv hh (by omega) (by omega)
  rw [Nat.div_one] at h
  rcases h with ⟨h1, h2⟩
  rw [one_mul] at h2
  exact ⟨h1, h2⟩

theorem depth_last (size : ℕ) (hsize : 1 ≤ size) :
    depth (size - 1) = Nat.log 2 size := by
  rw [depth]
  congr 1
  omega

end MMH

namespace MMH

variable {α : Type} [LinearOrder α] [Inhabited α]

theorem dom_opp (p q : ℕ) (x y : α) (h : p % 2 ≠ q % 2) : Dom p x y ↔ Dom q y x := by
  rw [Dom, Dom]
  by_cases hp : p % 2 = 0
  · rw [if_pos hp, if_neg (by omega)]
  · rw [if_neg hp, if_pos (by omega)]

/-- The state during upward bubbling: every ancestor–descendant relation
holds, except possibly between `i` and its same-parity proper ancestors. -/
def UpInv (values : List α) (i : ℕ) : Prop :=
  ∀ d a, d < values.length → Up d a → a ≠ d →
    (d = i → depth a % 2 ≠ depth i % 2) → R values a d

/-- Every ancestor–descendant relation holds. -/
def GlobalAll (values : List α) : Prop :=
  ∀ d a, d < values.length → Up d a → R values a d

theorem local_to_globalAll (values : List α) (h : MMHLocal values) :
    GlobalAll values := fun d a hd hup => local_to_global values h d hd a hup

theorem globalAll_to_local (values : List α) (h : GlobalAll values) :
    MMHLocal values := by
  intro d hd
  constructor
  · intro h1
    exact h d (par d) hd (up_of_par d (par d) h1 (Up.refl _))
  · intro h3
    exact h d (gp d) hd (up_of_par d (gp d) (by omega)
      (up_of_par (par d) (gp d) ((par_ge_one_iff d).mpr h3) (Up.refl _)))

theorem globalAll_to_upinv (values : List α) (h : GlobalAll values) (i : ℕ) :
    UpInv values i := fun d a hd hup _ _ => h d a hd hup

theorem up_to_gp (i : ℕ) (h : 3 ≤ i) : Up i (gp i) :=
  up_of_par i (gp i) (by omega)
    (up_of_par (par i) (gp i) ((par_ge_one_iff i).mpr h) (Up.refl _))

theorem gp_lt (i : ℕ) (h : 3 ≤ i) : gp i < i := by
  have h1 := par_lt i (by omega)
  have h2 := par_lt (par i) ((par_ge_one_iff i).mpr h)
  rw [gp]
  omega

theorem gp_lt_par (i : ℕ) (h : 3 ≤ i) : gp i < par i :=
  par_lt (par i) ((par_ge_one_iff i).mpr h)

/-- After swapping the bubbling value with its grandparent, the bubbling
state holds at the grandparent. -/
theorem upinv_swap (values : List α) (i : ℕ)
    (hinv : UpInv values i) (hi : i < values.length) (h3 : 3 ≤ i)
    (hdom : Dom (depth i) (idx values i) (idx values (gp i))) :
    UpInv (swap values i (gp i)) (gp i) := by
  have hglt : gp i < i := gp_lt i h3
  have hgp : gp i < values.length := by omega
  have hparlt : par i < i := par_lt i (by omega)
  have hgppar : gp i < par i := gp_lt_par i h3
  have hdg : depth (gp i) = depth i - 2 := depth_gp i h3
  have hd2 : 2 ≤ depth i := depth_ge_two i h3
  have hdpar : depth (par i) = depth i - 1 := depth_par i (by omega)
  have hidx : ∀ k, idx (swap values i (gp i)) k =
      if k = gp i then idx values i else if k = i then idx values (gp i)
      else idx values k := fun k => idx_swap values i (gp i) k hi hgp
  intro d a hd hup hne hexc
  rw [length_swap] at hd
  rw [R]
  by_cases hdi : d = i
  · have ed : idx (swap values i (gp i)) d = idx values (gp i) := by
      rw [hidx d, if_neg (by omega), if_pos hdi]
    rw [ed]
    by_cases hag : a = gp i
    · have ea : idx (swap values i (gp i)) a = idx values i := by
        rw [hidx a, if_pos hag]
      rw [ea, hag, hdg]
      rw [dom_congr _ (depth i) _ _ (by omega)]
      exact hdom
    by_cases hap : a = par i
    · have ea : idx (swap values i (gp i)) a = idx values (par i) := by
        rw [hidx a, if_neg (by omega), if_neg (by omega), hap]
      rw [ea, hap]
      have hold : R values (gp i) (par i) := by
        apply hinv (par i) (gp i) (by omega)
          (up_of_par (par i) (gp i) ((par_ge_one_iff i).mpr h3) (Up.refl _))
          (by omega) (by omega)
      rw [R] at hold
      rw [dom_opp (depth (par i)) (depth (gp i)) _ _ (by omega)]
      exact hold
    · have hupi : Up i a := by rw [← hdi]; exact hup
      rcases up_gp_decomp i a hupi (fun h => by omega) hap
        with ⟨_, hupg⟩
      have halt : a < gp i := by
        have h5 := up_le _ _ hupg
        omega
      have ea : idx (swap values i (gp i)) a = idx values a := by
        rw [hidx a, if_neg (by omega), if_neg (by omega)]
      rw [ea]
      have hold : R values a (gp i) :=
        hinv (gp i) a (by omega) hupg (by omega) (by omega)
      rw [R] at hold
      exact hold
  by_cases hdg2 : d = gp i
  · have hpar : depth a % 2 ≠ depth (gp i) % 2 := hexc hdg2
    have hupga : Up (gp i) a := by rw [← hdg2]; exact hup
    have halt : a < gp i := by
      have h5 := up_le _ _ hupga
      omega
    have ed : idx (swap values i (gp i)) d = idx values i := by
      rw [hidx d, if_pos hdg2]
    have ea : idx (swap values i (gp i)) a = idx values a := by
      rw [hidx a, if_neg (by omega), if_neg (by omega)]
    rw [ed, ea]
    have hold : R values a i := by
      apply hinv i a hi (up_trans i (gp i) a (up_to_gp i h3) hupga) (by omega)
      intro _
      omega
    rw [R] at hold
    exact hold
  -- d is neither i nor gp i
  have ed : idx (swap values i (gp i)) d = idx values d := by
    rw [hidx d, if_neg hdg2, if_neg hdi]
  rw [ed]
  by_cases hai : a = i
  · have hdgt : i < d := by
      have h5 := up_le _ _ hup
      omega
    have ea : idx (swap values i (gp i)) a = idx values (gp i) := by
      rw [hidx a, if_neg (by omega), if_pos hai]
    rw [ea, hai]
    have hold : R values (gp i) d := by
      apply hinv d (gp i) hd
        (up_trans d i (gp i) (by rw [← hai]; exact hup) (up_to_gp i h3))
        (by omega) (fun h => absurd h hdi)
    rw [R] at hold
    rw [dom_congr _ (depth (gp i)) _ _ (by omega)]
    exact hold
  by_cases hag : a = gp i
  · have ea : idx (swap values i (gp i)) a = idx values i := by
      rw [hidx a, if_pos hag]
    rw [ea, hag, hdg]
    have hold : R values (gp i) d :=
      hinv d (gp i) hd (by rw [← hag]; exact hup) (fun h5 => hdg2 h5.symm)
        (fun h => absurd h hdi)
    rw [R, hdg] at hold
    refine dom_trans _ _ _ _ ?_ hold
    rw [dom_congr _ (depth i) _ _ (by omega)]
    exact hdom
  · have ea : idx (swap values i (gp i)) a = idx values a := by
      rw [hidx a, if_neg hag, if_neg hai]
    rw [ea]
    have hold : R values a d :=
      hinv d a hd hup hne (fun h => absurd h hdi)
    rw [R] at hold
    exact hold

end MMH

namespace MMH

variable {α : Type} [LinearOrder α] [Inhabited α]

/-- Upward bubbling restores the full invariant, permuting the contents. -/
theorem restore_heap_above_correct : ∀ (i : ℕ) (values : List α) (level : ℤ),
    UpInv values i → i < values.length →
    (level % 2 = 0 ↔ depth i % 2 = 0) →
    MMHLocal (restore_heap_above values i level) ∧
    (↑(restore_heap_above values i level) : Multiset α) = ↑values ∧
    (restore_heap_above values i level).length = values.length := by
  intro i
  induction i using Nat.strong_induction_on with
  | _ i ih =>
    intro values level hinv hi hlev
    rw [restore_heap_above]
    by_cases h2 : i ≤ 2
    · rw [if_pos h2]
      refine ⟨?_, rfl, rfl⟩
      intro d hd
      constructor
      · intro hd1
        apply hinv d (par d) hd (up_of_par d (par d) hd1 (Up.refl _))
          (by have := par_lt d hd1; omega)
        intro hdi
        rw [hdi]
        have e1 := depth_par i (by omega)
        have e2 := depth_pos i (by omega)
        omega
      · intro hd3
        apply hinv d (gp d) hd (up_to_gp d hd3)
          (by have := gp_lt d hd3; omega)
        intro hdi
        omega
    · rw [if_neg h2]
      have h3 : 3 ≤ i := by omega
      have hgpi : (i + 1) / 4 - 1 = gp i := (gp_eq i).symm
      rw [hgpi]
      have hglt : gp i < i := gp_lt i h3
      have hgp : gp i < values.length := by omega
      have hdg : depth (gp i) = depth i - 2 := depth_gp i h3
      have hd2 : 2 ≤ depth i := depth_ge_two i h3
      by_cases hcmp : cmp (idx values i) (idx values (gp i)) (level - 2) = true
      · rw [if_pos hcmp]
        have hdom : Dom (depth i) (idx values i) (idx values (gp i)) :=
          cmp_true_dom _ _ _ _ (by omega) hcmp
        have hinv2 := upinv_swap values i hinv hi h3 hdom
        rcases ih (gp i) hglt (swap values i (gp i)) (level - 2) hinv2
          (by rw [length_swap]; exact hgp) (by omega) with ⟨m1, m2, m3⟩
        refine ⟨m1, ?_, ?_⟩
        · rw [m2]
          exact multiset_swap values i (gp i) hi hgp
        · rw [m3, length_swap]
      · rw [if_neg hcmp]
        have hf : cmp (idx values i) (idx values (gp i)) (level - 2) = false := by
          rw [← Bool.not_eq_true]
          exact hcmp
        have hdomf : Dom (depth (gp i)) (idx values (gp i)) (idx values i) :=
          cmp_false_dom _ _ _ _ (by omega) hf
        refine ⟨?_, rfl, rfl⟩
        intro d hd
        constructor
        · intro hd1
          apply hinv d (par d) hd (up_of_par d (par d) hd1 (Up.refl _))
            (by have := par_lt d hd1; omega)
          intro hdi
          rw [hdi]
          have e1 := depth_par i (by omega)
          have e2 := depth_pos i (by omega)
          omega
        · intro hd3
          by_cases hdi : d = i
          · rw [hdi, R]
            exact hdomf
          · exact hinv d (gp d) hd (up_to_gp d hd3)
              (by have := gp_lt d hd3; omega) (fun h => absurd h hdi)

end MMH

namespace MMH

variable {α : Type} [LinearOrder α] [Inhabited α]

theorem idx_append (values : List α) (x : α) (k : ℕ) :
    k < values.length + 1 →
    idx (values ++ [x]) k = if k = values.length then x else idx values k := by
  intro hk
  by_cases h : k = values.length
  · rw [if_pos h, h, idx_append_last]
  · rw [if_neg h, idx_append_lt values [x] k (by omega)]

/-- After appending `x` and swapping it with its parent (because it dominates
the parent), the bubbling state holds at the parent. -/
theorem upinv_append_swap (values : List α) (x : α)
    (h : GlobalAll values) (hn : 1 ≤ values.length)
    (hdom : Dom (depth (par values.length))
      x (idx values (par values.length))) :
    UpInv (swap (values ++ [x]) values.length (par values.length))
      (par values.length) := by
  set n := values.length with hnn
  set p := par n with hpn
  have hp : p < n := par_lt n hn
  have hlapp : (values ++ [x]).length = n + 1 := by simp
  have hidxa : ∀ k, k < n + 1 →
      idx (values ++ [x]) k = if k = n then x else idx values k :=
    fun k hk => idx_append values x k hk
  have hidx : ∀ k, k < n + 1 →
      idx (swap (values ++ [x]) n p) k =
      if k = p then x else if k = n then idx values p else idx values k := by
    intro k hk
    rw [idx_swap (values ++ [x]) n p k (by omega) (by omega)]
    by_cases h1 : k = p
    · rw [if_pos h1, if_pos h1, hidxa n (by omega), if_pos rfl]
    · rw [if_neg h1, if_neg h1]
      by_cases h2 : k = n
      · rw [if_pos h2, hidxa p (by omega), if_neg (by omega), if_pos h2]
      · rw [if_neg h2, if_neg h2, hidxa k hk, if_neg h2]
  intro d a hd hup hne hexc
  rw [length_swap, hlapp] at hd
  rw [R]
  by_cases hdn : d = n
  · have ed : idx (swap (values ++ [x]) n p) d = idx values p := by
      rw [hidx d hd, if_neg (by omega), if_pos hdn]
    rw [ed]
    by_cases hap : a = p
    · have ea : idx (swap (values ++ [x]) n p) a = x := by
        rw [hidx a (by omega), if_pos hap]
      rw [ea, hap]
      exact hdom
    · have hupa : Up p a := by
        rcases up_par d a hup (fun h5 => hne h5.symm) with ⟨_, h6⟩
        rw [hdn] at h6
        exact h6
      have halt : a < p := by
        have h5 := up_le _ _ hupa
        omega
      have ea : idx (swap (values ++ [x]) n p) a = idx values a := by
        rw [hidx a (by omega), if_neg (by omega), if_neg (by omega)]
      rw [ea]
      have hold := h p a (by omega) hupa
      rw [R] at hold
      exact hold
  by_cases hdp : d = p
  · have hpar : depth a % 2 ≠ depth p % 2 := hexc hdp
    have hupa : Up p a := by rw [← hdp]; exact hup
    have halt : a < p := by
      have h5 := up_le _ _ hupa
      have h6 : a ≠ p := by rw [hdp] at hne; exact hne
      omega
    have ed : idx (swap (values ++ [x]) n p) d = x := by
      rw [hidx d hd, if_pos hdp]
    have ea : idx (swap (values ++ [x]) n p) a = idx values a := by
      rw [hidx a (by omega), if_neg (by omega), if_neg (by omega)]
    rw [ed, ea]
    have hold := h p a (by omega) hupa
    rw [R] at hold
    refine dom_trans _ _ _ _ hold ?_
    rw [dom_opp (depth a) (depth p) _ _ hpar]
    exact hdom
  -- d < n and d ≠ p
  have hdlt : d < n := by omega
  have ed : idx (swap (values ++ [x]) n p) d = idx values d := by
    rw [hidx d hd, if_neg hdp, if_neg hdn]
  rw [ed]
  by_cases hap : a = p
  · have ea : idx (swap (values ++ [x]) n p) a = x := by
      rw [hidx a (by omega), if_pos hap]
    rw [ea, hap]
    have hold := h d p hdlt (by rw [← hap]; exact hup)
    rw [R] at hold
    exact dom_trans _ _ _ _ hdom hold
  · have han : a ≠ n := by
      intro h5
      have h6 := up_le _ _ hup
      omega
    have ea : idx (swap (values ++ [x]) n p) a = idx values a := by
      rw [hidx a (by have := up_le _ _ hup; omega), if_neg hap, if_neg han]
    rw [ea]
    have hold := h d a hdlt hup
    rw [R] at hold
    exact hold

/-- After appending `x` which does not dominate its parent, the bubbling
state holds at the appended leaf itself. -/
theorem upinv_append_noswap (values : List α) (x : α)
    (h : GlobalAll values) (hn : 1 ≤ values.length)
    (hdom : Dom (depth (par values.length))
      (idx values (par values.length)) x) :
    UpInv (values ++ [x]) values.length := by
  set n := values.length with hnn
  set p := par n with hpn
  have hp : p < n := par_lt n hn
  have hdp : depth p = depth n - 1 := depth_par n hn
  have hdn1 : 1 ≤ depth n := depth_pos n hn
  have hidxa : ∀ k, k < n + 1 →
      idx (values ++ [x]) k = if k = n then x else idx values k :=
    fun k hk => idx_append values x k hk
  intro d a hd hup hne hexc
  have hlapp : (values ++ [x]).length = n + 1 := by simp
  rw [hlapp] at hd
  rw [R]
  by_cases hdn : d = n
  · have hpar : depth a % 2 ≠ depth n % 2 := hexc hdn
    have ed : idx (values ++ [x]) d = x := by
      rw [hidxa d hd, if_pos hdn]
    rw [ed]
    by_cases hap : a = p
    · have ea : idx (values ++ [x]) a = idx values p := by
        rw [hidxa a (by omega), if_neg (by omega), hap]
      rw [ea, hap]
      exact hdom
    · have hupa : Up p a := by
        rcases up_par d a hup (fun h5 => hne h5.symm) with ⟨_, h6⟩
        rw [hdn] at h6
        exact h6
      have halt : a < p := by
        have h5 := up_le _ _ hupa
        omega
      have ea : idx (values ++ [x]) a = idx values a := by
        rw [hidxa a (by omega), if_neg (by omega)]
      rw [ea]
      have hold := h p a (by omega) hupa
      rw [R] at hold
      refine dom_trans _ _ _ _ hold ?_
      have hpp : depth a % 2 = depth p % 2 := by omega
      rw [dom_congr _ (depth p) _ _ hpp]
      exact hdom
  · have hdlt : d < n := by omega
    have han : a ≠ n := by
      intro h5
      have h6 := up_le _ _ hup
      omega
    have ed : idx (values ++ [x]) d = idx values d := by
      rw [hidxa d hd, if_neg hdn]
    have ea : idx (values ++ [x]) a = idx values a := by
      rw [hidxa a (by have := up_le _ _ hup; omega), if_neg han]
    rw [ed, ea]
    have hold := h d a hdlt hup
    rw [R] at hold
    exact hold

end MMH

namespace MMH

variable {α : Type} [LinearOrder α] [Inhabited α]

/-- `post_add` on a heap with one appended element restores the invariant. -/
theorem post_add_correct (values : List α) (x : α) (h : MMHLocal values) :
    MMHLocal (post_add (values ++ [x])) ∧
    (↑(post_add (values ++ [x])) : Multiset α) = ↑values + {x} ∧
    (post_add (values ++ [x])).length = values.length + 1 := by
  have hlapp : (values ++ [x]).length = values.length + 1 := by simp
  have hcoe : (↑(values ++ [x]) : Multiset α) = ↑values + {x} := rfl
  by_cases h0 : values.length = 0
  · have hpost : post_add (values ++ [x]) = values ++ [x] := by
      rw [post_add, if_pos (by rw [hlapp, h0])]
    rw [hpost]
    refine ⟨?_, hcoe, hlapp⟩
    intro d hd
    rw [hlapp, h0] at hd
    constructor
    · intro h1; exact absurd h1 (by omega)
    · intro h1; exact absurd h1 (by omega)
  · have hn : 1 ≤ values.length := by omega
    have hp : par values.length < values.length := par_lt values.length hn
    have hdp : depth (par values.length) = depth values.length - 1 :=
      depth_par values.length hn
    have hdn1 : 1 ≤ depth values.length := depth_pos values.length hn
    have hlv : ∀ (hh : 0 < 1), (level_loop (values ++ [x]).length 1 (-1) hh).1 =
        (depth values.length : ℤ) := by
      intro hh
      rw [hlapp, (level_loop_one (values.length + 1) (by omega) (-1) hh).1, depth]
      push_cast
      ring
    have heq : post_add (values ++ [x]) =
        (if cmp (idx (values ++ [x]) values.length)
            (idx (values ++ [x]) (par values.length))
            ((depth values.length : ℤ) - 1) then
          restore_heap_above
            (swap (values ++ [x]) values.length (par values.length))
            (par values.length) ((depth values.length : ℤ) - 1)
        else
          restore_heap_above (values ++ [x]) values.length
            (depth values.length : ℤ)) := by
      rw [post_add, if_neg (by rw [hlapp]; omega)]
      dsimp only
      rw [hlv, hlapp]
      rw [show values.length + 1 - 1 = values.length from by omega]
      rw [show (values.length + 1) / 2 - 1 = par values.length from rfl]
    have eix : idx (values ++ [x]) values.length = x := idx_append_last values x
    have eip : idx (values ++ [x]) (par values.length) =
        idx values (par values.length) := idx_append_lt values [x] _ hp
    rw [heq, eix, eip]
    by_cases hc : cmp x (idx values (par values.length))
        ((depth values.length : ℤ) - 1) = true
    · rw [if_pos hc]
      have hdom : Dom (depth (par values.length)) x
          (idx values (par values.length)) :=
        cmp_true_dom _ _ _ _ (by omega) hc
      have hinv2 := upinv_append_swap values x (local_to_globalAll values h) hn hdom
      rcases restore_heap_above_correct (par values.length)
        (swap (values ++ [x]) values.length (par values.length))
        ((depth values.length : ℤ) - 1) hinv2
        (by rw [length_swap, hlapp]; omega) (by omega) with ⟨m1, m2, m3⟩
      refine ⟨m1, ?_, ?_⟩
      · rw [m2, multiset_swap (values ++ [x]) values.length (par values.length)
          (by omega) (by omega), hcoe]
      · rw [m3, length_swap, hlapp]
    · rw [if_neg hc]
      have hf : cmp x (idx values (par values.length))
          ((depth values.length : ℤ) - 1) = false := by
        rw [← Bool.not_eq_true]
        exact hc
      have hdomf : Dom (depth (par values.length))
          (idx values (par values.length)) x :=
        cmp_false_dom _ _ _ _ (by omega) hf
      have hinv2 := upinv_append_noswap values x (local_to_globalAll values h) hn hdomf
      rcases restore_heap_above_correct values.length (values ++ [x])
        (depth values.length : ℤ) hinv2 (by omega) (by omega) with ⟨m1, m2, m3⟩
      exact ⟨m1, m2.trans hcoe, m3.trans hlapp⟩

/-- `push` preserves the invariant and adds the element. -/
theorem push_correct (values : List α) (x : α) (h : MMHLocal values) :
    MMHLocal (push values x) ∧
    (↑(push values x) : Multiset α) = ↑values + {x} ∧
    (push values x).length = values.length + 1 :=
  post_add_correct values x h

end MMH

namespace MMH

variable {α : Type} [LinearOrder α] [Inhabited α]

/-- State before downward restoration at `i`: every parent/grandparent pair
inside `i`'s subtree holds, except those whose ancestor endpoint is `i`. -/
def DownInv (values : List α) (i : ℕ) : Prop :=
  ∀ d, d < values.length → Up d i → d ≠ i →
    (par d ≠ i → R values (par d) d) ∧
    (par d ≠ i → gp d ≠ i → R values (gp d) d)

/-- Every parent/grandparent pair inside `i`'s subtree holds (for the
grandparent pair, only when the grandparent is still inside the subtree). -/
def DownAll (values : List α) (i : ℕ) : Prop :=
  ∀ d, d < values.length → Up d i → d ≠ i →
    R values (par d) d ∧ (par d ≠ i → R values (gp d) d)

theorem desc_ge (d i : ℕ) (h : Up d i) (hne : d ≠ i) : 2 * i + 1 ≤ d := by
  rcases up_par d i h hne with ⟨hd, h2⟩
  have h3 := up_le _ _ h2
  rw [par] at h3
  omega

theorem desc_ge2 (d i : ℕ) (h : Up d i) (hne : d ≠ i) (hpne : par d ≠ i) :
    4 * i + 3 ≤ d := by
  rcases up_par d i h hne with ⟨hd, h2⟩
  have h3 := desc_ge (par d) i h2 hpne
  rw [par] at h3
  omega

theorem depth_child (c i : ℕ) (h : c = 2 * i + 1 ∨ c = 2 * i + 2) :
    depth c = depth i + 1 := by
  have h1 : par c = i := (par_eq_iff c i (by omega)).mpr h
  have h2 := depth_par c (by omega)
  have h3 := depth_pos c (by omega)
  rw [h1] at h2
  omega

theorem up_grandchild (g i : ℕ) (h : 4 * i + 3 ≤ g) (h2 : g ≤ 4 * i + 6) :
    Up g i := by
  have h3 : par g = 2 * i + 1 ∨ par g = 2 * i + 2 := by
    rw [par]
    omega
  refine up_of_par g i (by omega) ?_
  rcases h3 with h3 | h3 <;> rw [h3]
  · exact up_child i (2 * i + 1) (Or.inl rfl)
  · exact up_child i (2 * i + 2) (Or.inr rfl)

/-- The pairs of `DownAll` chain into dominance of the subtree root over
every subtree member. -/
theorem downAll_global (values : List α) (r : ℕ) (h : DownAll values r) :
    ∀ d, d < values.length → Up d r → R values r d := by
  intro d
  induction d using Nat.strong_induction_on with
  | _ d ih =>
    intro hd hup
    by_cases hdr : d = r
    · rw [hdr, R]; exact dom_refl _ _
    rcases h d hd hup hdr with ⟨hpair, hgpair⟩
    have hrd : r < d := by
      have := up_le _ _ hup
      omega
    by_cases hpr : par d = r
    · rw [← hpr]; exact hpair
    rcases up_gp_decomp d r hup (by omega) (by omega)
      with ⟨hd3, hgp⟩
    have hd43 : 4 * r + 3 ≤ d := desc_ge2 d r hup hdr hpr
    have hdpar : depth (par d) = depth d - 1 := depth_par d (by omega)
    have hdgp : depth (gp d) = depth d - 2 := depth_gp d hd3
    have hdp2 : 2 ≤ depth d := depth_ge_two d hd3
    by_cases hgpr : gp d = r
    · rw [← hgpr]; exact hgpair hpr
    by_cases hparity : depth r % 2 = depth d % 2
    · have hgplt : gp d < d := gp_lt d hd3
      have hIH : R values r (gp d) := ih (gp d) hgplt (by omega) hgp
      have hgpd := hgpair hpr
      rw [R] at hIH hgpd ⊢
      rw [dom_congr (depth (gp d)) (depth r) _ _ (by omega)] at hgpd
      exact dom_trans _ _ _ _ hIH hgpd
    · have hparlt : par d < d := par_lt d (by omega)
      have hupp : Up (par d) r := (up_par d r hup hdr).2
      have hIH : R values r (par d) := ih (par d) hparlt (by omega) hupp
      rw [R] at hIH hpair ⊢
      rw [dom_congr (depth (par d)) (depth r) _ _ (by omega)] at hpair
      exact dom_trans _ _ _ _ hIH hpair

/-- `DownInv` at `i` restricts to full `DownAll` on any proper sub-subtree. -/
theorem downInv_sub (values : List α) (i r : ℕ) (h : DownInv values i)
    (hr : Up r i) (hrne : r ≠ i) : DownAll values r := by
  have hri : i < r := by
    have := up_le _ _ hr
    omega
  intro d hd hup hne
  have hdi : Up d i := up_trans d r i hup hr
  have hdr : r < d := by
    have := up_le _ _ hup
    omega
  have hdnei : d ≠ i := by omega
  have hpar_in : Up (par d) r := (up_par d r hup hne).2
  have hpar_ge : r ≤ par d := up_le _ _ hpar_in
  have hpar_ne : par d ≠ i := by omega
  constructor
  · exact (h d hd hdi hdnei).1 hpar_ne
  · intro hpne
    have hgp_in : Up (gp d) r := (up_par (par d) r hpar_in hpne).2
    have hgp_ge : r ≤ gp d := up_le _ _ hgp_in
    exact (h d hd hdi hdnei).2 hpar_ne (by omega)

end MMH

namespace MMH

variable {α : Type} [LinearOrder α] [Inhabited α]

theorem gc_step_dom (values : List α) (level : ℤ) (p : ℕ)
    (hp : level % 2 = 0 ↔ p % 2 = 0) (i b j0 : ℕ) (hj0 : j0 = b + 1)
    (most : ℕ) (hb : 4 * i + 3 ≤ b)
    (h1 : most = i ∨ (4 * i + 3 ≤ most ∧ most < values.length ∧ most ≤ b))
    (h2 : Dom p (idx values most) (idx values i))
    (h3 : ∀ j, 4 * i + 3 ≤ j → j ≤ b → j < values.length →
      Dom p (idx values most) (idx values j)) :
    (gc_step values level most j0 = i ∨
      (4 * i + 3 ≤ gc_step values level most j0 ∧
        gc_step values level most j0 < values.length ∧
        gc_step values level most j0 ≤ j0)) ∧
    Dom p (idx values (gc_step values level most j0)) (idx values i) ∧
    (∀ j, 4 * i + 3 ≤ j → j ≤ j0 → j < values.length →
      Dom p (idx values (gc_step values level most j0)) (idx values j)) := by
  subst hj0
  rw [gc_step]
  by_cases hge : b + 1 ≥ values.length
  · rw [if_pos hge]
    refine ⟨?_, h2, ?_⟩
    · rcases h1 with h | h
      · exact Or.inl h
      · exact Or.inr ⟨h.1, h.2.1, by omega⟩
    · intro j hj1 hj2 hj3
      exact h3 j hj1 (by omega) hj3
  · rw [if_neg hge]
    by_cases hc : cmp (idx values most) (idx values (b + 1)) level = true
    · rw [if_pos hc]
      refine ⟨?_, h2, ?_⟩
      · rcases h1 with h | h
        · exact Or.inl h
        · exact Or.inr ⟨h.1, h.2.1, by omega⟩
      · intro j hj1 hj2 hj3
        by_cases hj : j = b + 1
        · rw [hj]
          exact cmp_true_dom _ _ _ _ hp hc
        · exact h3 j hj1 (by omega) hj3
    · rw [if_neg hc]
      have hf : cmp (idx values most) (idx values (b + 1)) level = false := by
        rw [← Bool.not_eq_true]; exact hc
      have hd : Dom p (idx values (b + 1)) (idx values most) :=
        cmp_false_dom _ _ _ _ hp hf
      refine ⟨Or.inr ⟨by omega, by omega, le_refl _⟩, dom_trans _ _ _ _ hd h2, ?_⟩
      intro j hj1 hj2 hj3
      by_cases hj : j = b + 1
      · rw [hj]
        exact dom_refl _ _
      · exact dom_trans _ _ _ _ hd (h3 j hj1 (by omega) hj3)

theorem gc_most_dom (values : List α) (i : ℕ) (level : ℤ) (p : ℕ)
    (hp : level % 2 = 0 ↔ p % 2 = 0) (hn : 4 * i + 3 < values.length) :
    (gc_most values i level = i ∨
      (4 * i + 3 ≤ gc_most values i level ∧
        gc_most values i level < values.length ∧
        gc_most values i level ≤ 4 * i + 6)) ∧
    Dom p (idx values (gc_most values i level)) (idx values i) ∧
    (∀ j, 4 * i + 3 ≤ j → j ≤ 4 * i + 6 → j < values.length →
      Dom p (idx values (gc_most values i level)) (idx values j)) := by
  have hbase : ((if cmp (idx values i) (idx values (4 * i + 3)) level then i
      else 4 * i + 3) = i ∨
      (4 * i + 3 ≤ (if cmp (idx values i) (idx values (4 * i + 3)) level then i
        else 4 * i + 3) ∧
       (if cmp (idx values i) (idx values (4 * i + 3)) level then i
        else 4 * i + 3) < values.length ∧
       (if cmp (idx values i) (idx values (4 * i + 3)) level then i
        else 4 * i + 3) ≤ 4 * i + 3)) ∧
      Dom p (idx values (if cmp (idx values i) (idx values (4 * i + 3)) level
        then i else 4 * i + 3)) (idx values i) ∧
      (∀ j, 4 * i + 3 ≤ j → j ≤ 4 * i + 3 → j < values.length →
        Dom p (idx values (if cmp (idx values i) (idx values (4 * i + 3)) level
          then i else 4 * i + 3)) (idx values j)) := by
    by_cases hc : cmp (idx values i) (idx values (4 * i + 3)) level = true
    · rw [if_pos hc]
      refine ⟨Or.inl rfl, dom_refl _ _, ?_⟩
      intro j hj1 hj2 _
      have hj : j = 4 * i + 3 := by omega
      rw [hj]
      exact cmp_true_dom _ _ _ _ hp hc
    · rw [if_neg hc]
      have hf : cmp (idx values i) (idx values (4 * i + 3)) level = false := by
        rw [← Bool.not_eq_true]; exact hc
      refine ⟨Or.inr ⟨le_refl _, hn, le_refl _⟩, cmp_false_dom _ _ _ _ hp hf, ?_⟩
      intro j hj1 hj2 _
      have hj : j = 4 * i + 3 := by omega
      rw [hj]
      exact dom_refl _ _
  have s1 := gc_step_dom values level p hp i (4 * i + 3) (4 * i + 3 + 1) rfl _
    (le_refl _) hbase.1 hbase.2.1 hbase.2.2
  have s2 := gc_step_dom values level p hp i (4 * i + 3 + 1) (4 * i + 3 + 2)
    (by omega) _ (by omega) s1.1 s1.2.1 s1.2.2
  have s3 := gc_step_dom values level p hp i (4 * i + 3 + 2) (4 * i + 3 + 3)
    (by omega) _ (by omega) s2.1 s2.2.1 s2.2.2
  rw [gc_most]
  refine ⟨?_, s3.2.1, ?_⟩
  · rcases s3.1 with h | h
    · exact Or.inl h
    · exact Or.inr ⟨h.1, h.2.1, by omega⟩
  · intro j hj1 hj2 hj3
    exact s3.2.2 j hj1 (by omega) hj3

end MMH

namespace MMH

variable {α : Type} [LinearOrder α] [Inhabited α]

theorem rhb_out_of_range (values : List α) (i : ℕ) (level : ℤ)
    (h : values.length ≤ 2 * i + 1) :
    restore_heap_below values i level = values := by
  rw [restore_heap_below]
  dsimp only
  rw [dif_pos (by omega), if_pos (by omega)]

theorem downAll_of_no_children (values : List α) (i : ℕ)
    (h : values.length ≤ 2 * i + 1) : DownAll values i := by
  intro d hd hup hne
  have := desc_ge d i hup hne
  omega

theorem par_grandchild_left (i g : ℕ) (h1 : 4 * i + 3 ≤ g) (h2 : g ≤ 4 * i + 4) :
    par g = 2 * i + 1 := by
  rw [par]; omega

theorem par_grandchild_right (i g : ℕ) (h1 : 4 * i + 5 ≤ g) (h2 : g ≤ 4 * i + 6) :
    par g = 2 * i + 2 := by
  rw [par]; omega

end MMH

namespace MMH

variable {α : Type} [LinearOrder α] [Inhabited α]

/-- `restore_heap_below` when `i` has no grandchildren. -/
theorem rhb_shallow_correct (values : List α) (i : ℕ) (level : ℤ)
    (hinv : DownInv values i) (hlev : level % 2 = 0 ↔ depth i % 2 = 0)
    (hA : values.length ≤ 4 * i + 3) :
    DownAll (restore_heap_below values i level) i ∧
    (restore_heap_below values i level).length = values.length ∧
    (↑(restore_heap_below values i level) : Multiset α) = ↑values ∧
    (∀ k, ¬ Up k i → idx (restore_heap_below values i level) k = idx values k) ∧
    (∀ k, k < values.length → Up k i →
      ∃ w, w < values.length ∧ Up w i ∧
        idx (restore_heap_below values i level) k = idx values w) := by
  by_cases hA1 : values.length ≤ 2 * i + 1
  · rw [rhb_out_of_range values i level hA1]
    exact ⟨downAll_of_no_children values i hA1, rfl, rfl, fun k _ => rfl,
      fun k hk hup => ⟨k, hk, hup, rfl⟩⟩
  · have hmem : ∀ d, d < values.length → Up d i → d ≠ i →
        d = 2 * i + 1 ∨ d = 2 * i + 2 := by
      intro d hd hup hne
      by_cases hp : par d = i
      · exact (par_eq_iff d i (by have := desc_ge d i hup hne; omega)).mp hp
      · have := desc_ge2 d i hup hne hp
        omega
    rw [restore_heap_below]
    dsimp only
    rw [dif_pos (by omega), if_neg (by omega)]
    rw [show 2 * i + 1 + 1 = 2 * i + 2 from by omega]
    set m1 := if cmp (idx values i) (idx values (2 * i + 1)) level = true then i
      else 2 * i + 1 with hm1
    set m2 := if 2 * i + 2 < values.length then
        (if cmp (idx values m1) (idx values (2 * i + 2)) level = true then m1
          else 2 * i + 2)
      else m1 with hm2
    have hm1_mem : m1 = i ∨ m1 = 2 * i + 1 := by
      rw [hm1]; split
      · exact Or.inl rfl
      · exact Or.inr rfl
    have hm1_i : Dom (depth i) (idx values m1) (idx values i) := by
      rw [hm1]; split
      · exact dom_refl _ _
      · rename_i hc
        exact cmp_false_dom _ _ _ _ hlev (by rw [← Bool.not_eq_true]; exact hc)
    have hm1_l : Dom (depth i) (idx values m1) (idx values (2 * i + 1)) := by
      rw [hm1]; split
      · rename_i hc
        exact cmp_true_dom _ _ _ _ hlev hc
      · exact dom_refl _ _
    have hm2_mem : m2 = i ∨ m2 = 2 * i + 1 ∨
        (m2 = 2 * i + 2 ∧ 2 * i + 2 < values.length) := by
      rw [hm2]; split
      · split
        · rcases hm1_mem with h | h
          · exact Or.inl h
          · exact Or.inr (Or.inl h)
        · rename_i h _
          exact Or.inr (Or.inr ⟨rfl, h⟩)
      · rcases hm1_mem with h | h
        · exact Or.inl h
        · exact Or.inr (Or.inl h)
    have hdom_i : Dom (depth i) (idx values m2) (idx values i) := by
      rw [hm2]; split
      · split
        · exact hm1_i
        · rename_i hc
          exact dom_trans _ _ _ _
            (cmp_false_dom _ _ _ _ hlev (by rw [← Bool.not_eq_true]; exact hc))
            hm1_i
      · exact hm1_i
    have hdom_l : Dom (depth i) (idx values m2) (idx values (2 * i + 1)) := by
      rw [hm2]; split
      · split
        · exact hm1_l
        · rename_i hc
          exact dom_trans _ _ _ _
            (cmp_false_dom _ _ _ _ hlev (by rw [← Bool.not_eq_true]; exact hc))
            hm1_l
      · exact hm1_l
    have hdom_r : 2 * i + 2 < values.length →
        Dom (depth i) (idx values m2) (idx values (2 * i + 2)) := by
      intro hr
      rw [hm2, if_pos hr]
      split
      · rename_i hc
        exact cmp_true_dom _ _ _ _ hlev hc
      · exact dom_refl _ _
    by_cases hne2 : m2 ≠ i
    · rw [if_pos hne2]
      have hm2cases : m2 = 2 * i + 1 ∨
          (m2 = 2 * i + 2 ∧ 2 * i + 2 < values.length) := by
        rcases hm2_mem with h | h | h
        · exact absurd h hne2
        · exact Or.inl h
        · exact Or.inr h
      have hm2lt : m2 < values.length := by
        rcases hm2cases with h | h
        · omega
        · omega
      have hm2up : Up m2 i := by
        rcases hm2cases with h | h
        · exact up_child i m2 (Or.inl h)
        · exact up_child i m2 (Or.inr h.1)
      have hi_lt : i < values.length := by omega
      have hidx : ∀ k, idx (swap values i m2) k =
          if k = m2 then idx values i else if k = i then idx values m2
          else idx values k := fun k => idx_swap values i m2 k hi_lt hm2lt
      refine ⟨?_, length_swap values i m2,
        multiset_swap values i m2 hi_lt hm2lt, ?_, ?_⟩
      · intro d hd hup hne
        rw [length_swap] at hd
        have hpd : par d = i := by
          rcases hmem d hd hup hne with hdc | hdc <;> (rw [par]; omega)
        refine ⟨?_, fun hpne => absurd hpd hpne⟩
        rw [hpd, R]
        rw [hidx i, if_neg (fun h => hne2 h.symm), if_pos rfl, hidx d]
        by_cases hdm : d = m2
        · rw [if_pos hdm]
          exact hdom_i
        · rw [if_neg hdm, if_neg hne]
          rcases hmem d hd hup hne with hdc | hdc
          · rw [hdc]
            exact hdom_l
          · rw [hdc]
            exact hdom_r (by omega)
      · intro k hk
        have hknm : k ≠ m2 := fun h => hk (h ▸ hm2up)
        have hkni : k ≠ i := fun h => hk (h ▸ Up.refl i)
        rw [hidx k, if_neg hknm, if_neg hkni]
      · intro k hk hup
        by_cases hkm : k = m2
        · exact ⟨i, hi_lt, Up.refl i, by rw [hidx k, if_pos hkm]⟩
        · by_cases hki : k = i
          · exact ⟨m2, hm2lt, hm2up, by rw [hidx k, if_neg hkm, if_pos hki]⟩
          · exact ⟨k, hk, hup, by rw [hidx k, if_neg hkm, if_neg hki]⟩
    · rw [if_neg hne2]
      have hm2eq : m2 = i := not_not.mp hne2
      refine ⟨?_, rfl, rfl, fun k _ => rfl, fun k hk hup => ⟨k, hk, hup, rfl⟩⟩
      intro d hd hup hne
      have hpd : par d = i := by
        rcases hmem d hd hup hne with hdc | hdc <;> (rw [par]; omega)
      refine ⟨?_, fun hpne => absurd hpd hpne⟩
      rw [hpd, R]
      rcases hmem d hd hup hne with hdc | hdc
      · rw [hdc]
        have h5 := hdom_l
        rw [hm2eq] at h5
        exact h5
      · rw [hdc]
        have h5 := hdom_r (by omega)
        rw [hm2eq] at h5
        exact h5

end MMH

namespace MMH

variable {α : Type} [LinearOrder α] [Inhabited α]

/-- The contract of `restore_heap_below`: the subtree invariant is fully
restored, the contents are a permutation touching only the subtree, and
every subtree slot ends up holding a value that was in the subtree. -/
def RHBSpec (values result : List α) (i : ℕ) : Prop :=
  DownAll result i ∧
  result.length = values.length ∧
  (↑result : Multiset α) = ↑values ∧
  (∀ k, ¬ Up k i → idx result k = idx values k) ∧
  (∀ k, k < values.length → Up k i →
    ∃ w, w < values.length ∧ Up w i ∧ idx result k = idx values w)

/-- Dominance over a grandchild transfers to its parent (a child of `i`),
through the parent–child pair of `DownInv`. -/
theorem dom_child_chain (values : List α) (i c g : ℕ)
    (hinv : DownInv values i)
    (hc : c = 2 * i + 1 ∨ c = 2 * i + 2)
    (hpar : par g = c) (hg43 : 4 * i + 3 ≤ g) (hg46 : g ≤ 4 * i + 6)
    (hg : g < values.length)
    (X : α) (hX : Dom (depth i) X (idx values g)) :
    Dom (depth i) X (idx values c) := by
  have hup : Up g i := up_grandchild g i hg43 hg46
  have hne : g ≠ i := by omega
  have hpne : par g ≠ i := by
    rw [hpar]
    rcases hc with h | h <;> omega
  have h1 := (hinv g hg hup hne).1 hpne
  rw [R, hpar] at h1
  have hdc : depth c = depth i + 1 := depth_child c i hc
  rw [dom_opp (depth c) (depth i) _ _ (by omega)] at h1
  exact dom_trans _ _ _ _ hX h1

/-- The direct right-child branch of `restore_heap_below`: when the right
child has no children of its own and dominates the extremum, swapping it
with `i` restores the whole subtree. -/
theorem rhb_b1 (values : List α) (i : ℕ) (level : ℤ)
    (hinv : DownInv values i) (hlev : level % 2 = 0 ↔ depth i % 2 = 0)
    (hn : 4 * i + 3 < values.length)
    (hb5 : values.length ≤ 4 * i + 5)
    (hcmp : cmp (idx values (2 * i + 2)) (idx values (gc_most values i level))
      level = true) :
    RHBSpec values (swap values i (2 * i + 2)) i := by
  obtain ⟨hmor, hdom_i, hdom_all⟩ :=
    gc_most_dom values i level (depth i) hlev hn
  have hR : Dom (depth i) (idx values (2 * i + 2))
      (idx values (gc_most values i level)) :=
    cmp_true_dom _ _ _ _ hlev hcmp
  have hchild1 : Dom (depth i) (idx values (gc_most values i level))
      (idx values (2 * i + 1)) :=
    dom_child_chain values i (2 * i + 1) (4 * i + 3) hinv (Or.inl rfl)
      (by rw [par]; omega) (le_refl _) (by omega) (by omega) _
      (hdom_all (4 * i + 3) (le_refl _) (by omega) (by omega))
  have hD_i : Dom (depth i) (idx values (2 * i + 2)) (idx values i) :=
    dom_trans _ _ _ _ hR hdom_i
  have hD_1 : Dom (depth i) (idx values (2 * i + 2)) (idx values (2 * i + 1)) :=
    dom_trans _ _ _ _ hR hchild1
  have hD_g : ∀ j, 4 * i + 3 ≤ j → j ≤ 4 * i + 6 → j < values.length →
      Dom (depth i) (idx values (2 * i + 2)) (idx values j) :=
    fun j h1 h2 h3 => dom_trans _ _ _ _ hR (hdom_all j h1 h2 h3)
  have hi_lt : i < values.length := by omega
  have h22 : 2 * i + 2 < values.length := by omega
  have hidx : ∀ k, idx (swap values i (2 * i + 2)) k =
      if k = 2 * i + 2 then idx values i else if k = i then idx values (2 * i + 2)
      else idx values k := fun k => idx_swap values i (2 * i + 2) k hi_lt h22
  have hmem : ∀ d, d < values.length → Up d i → d ≠ i →
      d = 2 * i + 1 ∨ d = 2 * i + 2 ∨ d = 4 * i + 3 ∨ d = 4 * i + 4 := by
    intro d hd hup hne
    by_cases hp : par d = i
    · rcases (par_eq_iff d i (by have := desc_ge d i hup hne; omega)).mp hp
        with h | h
      · exact Or.inl h
      · exact Or.inr (Or.inl h)
    · have := desc_ge2 d i hup hne hp
      omega
  refine ⟨?_, length_swap values i (2 * i + 2),
    multiset_swap values i (2 * i + 2) hi_lt h22, ?_, ?_⟩
  · intro d hd hup hne
    rw [length_swap] at hd
    rcases hmem d hd hup hne with h | h | h | h
    · have hpd : par d = i := by rw [h, par]; omega
      refine ⟨?_, fun hp => absurd hpd hp⟩
      rw [hpd, R, hidx i, if_neg (by omega), if_pos rfl, hidx d, h,
        if_neg (by omega), if_neg (by omega)]
      rw [← h]
      rw [h]
      exact hD_1
    · have hpd : par d = i := by rw [h, par]; omega
      refine ⟨?_, fun hp => absurd hpd hp⟩
      rw [hpd, R, hidx i, if_neg (by omega), if_pos rfl, hidx d, h, if_pos rfl]
      exact hD_i
    · have hpd : par d = 2 * i + 1 := by rw [h, par]; omega
      have hgd : gp d = i := by rw [gp, hpd, par]; omega
      have hpne : par d ≠ i := by omega
      constructor
      · have h1 := (hinv d hd hup hne).1 hpne
        rw [R, hpd] at h1 ⊢
        rw [hidx (2 * i + 1), if_neg (by omega), if_neg (by omega),
          hidx d, h, if_neg (by omega), if_neg (by omega), ← h]
        exact h1
      · intro _
        rw [hgd, R, hidx i, if_neg (by omega), if_pos rfl,
          hidx d, h, if_neg (by omega), if_neg (by omega), ← h]
        exact hD_g d (by omega) (by omega) hd
    · have hpd : par d = 2 * i + 1 := by rw [h, par]; omega
      have hgd : gp d = i := by rw [gp, hpd, par]; omega
      have hpne : par d ≠ i := by omega
      constructor
      · have h1 := (hinv d hd hup hne).1 hpne
        rw [R, hpd] at h1 ⊢
        rw [hidx (2 * i + 1), if_neg (by omega), if_neg (by omega),
          hidx d, h, if_neg (by omega), if_neg (by omega), ← h]
        exact h1
      · intro _
        rw [hgd, R, hidx i, if_neg (by omega), if_pos rfl,
          hidx d, h, if_neg (by omega), if_neg (by omega), ← h]
        exact hD_g d (by omega) (by omega) hd
  · intro k hk
    have hk2 : k ≠ 2 * i + 2 := fun h =>
      hk (h ▸ up_child i (2 * i + 2) (Or.inr rfl))
    have hki : k ≠ i := fun h => hk (h ▸ Up.refl i)
    rw [hidx k, if_neg hk2, if_neg hki]
  · intro k hk hup
    by_cases hk2 : k = 2 * i + 2
    · exact ⟨i, hi_lt, Up.refl i, by rw [hidx k, if_pos hk2]⟩
    · by_cases hki : k = i
      · exact ⟨2 * i + 2, h22, up_child i (2 * i + 2) (Or.inr rfl),
          by rw [hidx k, if_neg hk2, if_pos hki]⟩
      · exact ⟨k, hk, hup, by rw [hidx k, if_neg hk2, if_neg hki]⟩

end MMH

namespace MMH

variable {α : Type} [LinearOrder α] [Inhabited α]

/-- The no-op branch of `restore_heap_below`: when `i` itself is the
extremum (and no direct right-child swap fires), the subtree is already
restored. -/
theorem rhb_b3 (values : List α) (i : ℕ) (level : ℤ)
    (hinv : DownInv values i) (hlev : level % 2 = 0 ↔ depth i % 2 = 0)
    (hn : 4 * i + 3 < values.length)
    (hmost : gc_most values i level = i)
    (hnb1 : ¬(4 * i + 5 ≥ values.length ∧
      cmp (idx values (2 * i + 2)) (idx values (gc_most values i level))
        level = true)) :
    DownAll values i := by
  obtain ⟨hmor, hdom_i, hdom_all⟩ :=
    gc_most_dom values i level (depth i) hlev hn
  rw [hmost] at hdom_all
  have hc1 : Dom (depth i) (idx values i) (idx values (2 * i + 1)) :=
    dom_child_chain values i (2 * i + 1) (4 * i + 3) hinv (Or.inl rfl)
      (by rw [par]; omega) (le_refl _) (by omega) (by omega) _
      (hdom_all (4 * i + 3) (le_refl _) (by omega) (by omega))
  have hc2 : Dom (depth i) (idx values i) (idx values (2 * i + 2)) := by
    by_cases h45 : 4 * i + 5 < values.length
    · exact dom_child_chain values i (2 * i + 2) (4 * i + 5) hinv (Or.inr rfl)
        (by rw [par]; omega) (by omega) (by omega) h45 _
        (hdom_all (4 * i + 5) (by omega) (by omega) h45)
    · have hf : cmp (idx values (2 * i + 2))
          (idx values (gc_most values i level)) level = false := by
        rw [← Bool.not_eq_true]
        intro hc
        exact hnb1 ⟨by omega, hc⟩
      have := cmp_false_dom (idx values (2 * i + 2))
        (idx values (gc_most values i level)) level (depth i) hlev hf
      rw [hmost] at this
      exact this
  intro d hd hup hne
  by_cases hpd : par d = i
  · refine ⟨?_, fun hp => absurd hpd hp⟩
    rw [hpd, R]
    rcases (par_eq_iff d i (by have := desc_ge d i hup hne; omega)).mp hpd
      with h | h
    · rw [h]; exact hc1
    · rw [h]; exact hc2
  · refine ⟨(hinv d hd hup hne).1 hpd, ?_⟩
    intro hpne
    by_cases hgd : gp d = i
    · rw [hgd, R]
      have hd3 : 3 ≤ d := by have := desc_ge2 d i hup hne hpd; omega
      have hrange := (gp_eq_iff d i hd3).mp hgd
      exact hdom_all d hrange.1 hrange.2 hd
    · exact (hinv d hd hup hne).2 hpd hgd

end MMH

namespace MMH

variable {α : Type} [LinearOrder α] [Inhabited α]

/-- Characterization of the state reached by the recursive branch of
`restore_heap_below` before recursing: the extremal grandchild `m` has been
swapped with `i`, and possibly with the intermediate child `I = par m`. -/
theorem rhb_b2_char (values : List α) (i : ℕ) (level : ℤ)
    (hlev : level % 2 = 0 ↔ depth i % 2 = 0)
    (hn : 4 * i + 3 < values.length)
    (m : ℕ) (hm : m = gc_most values i level) (hmne : m ≠ i)
    (I : ℕ) (hI : I = if m ≤ 4 * i + 6 - 3 + 1 then 2 * i + 1 else 2 * i + 2)
    (values2 : List α)
    (hv2 : values2 = if cmp (idx (swap values i m) m) (idx (swap values i m) I)
        (level + 1) = true then swap (swap values i m) I m
      else swap values i m) :
    (4 * i + 3 ≤ m ∧ m < values.length ∧ m ≤ 4 * i + 6) ∧
    I = par m ∧ (I = 2 * i + 1 ∨ I = 2 * i + 2) ∧
    values2.length = values.length ∧
    (↑values2 : Multiset α) = ↑values ∧
    idx values2 i = idx values m ∧
    ((idx values2 I = idx values i ∧ idx values2 m = idx values I ∧
        Dom (depth I) (idx values i) (idx values I)) ∨
     (idx values2 I = idx values I ∧ idx values2 m = idx values i ∧
        Dom (depth I) (idx values I) (idx values i))) ∧
    (∀ k, k ≠ i → k ≠ I → k ≠ m → idx values2 k = idx values k) := by
  have hspec := gc_most_spec values i level hn
  rw [← hm] at hspec
  have hrange : 4 * i + 3 ≤ m ∧ m < values.length ∧ m ≤ 4 * i + 6 := by
    rcases hspec with h | h
    · exact absurd h hmne
    · exact h
  have hIpar : I = par m := by
    by_cases hc : m ≤ 4 * i + 6 - 3 + 1
    · rw [hI, if_pos hc]
      exact (par_grandchild_left i m hrange.1 (by omega)).symm
    · rw [hI, if_neg hc]
      exact (par_grandchild_right i m (by omega) hrange.2.2).symm
  have hIc : I = 2 * i + 1 ∨ I = 2 * i + 2 := by
    rw [hI]
    split
    · exact Or.inl rfl
    · exact Or.inr rfl
  have hi_lt : i < values.length := by omega
  have hmlt := hrange.2.1
  have hIlt : I < values.length := by rcases hIc with h | h <;> omega
  have hmni : m ≠ i := hmne
  have hmnI : m ≠ I := by rcases hIc with h | h <;> omega
  have hIni : I ≠ i := by rcases hIc with h | h <;> omega
  have hidx1 : ∀ k, idx (swap values i m) k = if k = m then idx values i
      else if k = i then idx values m else idx values k :=
    fun k => idx_swap values i m k hi_lt hmlt
  have hlen1 : (swap values i m).length = values.length := length_swap values i m
  have hlevI : (level + 1) % 2 = 0 ↔ depth I % 2 = 0 := by
    have hdI := depth_child I i hIc
    omega
  have h1m : idx (swap values i m) m = idx values i := by
    rw [hidx1 m, if_pos rfl]
  have h1I : idx (swap values i m) I = idx values I := by
    rw [hidx1 I, if_neg (fun h => hmnI h.symm), if_neg hIni]
  by_cases hsw : cmp (idx (swap values i m) m) (idx (swap values i m) I)
      (level + 1) = true
  · rw [if_pos hsw] at hv2
    have hdom : Dom (depth I) (idx values i) (idx values I) := by
      rw [h1m, h1I] at hsw
      exact cmp_true_dom _ _ _ _ hlevI hsw
    have hidx2 : ∀ k, idx values2 k = if k = m then idx (swap values i m) I
        else if k = I then idx (swap values i m) m
        else idx (swap values i m) k := by
      intro k
      rw [hv2]
      exact idx_swap (swap values i m) I m k (by rw [hlen1]; exact hIlt)
        (by rw [hlen1]; exact hmlt)
    refine ⟨hrange, hIpar, hIc, ?_, ?_, ?_, Or.inl ⟨?_, ?_, hdom⟩, ?_⟩
    · rw [hv2, length_swap, length_swap]
    · rw [hv2]
      exact (multiset_swap _ I m (by rw [hlen1]; exact hIlt)
        (by rw [hlen1]; exact hmlt)).trans (multiset_swap values i m hi_lt hmlt)
    · rw [hidx2 i, if_neg (fun h => hmni h.symm), if_neg (fun h => hIni h.symm),
        hidx1 i, if_neg (fun h => hmni h.symm), if_pos rfl]
    · rw [hidx2 I, if_neg (fun h => hmnI h.symm), if_pos rfl, h1m]
    · rw [hidx2 m, if_pos rfl, h1I]
    · intro k hki hkI hkm
      rw [hidx2 k, if_neg hkm, if_neg hkI, hidx1 k, if_neg hkm, if_neg hki]
  · rw [if_neg hsw] at hv2
    have hf : cmp (idx (swap values i m) m) (idx (swap values i m) I)
        (level + 1) = false := by
      rw [← Bool.not_eq_true]
      exact hsw
    have hdom : Dom (depth I) (idx values I) (idx values i) := by
      rw [h1m, h1I] at hf
      exact cmp_false_dom _ _ _ _ hlevI hf
    refine ⟨hrange, hIpar, hIc, ?_, ?_, ?_, Or.inr ⟨?_, ?_, hdom⟩, ?_⟩
    · rw [hv2, length_swap]
    · rw [hv2]
      exact multiset_swap values i m hi_lt hmlt
    · rw [hv2, hidx1 i, if_neg (fun h => hmni h.symm), if_pos rfl]
    · rw [hv2]
      exact h1I
    · rw [hv2]
      exact h1m
    · intro k hki hkI hkm
      rw [hv2, hidx1 k, if_neg hkm, if_neg hki]

/-- The recursive branch of `restore_heap_below` preserves `DownInv` for the
subtree of the extremal grandchild `m`: only slots at or above `m` changed. -/
theorem rhb_b2_pre (values : List α) (i : ℕ) (level : ℤ)
    (hinv : DownInv values i) (hlev : level % 2 = 0 ↔ depth i % 2 = 0)
    (hn : 4 * i + 3 < values.length)
    (m : ℕ) (hm : m = gc_most values i level) (hmne : m ≠ i)
    (I : ℕ) (hI : I = if m ≤ 4 * i + 6 - 3 + 1 then 2 * i + 1 else 2 * i + 2)
    (values2 : List α)
    (hv2 : values2 = if cmp (idx (swap values i m) m) (idx (swap values i m) I)
        (level + 1) = true then swap (swap values i m) I m
      else swap values i m) :
    DownInv values2 m ∧ values2.length = values.length ∧
      (↑values2 : Multiset α) = ↑values := by
  obtain ⟨hrange, hIpar, hIc, hlen2, hmul2, hch_i, hch_or, hch_same⟩ :=
    rhb_b2_char values i level hlev hn m hm hmne I hI values2 hv2
  refine ⟨?_, hlen2, hmul2⟩
  have hmup : Up m i := up_grandchild m i hrange.1 hrange.2.2
  have hDAm : DownAll values m := downInv_sub values i m hinv hmup hmne
  intro d hd hdup hdne
  have hd' : d < values.length := by rw [hlen2] at hd; exact hd
  have hdgt : m < d := by
    have h1 := up_le _ _ hdup
    omega
  have hm43 : 4 * i + 3 ≤ m := hrange.1
  have hIle : I ≤ 2 * i + 2 := by rcases hIc with h | h <;> omega
  have h2 := hDAm d hd' hdup hdne
  constructor
  · intro hpne
    have hpup : Up (par d) m := (up_par d m hdup hdne).2
    have hpge : m ≤ par d := up_le _ _ hpup
    rw [R, hch_same (par d) (by omega) (by omega) hpne,
      hch_same d (by omega) (by omega) (by omega)]
    have h3 := h2.1
    rw [R] at h3
    exact h3
  · intro hpne hgne
    have hpup : Up (par d) m := (up_par d m hdup hdne).2
    have hgup : Up (gp d) m := (up_par (par d) m hpup hpne).2
    have hgge : m ≤ gp d := up_le _ _ hgup
    rw [R, hch_same (gp d) (by omega) (by omega) hgne,
      hch_same d (by omega) (by omega) (by omega)]
    have h3 := h2.2 hpne
    rw [R] at h3
    exact h3

end MMH

namespace MMH

variable {α : Type} [LinearOrder α] [Inhabited α]

/-- The recursive branch of `restore_heap_below`: given the contract of the
recursive call on the extremal grandchild's subtree, the whole subtree of
`i` is restored. -/
theorem rhb_b2 (values : List α) (i : ℕ) (level : ℤ)
    (hinv : DownInv values i) (hlev : level % 2 = 0 ↔ depth i % 2 = 0)
    (hn : 4 * i + 3 < values.length)
    (hnb1 : ¬(4 * i + 5 ≥ values.length ∧
      cmp (idx values (2 * i + 2)) (idx values (gc_most values i level))
        level = true))
    (m : ℕ) (hm : m = gc_most values i level) (hmne : m ≠ i)
    (I : ℕ) (hI : I = if m ≤ 4 * i + 6 - 3 + 1 then 2 * i + 1 else 2 * i + 2)
    (values2 : List α)
    (hv2 : values2 = if cmp (idx (swap values i m) m) (idx (swap values i m) I)
        (level + 1) = true then swap (swap values i m) I m
      else swap values i m)
    (result : List α) (hres : RHBSpec values2 result m) :
    RHBSpec values result i := by
  obtain ⟨hrange, hIpar, hIc, hlen2, hmul2, hch_i, hch_or, hch_same⟩ :=
    rhb_b2_char values i level hlev hn m hm hmne I hI values2 hv2
  obtain ⟨IH_all, IH_len, IH_mul, IH_same, IH_perm⟩ := hres
  obtain ⟨hmor, hdom_i, hdom_all⟩ :=
    gc_most_dom values i level (depth i) hlev hn
  rw [← hm] at hdom_i hdom_all
  have hm43 : 4 * i + 3 ≤ m := hrange.1
  have hmlt : m < values.length := hrange.2.1
  have hm46 : m ≤ 4 * i + 6 := hrange.2.2
  have hi_lt : i < values.length := by omega
  have hIlt : I < values.length := by rcases hIc with h | h <;> omega
  have hIgt : i < I := by rcases hIc with h | h <;> omega
  have hIle : I ≤ 2 * i + 2 := by rcases hIc with h | h <;> omega
  have hmup : Up m i := up_grandchild m i hm43 hm46
  have hmch : m = 2 * I + 1 ∨ m = 2 * I + 2 :=
    (par_eq_iff m I (by omega)).mp hIpar.symm
  have hmupI : Up m I := up_child I m hmch
  have hIup : Up I i := up_child i I hIc
  have hdepthI : depth I = depth i + 1 := depth_child I i hIc
  have hdepthm : depth m = depth I + 1 := depth_child m I hmch
  have hnotupIm : ¬ Up I m := fun h => by
    have := up_le _ _ h
    omega
  have hnotupim : ¬ Up i m := fun h => by
    have := up_le _ _ h
    omega
  have hres_i : idx result i = idx values m := (IH_same i hnotupim).trans hch_i
  have hres_I : idx result I = idx values2 I := IH_same I hnotupIm
  have hres_same : ∀ k, ¬ Up k m → k ≠ i → k ≠ I →
      idx result k = idx values k := fun k h h1 h2 =>
    (IH_same k h).trans (hch_same k h1 h2 (fun he => h (by rw [he]; exact Up.refl m)))
  have hGI : ∀ w, w < values.length → Up w I →
      Dom (depth I) (idx values I) (idx values w) := by
    intro w hw hwup
    have h7 := downAll_global values I
      (downInv_sub values i I hinv hIup (by omega)) w hw hwup
    rw [R] at h7
    exact h7
  have hGm : ∀ w, w < values.length → Up w m →
      Dom (depth m) (idx values m) (idx values w) := by
    intro w hw hwup
    have h7 := downAll_global values m
      (downInv_sub values i m hinv hmup hmne) w hw hwup
    rw [R] at h7
    exact h7
  have hkey : Dom (depth I) (idx values2 I) (idx values I) := by
    rcases hch_or with ⟨h1, h2, h3⟩ | ⟨h1, h2, h3⟩
    · rw [h1]
      exact h3
    · rw [h1]
      exact dom_refl _ _
  have hparm_ne : par m ≠ i := by rw [← hIpar]; omega
  have hvmvI : Dom (depth i) (idx values m) (idx values I) := by
    have h7 := (hinv m hmlt hmup (by omega)).1 hparm_ne
    rw [R, ← hIpar] at h7
    rw [dom_opp (depth I) (depth i) _ _ (by omega)] at h7
    exact h7
  have hGres : ∀ k, k < values.length → Up k m →
      Dom (depth i) (idx values m) (idx result k) := by
    intro k hk hkup
    obtain ⟨w, hw, hwup, heq⟩ := IH_perm k (by rw [hlen2]; exact hk) hkup
    have hw' : w < values.length := by rw [hlen2] at hw; exact hw
    rw [heq]
    by_cases hwm : w = m
    · rw [hwm]
      rcases hch_or with ⟨h1, h2, h3⟩ | ⟨h1, h2, h3⟩
      · rw [h2]
        exact hvmvI
      · rw [h2]
        exact hdom_i
    · have hwge : m ≤ w := up_le _ _ hwup
      rw [hch_same w (by omega) (by omega) hwm]
      have h4 := hGm w hw' hwup
      rw [dom_congr (depth m) (depth i) _ _ (by omega)] at h4
      exact h4
  have hGIall : ∀ k, k < values.length → Up k I →
      Dom (depth I) (idx result I) (idx result k) := by
    intro k hk hkup
    rw [hres_I]
    by_cases hkm : Up k m
    · obtain ⟨w, hw, hwup, heq⟩ := IH_perm k (by rw [hlen2]; exact hk) hkm
      have hw' : w < values.length := by rw [hlen2] at hw; exact hw
      rw [heq]
      by_cases hwm : w = m
      · rw [hwm]
        rcases hch_or with ⟨h1, h2, h3⟩ | ⟨h1, h2, h3⟩
        · rw [h2, h1]
          exact h3
        · rw [h2, h1]
          exact h3
      · have hwge : m ≤ w := up_le _ _ hwup
        rw [hch_same w (by omega) (by omega) hwm]
        exact dom_trans _ _ _ _ hkey (hGI w hw' (up_trans w m I hwup hmupI))
    · by_cases hkI : k = I
      · rw [hkI, hres_I]
        exact dom_refl _ _
      · have hki : k ≠ i := fun he => by
          rw [he] at hkup
          have := up_le _ _ hkup
          omega
        rw [hres_same k hkm hki hkI]
        exact dom_trans _ _ _ _ hkey (hGI k hk hkup)
  have hparI_i : par I = i := (par_eq_iff I i (by omega)).mpr hIc
  refine ⟨?_, IH_len.trans hlen2, IH_mul.trans hmul2, ?_, ?_⟩
  · -- DownAll result i
    intro d hd hup hne
    have hd' : d < values.length := (IH_len.trans hlen2) ▸ hd
    by_cases hdm : Up d m
    · by_cases hdmost : d = m
      · have hpdI : par d = I := by rw [hdmost, ← hIpar]
        refine ⟨?_, ?_⟩
        · rw [hpdI, R]
          exact hGIall d hd' (by rw [hdmost]; exact hmupI)
        · intro hpne
          have hgdi : gp d = i := by rw [hdmost, gp, ← hIpar, hparI_i]
          rw [hgdi, R, hres_i]
          exact hGres d hd' hdm
      · have h2 := IH_all d hd hdm hdmost
        refine ⟨h2.1, ?_⟩
        intro hpne
        by_cases hpm : par d = m
        · have hgdI : gp d = I := by rw [gp, hpm, ← hIpar]
          rw [hgdI, R]
          exact hGIall d hd' (up_trans d m I hdm hmupI)
        · exact h2.2 hpm
    · by_cases hpdi : par d = i
      · refine ⟨?_, fun hp => absurd hpdi hp⟩
        rw [hpdi, R, hres_i]
        by_cases hdI : d = I
        · rw [hdI, hres_I]
          rcases hch_or with ⟨h1, h2, h3⟩ | ⟨h1, h2, h3⟩
          · rw [h1]
            exact hdom_i
          · rw [h1]
            exact hvmvI
        · rw [hres_same d hdm hne hdI]
          rcases (par_eq_iff d i (by have := desc_ge d i hup hne; omega)).mp hpdi
            with h | h
          · rw [h]
            exact dom_child_chain values i (2 * i + 1) (4 * i + 3) hinv
              (Or.inl rfl) (by rw [par]; omega) (le_refl _) (by omega)
              (by omega) _ (hdom_all (4 * i + 3) (le_refl _) (by omega) (by omega))
          · rw [h]
            by_cases h45 : 4 * i + 5 < values.length
            · exact dom_child_chain values i (2 * i + 2) (4 * i + 5) hinv
                (Or.inr rfl) (by rw [par]; omega) (by omega) (by omega) h45 _
                (hdom_all (4 * i + 5) (by omega) (by omega) h45)
            · have hf : cmp (idx values (2 * i + 2))
                  (idx values (gc_most values i level)) level = false := by
                rw [← Bool.not_eq_true]
                intro hc
                exact hnb1 ⟨by omega, hc⟩
              have h6 := cmp_false_dom _ _ _ _ hlev hf
              rw [← hm] at h6
              exact h6
      · by_cases hgdi : gp d = i
        · have hd3 : 3 ≤ d := by have := desc_ge2 d i hup hne hpdi; omega
          have hdrange := (gp_eq_iff d i hd3).mp hgdi
          have hdnm : d ≠ m := fun h => hdm (by rw [h]; exact Up.refl m)
          have hdI : d ≠ I := by omega
          have hple : par d ≤ 2 * i + 2 := by rw [par]; omega
          have hnup_pd : ¬ Up (par d) m := fun h => by
            have := up_le _ _ h
            omega
          refine ⟨?_, ?_⟩
          · by_cases hpdI : par d = I
            · rw [hpdI, R]
              exact hGIall d hd' (up_of_par d I (by omega)
                (by rw [hpdI]; exact Up.refl I))
            · rw [R, hres_same (par d) hnup_pd hpdi hpdI,
                hres_same d hdm hne hdI]
              have h7 := (hinv d hd' hup hne).1 hpdi
              rw [R] at h7
              exact h7
          · intro hpne
            rw [hgdi, R, hres_i, hres_same d hdm hne hdI]
            exact hdom_all d hdrange.1 hdrange.2 hd'
        · have hd1 : 1 ≤ d := by have := desc_ge d i hup hne; omega
          have hp1 : 1 ≤ par d := by
            have := desc_ge (par d) i (up_par d i hup hne).2 hpdi
            omega
          have hd43 : 4 * i + 3 ≤ d := desc_ge2 d i hup hne hpdi
          have hdI : d ≠ I := by omega
          have hdnm : d ≠ m := fun h => hdm (by rw [h]; exact Up.refl m)
          have hnup_pd : ¬ Up (par d) m := fun h => hdm (up_of_par d m hd1 h)
          have hnup_gd : ¬ Up (gp d) m := fun h =>
            hdm (up_of_par d m hd1 (up_of_par (par d) m hp1 h))
          refine ⟨?_, ?_⟩
          · by_cases hpdI : par d = I
            · rw [hpdI, R]
              exact hGIall d hd' (up_of_par d I hd1
                (by rw [hpdI]; exact Up.refl I))
            · rw [R, hres_same (par d) hnup_pd hpdi hpdI,
                hres_same d hdm hne hdI]
              have h7 := (hinv d hd' hup hne).1 hpdi
              rw [R] at h7
              exact h7
          · intro hpne
            by_cases hgdI : gp d = I
            · rw [hgdI, R]
              exact hGIall d hd' (up_of_par d I hd1 (up_of_par (par d) I hp1
                (by show Up (gp d) I; rw [hgdI]; exact Up.refl I)))
            · rw [R, hres_same (gp d) hnup_gd hgdi hgdI,
                hres_same d hdm hne hdI]
              have h7 := (hinv d hd' hup hne).2 hpdi hgdi
              rw [R] at h7
              exact h7
  · intro k hk
    have hkm : ¬ Up k m := fun h => hk (up_trans k m i h hmup)
    have hki : k ≠ i := fun h => hk (by rw [h]; exact Up.refl i)
    have hkI : k ≠ I := fun h => hk (by rw [h]; exact hIup)
    exact hres_same k hkm hki hkI
  · intro k hk hkup
    by_cases hkm : Up k m
    · obtain ⟨w, hw, hwup, heq⟩ := IH_perm k (by rw [hlen2]; exact hk) hkm
      have hw' : w < values.length := by rw [hlen2] at hw; exact hw
      by_cases hwm : w = m
      · rcases hch_or with ⟨h1, h2, h3⟩ | ⟨h1, h2, h3⟩
        · exact ⟨I, hIlt, hIup, by rw [heq, hwm, h2]⟩
        · exact ⟨i, hi_lt, Up.refl i, by rw [heq, hwm, h2]⟩
      · have hwge : m ≤ w := up_le _ _ hwup
        refine ⟨w, hw', up_trans w m i hwup hmup, ?_⟩
        rw [heq, hch_same w (by omega) (by omega) hwm]
    · by_cases hki : k = i
      · exact ⟨m, hmlt, hmup, by rw [hki, hres_i]⟩
      · by_cases hkI : k = I
        · rcases hch_or with ⟨h1, h2, h3⟩ | ⟨h1, h2, h3⟩
          · exact ⟨i, hi_lt, Up.refl i, by rw [hkI, hres_I, h1]⟩
          · exact ⟨I, hIlt, hIup, by rw [hkI, hres_I, h1]⟩
        · exact ⟨k, hk, hkup, hres_same k hkm hki hkI⟩

end MMH

namespace MMH

variable {α : Type} [LinearOrder α] [Inhabited α]

/-- `restore_heap_below` meets its contract: starting from a state whose
only violations sit at the subtree root `i`, it restores the whole subtree,
permuting only the subtree's slots. -/
theorem restore_heap_below_correct : ∀ (fuel : ℕ) (values : List α) (i : ℕ)
    (level : ℤ), values.length ≤ i + fuel →
    DownInv values i → (level % 2 = 0 ↔ depth i % 2 = 0) →
    RHBSpec values (restore_heap_below values i level) i := by
  intro fuel
  induction fuel with
  | zero =>
    intro values i level hfuel hinv hlev
    have h := rhb_shallow_correct values i level hinv hlev (by omega)
    exact ⟨h.1, h.2.1, h.2.2.1, h.2.2.2.1, h.2.2.2.2⟩
  | succ n IHf =>
    intro values i level hfuel hinv hlev
    by_cases hA : values.length ≤ 4 * i + 3
    · have h := rhb_shallow_correct values i level hinv hlev hA
      exact ⟨h.1, h.2.1, h.2.2.1, h.2.2.2.1, h.2.2.2.2⟩
    · rw [restore_heap_below]
      dsimp only
      rw [dif_neg (by omega)]
      by_cases hb1 : 4 * i + 6 - 3 + 2 ≥ values.length ∧
          cmp (idx values (2 * i + 2)) (idx values (gc_most values i level))
            level = true
      · rw [if_pos hb1]
        exact rhb_b1 values i level hinv hlev (by omega) (by omega) hb1.2
      · rw [if_neg hb1]
        by_cases hmne : gc_most values i level ≠ i
        · rw [dif_pos hmne]
          have hnb1 : ¬(4 * i + 5 ≥ values.length ∧
              cmp (idx values (2 * i + 2))
                (idx values (gc_most values i level)) level = true) := by
            intro hc
            exact hb1 ⟨by omega, hc.2⟩
          obtain ⟨hinv2, hlen2, hmul2⟩ := rhb_b2_pre values i level hinv hlev
            (by omega) (gc_most values i level) rfl hmne _ rfl _ rfl
          have hspec := gc_most_spec values i level (by omega)
          have hmrange : 4 * i + 3 ≤ gc_most values i level ∧
              gc_most values i level < values.length := by
            rcases hspec with h | h
            · exact absurd h hmne
            · exact ⟨h.1, h.2.1⟩
          have hlev2 : (level + 2) % 2 = 0 ↔
              depth (gc_most values i level) % 2 = 0 := by
            have hIc : (if gc_most values i level ≤ 4 * i + 6 - 3 + 1
                then 2 * i + 1 else 2 * i + 2) = 2 * i + 1 ∨
                (if gc_most values i level ≤ 4 * i + 6 - 3 + 1
                then 2 * i + 1 else 2 * i + 2) = 2 * i + 2 := by
              split
              · exact Or.inl rfl
              · exact Or.inr rfl
            have hd1 := depth_child _ i hIc
            have hIpar : (if gc_most values i level ≤ 4 * i + 6 - 3 + 1
                then 2 * i + 1 else 2 * i + 2) = par (gc_most values i level) := by
              by_cases hc : gc_most values i level ≤ 4 * i + 6 - 3 + 1
              · rw [if_pos hc]
                exact (par_grandchild_left i _ hmrange.1 (by omega)).symm
              · rw [if_neg hc]
                exact (par_grandchild_right i _ (by omega) (by
                  rcases hspec with h | h
                  · exact absurd h hmne
                  · exact h.2.2)).symm
            have hmch := (par_eq_iff (gc_most values i level) _
              (by omega)).mp hIpar.symm
            have hd2 := depth_child (gc_most values i level) _ hmch
            omega
          have hres := IHf _ (gc_most values i level) (level + 2)
            (by rw [hlen2]; omega) hinv2 hlev2
          exact rhb_b2 values i level hinv hlev (by omega) hnb1
            (gc_most values i level) rfl hmne _ rfl _ rfl _ hres
        · rw [dif_neg hmne]
          have hmeq : gc_most values i level = i := not_not.mp hmne
          have hDA := rhb_b3 values i level hinv hlev (by omega) hmeq (by
            intro hc
            obtain ⟨hc1, hc2⟩ := hc
            exact hb1 ⟨by omega, hc2⟩)
          exact ⟨hDA, rfl, rfl, fun k _ => rfl, fun k hk hup => ⟨k, hk, hup, rfl⟩⟩

end MMH

namespace MMH

variable {α : Type} [LinearOrder α] [Inhabited α]

/-- `DownAll` at the root index `0` is the full local invariant. -/
theorem MMHLocal_of_downAll_zero (values : List α) (h : DownAll values 0) :
    MMHLocal values := by
  intro d hd
  constructor
  · intro h1
    exact (h d hd (up_zero d) (by omega)).1
  · intro h3
    have hp : par d ≠ 0 := by rw [par]; omega
    exact (h d hd (up_zero d) (by omega)).2 hp

theorem idx_dropLast (values : List α) (k : ℕ) (hk : k < values.length - 1) :
    idx values.dropLast k = idx values k := by
  have h1 : k < values.dropLast.length := by
    rw [List.length_dropLast]
    exact hk
  have h2 : k < values.length := by omega
  rw [idx_eq_getElem _ k h1, idx_eq_getElem values k h2, List.getElem_dropLast]

theorem idx_set_dropLast (values : List α) (pos : ℕ) (x : α) (k : ℕ)
    (hk : k < values.length - 1) (hpos : pos < values.length) :
    idx ((values.set pos x).dropLast) k = if k = pos then x else idx values k := by
  rw [idx_dropLast _ k (by rw [List.length_set]; exact hk),
    idx_set values pos x k hpos]

/-- Overwriting position `pos` with the last element and then dropping the
last slot removes exactly the value at `pos` from the multiset. -/
theorem multiset_set_dropLast (values : List α) (pos : ℕ)
    (hpos : pos < values.length) :
    idx values pos ::ₘ
      (↑((values.set pos (idx values (values.length - 1))).dropLast) : Multiset α)
      = ↑values := by
  have hW : (values.set pos (idx values (values.length - 1))) ≠ [] := by
    intro hnil
    have h2 : (values.set pos (idx values (values.length - 1))).length = 0 := by
      rw [hnil]
      rfl
    rw [List.length_set] at h2
    omega
  have hlast : (values.set pos (idx values (values.length - 1))).getLast hW
      = idx values (values.length - 1) := by
    rw [List.getLast_eq_getElem]
    simp only [List.length_set]
    rw [List.getElem_set]
    by_cases hp : pos = values.length - 1
    · rw [if_pos hp]
    · rw [if_neg hp]
      exact (idx_eq_getElem values (values.length - 1) (by omega)).symm
  have hsplit : (↑(values.set pos (idx values (values.length - 1))) : Multiset α)
      = ↑((values.set pos (idx values (values.length - 1))).dropLast)
        + {idx values (values.length - 1)} := by
    conv_lhs => rw [← List.dropLast_append_getLast hW]
    rw [hlast, ← Multiset.coe_add, Multiset.coe_singleton]
  have hms := multiset_set values pos (idx values (values.length - 1)) hpos
  rw [hsplit] at hms
  rw [add_right_comm] at hms
  have h2 := add_right_cancel hms
  rw [← Multiset.singleton_add, add_comm]
  exact h2

/-- Copying the last element over position `pos` and truncating preserves
every pair inside `pos`'s subtree whose ancestor endpoint is not `pos`. -/
theorem downInv_set_dropLast (values : List α) (pos : ℕ)
    (h : MMHLocal values) (hpos : pos < values.length) :
    DownInv ((values.set pos (idx values (values.length - 1))).dropLast) pos := by
  intro d hd hup hne
  have hlen : ((values.set pos (idx values (values.length - 1))).dropLast).length
      = values.length - 1 := by
    rw [List.length_dropLast, List.length_set]
  rw [hlen] at hd
  have hgt : pos < d := by
    have := up_le _ _ hup
    omega
  have hidx : ∀ k, k < values.length - 1 → k ≠ pos →
      idx ((values.set pos (idx values (values.length - 1))).dropLast) k
        = idx values k := by
    intro k hk hkp
    rw [idx_set_dropLast values pos _ k hk hpos, if_neg hkp]
  constructor
  · intro hpne
    have hpup : Up (par d) pos := (up_par d pos hup hne).2
    have hpge : pos ≤ par d := up_le _ _ hpup
    have hplt : par d < d := par_lt d (by omega)
    rw [R, hidx (par d) (by omega) hpne, hidx d hd hne]
    exact (h d (by omega)).1 (by omega)
  · intro hpne hgne
    have hpup : Up (par d) pos := (up_par d pos hup hne).2
    have hgup : Up (gp d) pos := (up_par (par d) pos hpup hpne).2
    have hgge : pos ≤ gp d := up_le _ _ hgup
    have hd43 : 4 * pos + 3 ≤ d := desc_ge2 d pos hup hne hpne
    have hglt : gp d < d := gp_lt d (by omega)
    rw [R, hidx (gp d) (by omega) hgne, hidx d hd hne]
    exact (h d (by omega)).2 (by omega)

/-- `pop_min` on a non-empty heap keeps the invariant and removes exactly
one copy of the minimum. -/
theorem pop_min_correct (values : List α) (h : MMHLocal values)
    (hne : values ≠ []) :
    MMHLocal (pop_min values) ∧
    idx values 0 ::ₘ (↑(pop_min values) : Multiset α) = ↑values ∧
    (pop_min values).length = values.length - 1 := by
  have hlen : 0 < values.length := List.length_pos.mpr hne
  have hpop : pop_min values = restore_heap_below
      ((values.set 0 (idx values (values.length - 1))).dropLast) 0 0 := by
    cases values with
    | nil => simp at hlen
    | cons v t => rfl
  rw [hpop]
  have hvslen : ((values.set 0 (idx values (values.length - 1))).dropLast).length
      = values.length - 1 := by
    rw [List.length_dropLast, List.length_set]
  have hinv : DownInv ((values.set 0 (idx values (values.length - 1))).dropLast) 0 :=
    downInv_set_dropLast values 0 h hlen
  obtain ⟨hall, hlen2, hmul2, _, _⟩ := restore_heap_below_correct
    ((values.set 0 (idx values (values.length - 1))).dropLast).length
    ((values.set 0 (idx values (values.length - 1))).dropLast) 0 0
    (by omega) hinv (by rw [depth_zero]; omega)
  refine ⟨MMHLocal_of_downAll_zero _ hall, ?_, by rw [hlen2, hvslen]⟩
  rw [hmul2]
  exact multiset_set_dropLast values 0 hlen

end MMH

namespace MMH

variable {α : Type} [LinearOrder α] [Inhabited α]

/-- `pop_max` on a non-empty heap keeps the invariant and removes exactly
one copy of the maximum. -/
theorem pop_max_correct (values : List α) (h : MMHLocal values)
    (hne : values ≠ []) :
    MMHLocal (pop_max values) ∧
    max_fn values ::ₘ (↑(pop_max values) : Multiset α) = ↑values ∧
    (pop_max values).length = values.length - 1 := by
  have hlen : 0 < values.length := List.length_pos.mpr hne
  by_cases h2 : values.length ≤ 2
  · have hpop : pop_max values = values.dropLast := by
      cases values with
      | nil => simp at hlen
      | cons v t =>
        simp only [pop_max]
        rw [if_pos h2]
    rw [hpop]
    have hmax : max_fn values = idx values (values.length - 1) := by
      rw [max_fn]
      by_cases hn1 : values.length = 1
      · rw [if_pos hn1, hn1]
      · have hn2 : values.length = 2 := by omega
        rw [if_neg hn1, if_pos hn2, hn2]
    have hsplit : (↑values : Multiset α)
        = ↑values.dropLast + {idx values (values.length - 1)} := by
      conv_lhs => rw [← List.dropLast_append_getLast hne]
      rw [List.getLast_eq_getElem, ← idx_eq_getElem values _ (by omega),
        ← Multiset.coe_add, Multiset.coe_singleton]
    refine ⟨?_, ?_, List.length_dropLast values⟩
    · intro d hd
      rw [List.length_dropLast] at hd
      exact ⟨fun h1 => absurd hd (by omega), fun h3 => absurd hd (by omega)⟩
    · rw [hmax, hsplit, ← Multiset.singleton_add]
      exact add_comm _ _
  · have h3 : 3 ≤ values.length := by omega
    have hpop : pop_max values = restore_heap_below
        ((values.set (if idx values 1 > idx values 2 then 1 else 2)
          (idx values (values.length - 1))).dropLast)
        (if idx values 1 > idx values 2 then 1 else 2) 1 := by
      cases values with
      | nil => simp at hlen
      | cons v t =>
        simp only [pop_max]
        rw [if_neg (by omega)]
    set pos := if idx values 1 > idx values 2 then 1 else 2 with hposdef
    have hpos12 : pos = 1 ∨ pos = 2 := by
      rw [hposdef]
      split
      · exact Or.inl rfl
      · exact Or.inr rfl
    rw [hpop]
    have hposlt : pos < values.length := by rcases hpos12 with h' | h' <;> omega
    have hvslen : ((values.set pos (idx values (values.length - 1))).dropLast).length
        = values.length - 1 := by
      rw [List.length_dropLast, List.length_set]
    have hinv := downInv_set_dropLast values pos h hposlt
    have hdp : depth pos = 1 := by
      rcases hpos12 with h' | h'
      · rw [h']
        exact depth_one
      · rw [h']
        exact depth_two
    have hlev : (1 : ℤ) % 2 = 0 ↔ depth pos % 2 = 0 := by
      rw [hdp]
      omega
    obtain ⟨hall, hlen2, hmul2, hsame, hperm⟩ := restore_heap_below_correct
      ((values.set pos (idx values (values.length - 1))).dropLast).length
      ((values.set pos (idx values (values.length - 1))).dropLast) pos 1
      (by omega) hinv hlev
    have hmaxpos : max_fn values = idx values pos := by
      rw [max_fn, if_neg (by omega), if_neg (by omega), hposdef]
      by_cases hc : idx values 1 > idx values 2
      · rw [if_pos hc, max_eq_left (le_of_lt hc)]
      · rw [if_neg hc, max_eq_right (le_of_not_lt hc)]
    have hidxvs : ∀ k, k < values.length - 1 → k ≠ pos →
        idx ((values.set pos (idx values (values.length - 1))).dropLast) k
          = idx values k := fun k hk hkp => by
      rw [idx_set_dropLast values pos _ k hk hposlt, if_neg hkp]
    have hvs_all : ∀ k, k < values.length - 1 →
        idx values 0 ≤
          idx ((values.set pos (idx values (values.length - 1))).dropLast) k := by
      intro k hk
      rw [idx_set_dropLast values pos _ k hk hposlt]
      split
      · exact global_min values h _ (by omega)
      · exact global_min values h _ (by omega)
    have hpos1 : 1 ≤ pos := by rcases hpos12 with h' | h' <;> omega
    have hres0 : idx (restore_heap_below
        ((values.set pos (idx values (values.length - 1))).dropLast) pos 1) 0
        = idx values 0 := by
      rw [hsame 0 (fun hu => by have := up_le _ _ hu; omega),
        hidxvs 0 (by omega) (by omega)]
    have hresmin : ∀ k, k < values.length - 1 → Up k pos →
        idx values 0 ≤ idx (restore_heap_below
          ((values.set pos (idx values (values.length - 1))).dropLast) pos 1) k := by
      intro k hk hkup
      obtain ⟨w, hw, hwup, heq⟩ := hperm k (by rw [hvslen]; exact hk) hkup
      rw [hvslen] at hw
      rw [heq]
      exact hvs_all w hw
    refine ⟨?_, ?_, by rw [hlen2, hvslen]⟩
    · intro d hd
      rw [hlen2, hvslen] at hd
      have hd1 : d < values.length := by omega
      by_cases hdup : Up d pos
      · by_cases hdpos : d = pos
        · constructor
          · intro _
            have hpd : par d = 0 := by
              rw [hdpos]
              rcases hpos12 with h' | h' <;> rw [h'] <;> decide
            rw [hpd, R, depth_zero, Dom, if_pos rfl, hres0]
            exact hresmin d hd hdup
          · intro h3d
            rw [hdpos] at h3d
            rcases hpos12 with h' | h' <;> omega
        · have hpair := hall d (by rw [hlen2, hvslen]; exact hd) hdup hdpos
          constructor
          · intro _
            exact hpair.1
          · intro h3d
            by_cases hpdpos : par d = pos
            · have hgd : gp d = 0 := by
                rw [gp, hpdpos]
                rcases hpos12 with h' | h' <;> rw [h'] <;> decide
              rw [hgd, R, depth_zero, Dom, if_pos rfl, hres0]
              exact hresmin d hd hdup
            · exact hpair.2 hpdpos
      · have hdne : d ≠ pos := fun he => hdup (by rw [he]; exact Up.refl pos)
        have hsd : idx (restore_heap_below
            ((values.set pos (idx values (values.length - 1))).dropLast) pos 1) d
            = idx values d := by
          rw [hsame d hdup, hidxvs d hd hdne]
        constructor
        · intro h1
          have hpnup : ¬ Up (par d) pos := fun hu => hdup (up_of_par d pos h1 hu)
          have hpne : par d ≠ pos := fun he =>
            hpnup (by rw [he]; exact Up.refl pos)
          have hplt : par d < d := par_lt d h1
          have hsp : idx (restore_heap_below
              ((values.set pos (idx values (values.length - 1))).dropLast) pos 1)
              (par d) = idx values (par d) := by
            rw [hsame (par d) hpnup, hidxvs (par d) (by omega) hpne]
          rw [R, hsd, hsp]
          have hx := (h d hd1).1 h1
          rw [R] at hx
          exact hx
        · intro h3d
          have hp1 : 1 ≤ par d := (par_ge_one_iff d).mpr h3d
          have hgnup : ¬ Up (gp d) pos := fun hu =>
            hdup (up_of_par d pos (by omega) (up_of_par (par d) pos hp1 hu))
          have hgne : gp d ≠ pos := fun he =>
            hgnup (by rw [he]; exact Up.refl pos)
          have hglt : gp d < d := gp_lt d h3d
          have hsg : idx (restore_heap_below
              ((values.set pos (idx values (values.length - 1))).dropLast) pos 1)
              (gp d) = idx values (gp d) := by
            rw [hsame (gp d) hgnup, hidxvs (gp d) (by omega) hgne]
          rw [R, hsd, hsg]
          have hx := (h d hd1).2 h3d
          rw [R] at hx
          exact hx
    · rw [hmul2, hmaxpos]
      exact multiset_set_dropLast values pos hposlt

end MMH

namespace MMH

variable {α : Type} [LinearOrder α] [Inhabited α]

/-- All parent and grandparent pairs whose ancestor endpoint is at least
`b` hold. -/
def PairsFrom (values : List α) (b : ℕ) : Prop :=
  ∀ d, d < values.length → 1 ≤ d →
    (b ≤ par d → R values (par d) d) ∧
    (3 ≤ d → b ≤ gp d → R values (gp d) d)

/-- Mid-row state of the heapifying constructor: pairs hold when the
ancestor endpoint lies in the processed part `[b, j)` of the current row or
at `e` and beyond. -/
def PairsRow (values : List α) (b j e : ℕ) : Prop :=
  ∀ d, d < values.length → 1 ≤ d →
    (((b ≤ par d ∧ par d < j) ∨ e ≤ par d) → R values (par d) d) ∧
    (3 ≤ d → ((b ≤ gp d ∧ gp d < j) ∨ e ≤ gp d) → R values (gp d) d)

theorem pairsFrom_of_no_children (values : List α) (b : ℕ)
    (h : values.length ≤ 2 * b + 1) : PairsFrom values b := by
  intro d hd h1
  have hpd := (par_eq_iff d (par d) h1).mp rfl
  constructor
  · intro hb
    exact absurd hd (by omega)
  · intro h3 hb
    have hgd := (gp_eq_iff d (gp d) h3).mp rfl
    exact absurd hd (by omega)

theorem MMHLocal_of_pairsFrom_zero (values : List α) (h : PairsFrom values 0) :
    MMHLocal values := by
  intro d hd
  constructor
  · intro h1
    exact (h d hd h1).1 (by omega)
  · intro h3
    exact (h d hd (by omega)).2 h3 (by omega)

theorem pairsRow_init (values : List α) (b e : ℕ) (hp : PairsFrom values e) :
    PairsRow values b b e := by
  intro d hd h1
  constructor
  · intro hA
    rcases hA with ⟨h5, h6⟩ | h5
    · exact absurd h6 (by omega)
    · exact (hp d hd h1).1 h5
  · intro h3 hA
    rcases hA with ⟨h5, h6⟩ | h5
    · exact absurd h6 (by omega)
    · exact (hp d hd h1).2 h3 h5

theorem pairsFrom_of_pairsRow (values : List α) (b e : ℕ)
    (h : PairsRow values b e e) : PairsFrom values b := by
  intro d hd h1
  constructor
  · intro hb
    refine (h d hd h1).1 ?_
    by_cases hae : e ≤ par d
    · exact Or.inr hae
    · exact Or.inl ⟨hb, by omega⟩
  · intro h3 hb
    refine (h d hd h1).2 h3 ?_
    by_cases hae : e ≤ gp d
    · exact Or.inr hae
    · exact Or.inl ⟨hb, by omega⟩

/-- One index of a constructor row: restoring below `j` adds `j` to the
set of valid ancestors and touches nothing outside `j`'s subtree. -/
theorem rhb_row_step (values : List α) (b j e : ℕ) (level : ℤ)
    (hbj : b ≤ j) (hje : j < e) (hsub : e ≤ 2 * b + 1)
    (hpar : ∀ x, b ≤ x → x < e → 1 ≤ x → par x < b)
    (hp : PairsRow values b j e)
    (hlev : level % 2 = 0 ↔ depth j % 2 = 0) :
    PairsRow (restore_heap_below values j level) b (j + 1) e ∧
    (restore_heap_below values j level).length = values.length ∧
    (↑(restore_heap_below values j level) : Multiset α) = ↑values := by
  have hinv : DownInv values j := by
    intro d hd hup hne
    have hdge := desc_ge d j hup hne
    have h1d : 1 ≤ d := by omega
    constructor
    · intro hpne
      have hpup : Up (par d) j := (up_par d j hup hne).2
      have h5 := desc_ge (par d) j hpup hpne
      exact (hp d hd h1d).1 (Or.inr (by omega))
    · intro hpne hgne
      have hpup : Up (par d) j := (up_par d j hup hne).2
      have hgup : Up (gp d) j := (up_par (par d) j hpup hpne).2
      have h5 := desc_ge (gp d) j hgup hgne
      have hd43 := desc_ge2 d j hup hne hpne
      exact (hp d hd h1d).2 (by omega) (Or.inr (by omega))
  obtain ⟨hall, hlen, hmul, hsame, _⟩ := restore_heap_below_correct
    values.length values j level (by omega) hinv hlev
  refine ⟨?_, hlen, hmul⟩
  intro d hd h1
  rw [hlen] at hd
  have hdres : d < (restore_heap_below values j level).length := by
    rw [hlen]
    exact hd
  constructor
  · intro hA
    by_cases hain : Up (par d) j
    · have hdin : Up d j := up_of_par d j h1 hain
      have hdne : d ≠ j := by
        have h5 := up_le _ _ hain
        have h6 := par_lt d h1
        omega
      exact (hall d hdres hdin hdne).1
    · have hdnin : ¬ Up d j := by
        intro hdin
        by_cases hdj : d = j
        · rw [hdj] at hA h1
          have h5 := hpar j hbj hje h1
          rcases hA with ⟨h6, h7⟩ | h6 <;> omega
        · exact hain (up_par d j hdin hdj).2
      have hane : par d ≠ j := fun he => hain (by rw [he]; exact Up.refl j)
      rw [R, hsame (par d) hain, hsame d hdnin]
      have hA' : (b ≤ par d ∧ par d < j) ∨ e ≤ par d := by
        rcases hA with ⟨h5, h6⟩ | h5
        · exact Or.inl ⟨h5, by omega⟩
        · exact Or.inr h5
      have hx := (hp d hd h1).1 hA'
      rw [R] at hx
      exact hx
  · intro h3 hA
    by_cases hgin : Up (gp d) j
    · have hp1 : 1 ≤ par d := (par_ge_one_iff d).mpr h3
      have hdin : Up d j := up_of_par d j h1 (up_of_par (par d) j hp1 hgin)
      have hdne : d ≠ j := by
        have h5 := up_le _ _ hgin
        have h6 := gp_lt d h3
        omega
      have hpne : par d ≠ j := by
        intro he
        have h5 : gp d = par j := by rw [gp, he]
        have h7 := (par_eq_iff d j (by omega)).mp he
        by_cases hj0 : j = 0
        · rw [hj0] at h7
          omega
        · have h6 := hpar j hbj hje (by omega)
          rw [h5] at hA
          rcases hA with ⟨h8, h9⟩ | h8 <;> omega
      exact (hall d hdres hdin hdne).2 hpne
    · have hdnin : ¬ Up d j := by
        intro hdin
        by_cases hdj : d = j
        · rw [hdj] at hA h3
          have h5 := hpar j hbj hje (by omega)
          have h6 : gp j ≤ par j := by
            by_cases hpj : 1 ≤ par j
            · have := par_lt (par j) hpj
              rw [gp]
              omega
            · have h7 : par j = 0 := by omega
              rw [gp, h7]
              decide
          rcases hA with ⟨h7, h8⟩ | h7 <;> omega
        · have hpup := (up_par d j hdin hdj).2
          by_cases hpj : par d = j
          · have h5 : gp d = par j := by rw [gp, hpj]
            have h7 := (par_eq_iff d j (by omega)).mp hpj
            by_cases hj0 : j = 0
            · rw [hj0] at h7
              omega
            · have h6 := hpar j hbj hje (by omega)
              rw [h5] at hA
              rcases hA with ⟨h8, h9⟩ | h8 <;> omega
          · exact hgin (up_par (par d) j hpup hpj).2
      have hgne : gp d ≠ j := fun he => hgin (by rw [he]; exact Up.refl j)
      rw [R, hsame (gp d) hgin, hsame d hdnin]
      have hA' : (b ≤ gp d ∧ gp d < j) ∨ e ≤ gp d := by
        rcases hA with ⟨h5, h6⟩ | h5
        · exact Or.inl ⟨h5, by omega⟩
        · exact Or.inr h5
      have hx := (hp d hd h1).2 h3 hA'
      rw [R] at hx
      exact hx

end MMH

namespace MMH

variable {α : Type} [LinearOrder α] [Inhabited α]

theorem heapify_row_fold (b e : ℕ) (level : ℤ)
    (hsub : e ≤ 2 * b + 1)
    (hpar : ∀ x, b ≤ x → x < e → 1 ≤ x → par x < b)
    (hdep : ∀ x, b ≤ x → x < e → (level % 2 = 0 ↔ depth x % 2 = 0)) :
    ∀ (c j : ℕ) (values : List α), j + c = e → b ≤ j →
    PairsRow values b j e →
    PairsRow ((List.range' j c).foldl
      (fun v i => restore_heap_below v i level) values) b e e ∧
    ((List.range' j c).foldl
      (fun v i => restore_heap_below v i level) values).length = values.length ∧
    (↑((List.range' j c).foldl (fun v i => restore_heap_below v i level) values)
      : Multiset α) = ↑values := by
  intro c
  induction c with
  | zero =>
    intro j values hje hbj hp
    have hj : j = e := by omega
    rw [List.range'_zero, List.foldl_nil]
    rw [hj] at hp
    exact ⟨hp, rfl, rfl⟩
  | succ c ih =>
    intro j values hje hbj hp
    rw [List.range'_succ, List.foldl_cons]
    have hjlt : j < e := by omega
    obtain ⟨hp2, hlen2, hmul2⟩ :=
      rhb_row_step values b j e level hbj hjlt hsub hpar hp (hdep j hbj hjlt)
    obtain ⟨hp3, hlen3, hmul3⟩ := ih (j + 1) (restore_heap_below values j level)
      (by omega) (by omega) hp2
    exact ⟨hp3, hlen3.trans hlen2, hmul3.trans hmul2⟩

/-- One full row of the heapifying constructor, from `PairsFrom` at the row
end to `PairsFrom` at the row start. -/
theorem heapify_row_correct (values : List α) (b e : ℕ) (level : ℤ)
    (hbe : b ≤ e) (hsub : e ≤ 2 * b + 1)
    (hpar : ∀ x, b ≤ x → x < e → 1 ≤ x → par x < b)
    (hdep : ∀ x, b ≤ x → x < e → (level % 2 = 0 ↔ depth x % 2 = 0))
    (hp : PairsFrom values e) :
    PairsFrom (heapify_row values b e level) b ∧
    (heapify_row values b e level).length = values.length ∧
    (↑(heapify_row values b e level) : Multiset α) = ↑values := by
  rw [heapify_row]
  obtain ⟨h1, h2, h3⟩ := heapify_row_fold b e level hsub hpar hdep (e - b) b
    values (by omega) (le_refl b) (pairsRow_init values b e hp)
  exact ⟨pairsFrom_of_pairsRow _ b e h1, h2, h3⟩

theorem depth_row (k x : ℕ) (h1 : 2 ^ k - 1 ≤ x) (h2 : x < 2 ^ (k + 1) - 1) :
    depth x = k := by
  have h3 : 0 < 2 ^ k := Nat.two_pow_pos k
  have h4 : 2 ^ (k + 1) = 2 * 2 ^ k := by ring
  rw [depth]
  exact Nat.log_eq_of_pow_le_of_lt_pow (by omega) (by omega)

/-- The row loop of the heapifying constructor, processed from the deepest
internal row up to the root row. -/
theorem heapify_rows_correct : ∀ (k : ℕ) (values : List α),
    PairsFrom values (2 ^ (k + 1) - 1) →
    PairsFrom (heapify_rows values (2 ^ k - 1) (2 ^ (k + 1) - 1) (k : ℤ)) 0 ∧
    (heapify_rows values (2 ^ k - 1) (2 ^ (k + 1) - 1) (k : ℤ)).length
      = values.length ∧
    (↑(heapify_rows values (2 ^ k - 1) (2 ^ (k + 1) - 1) (k : ℤ))
      : Multiset α) = ↑values := by
  intro k
  induction k with
  | zero =>
    intro values hp
    have e0 : (2 : ℕ) ^ 0 = 1 := by norm_num
    have e1 : (2 : ℕ) ^ (0 + 1) = 2 := by norm_num
    rw [heapify_rows, dif_pos (by omega)]
    rw [heapify_rows, dif_neg (by omega)]
    obtain ⟨h1, h2, h3⟩ := heapify_row_correct values (2 ^ 0 - 1) (2 ^ (0 + 1) - 1)
      ((0 : ℕ) : ℤ) (by omega) (by omega)
      (fun x hx1 hx2 hx3 => by omega)
      (fun x hx1 hx2 => by
        have hx0 : x = 0 := by omega
        rw [hx0, depth_zero]
        omega)
      hp
    rw [show (2 : ℕ) ^ 0 - 1 = 0 from by omega] at h1
    exact ⟨h1, h2, h3⟩
  | succ k ih =>
    intro values hp
    have h3 : 0 < 2 ^ k := Nat.two_pow_pos k
    have h4 : (2 : ℕ) ^ (k + 1) = 2 * 2 ^ k := by ring
    have h5 : (2 : ℕ) ^ (k + 1 + 1) = 4 * 2 ^ k := by ring
    rw [heapify_rows, dif_pos (by push_cast; omega)]
    have harg : (2 ^ (k + 1) - 1 + 1) / 2 - 1 = 2 ^ k - 1 := by omega
    have hcast : ((k + 1 : ℕ) : ℤ) - 1 = (k : ℤ) := by push_cast; ring
    rw [harg, hcast]
    obtain ⟨hrow1, hrow2, hrow3⟩ := heapify_row_correct values (2 ^ (k + 1) - 1)
      (2 ^ (k + 1 + 1) - 1) ((k + 1 : ℕ) : ℤ) (by omega) (by omega)
      (fun x hx1 hx2 hx3 => by rw [par]; omega)
      (fun x hx1 hx2 => by
        have hdx : depth x = k + 1 := depth_row (k + 1) x hx1 hx2
        rw [hdx]
        push_cast
        omega)
      hp
    obtain ⟨h1, h2, h6⟩ := ih (heapify_row values (2 ^ (k + 1) - 1)
      (2 ^ (k + 1 + 1) - 1) ((k + 1 : ℕ) : ℤ)) hrow1
    exact ⟨h1, h2.trans hrow2, h6.trans hrow3⟩

/-- The heapifying constructor establishes the local min-max invariant and
permutes the input. -/
theorem heapify_correct (values : List α) :
    MMHLocal (heapify values) ∧
    (heapify values).length = values.length ∧
    (↑(heapify values) : Multiset α) = ↑values := by
  rw [heapify]
  by_cases hemp : values.isEmpty = true
  · rw [if_pos hemp]
    have hnil : values = [] := List.isEmpty_iff.mp hemp
    refine ⟨?_, rfl, rfl⟩
    intro d hd
    rw [hnil] at hd
    simp at hd
  · rw [if_neg hemp]
    dsimp only
    have hne : values ≠ [] := fun h => hemp (by rw [h]; rfl)
    have hlen1 : 1 ≤ values.length := List.length_pos.mpr hne
    obtain ⟨hv1, hv2⟩ := level_loop_one values.length hlen1 (-2) one_pos
    rw [hv1, hv2]
    have hnlt : values.length < 2 ^ (Nat.log 2 values.length + 1) :=
      Nat.lt_pow_succ_log_self (by norm_num) _
    by_cases hL : Nat.log 2 values.length = 0
    · rw [hL]
      have hcond : ¬((0 : ℤ) ≤ -2 + 1 + ((0 : ℕ) : ℤ)) := by omega
      rw [heapify_rows, dif_neg hcond]
      have hn1 : values.length = 1 := by
        rw [hL] at hnlt
        norm_num at hnlt
        omega
      refine ⟨?_, rfl, rfl⟩
      intro d hd
      rw [hn1] at hd
      exact ⟨fun h1 => absurd hd (by omega), fun h3 => absurd hd (by omega)⟩
    · set L := Nat.log 2 values.length with hLdef
      set k := L - 1 with hkdef
      have hLk : L = k + 1 := by omega
      have hpk : 0 < 2 ^ k := Nat.two_pow_pos k
      have e1 : 2 ^ (1 + L) / 4 - 1 = 2 ^ k - 1 := by
        rw [hLk]
        have h7 : (2 : ℕ) ^ (1 + (k + 1)) = 2 ^ k * 4 := by ring
        rw [h7, Nat.mul_div_cancel _ (by norm_num)]
      have e2 : 2 ^ (1 + L) / 2 - 1 = 2 ^ (k + 1) - 1 := by
        rw [hLk]
        have h7 : (2 : ℕ) ^ (1 + (k + 1)) = 2 ^ (k + 1) * 2 := by ring
        rw [h7, Nat.mul_div_cancel _ (by norm_num)]
      have e3 : (-2 : ℤ) + 1 + (L : ℤ) = (k : ℤ) := by
        rw [hLk]
        push_cast
        ring
      rw [e1, e2, e3]
      have hp0 : PairsFrom values (2 ^ (k + 1) - 1) := by
        apply pairsFrom_of_no_children
        have h7 : 2 ^ (L + 1) = 2 * 2 ^ (k + 1) := by rw [hLk]; ring
        have h8 : 0 < 2 ^ (k + 1) := Nat.two_pow_pos (k + 1)
        omega
      obtain ⟨h1, h2, h6⟩ := heapify_rows_correct k values hp0
      exact ⟨MMHLocal_of_pairsFrom_zero _ h1, h2, h6⟩

end MMH

namespace MMH

/-- A user-level heap operation: `push`/`emplace` (which only differ in how
the value is constructed), `pop_min`, or `pop_max`. -/
inductive MOp (α : Type) where
  | push : α → MOp α
  | popMin : MOp α
  | popMax : MOp α

variable {α : Type} [LinearOrder α] [Inhabited α]

/-- One heap operation acting on the stored vector. -/
def mmstep (values : List α) : MOp α → List α
  | MOp.push x => push values x
  | MOp.popMin => pop_min values
  | MOp.popMax => pop_max values

/-- A full run: bulk construction from the initial range, then the
operations in order. -/
def runMMH (init : List α) (ops : List (MOp α)) : List α :=
  ops.foldl mmstep (heapify init)

/-- The number of elements the heap currently stores according to the
operation history: one per element of the construction range, plus one per
push, minus one per (non-vacuous) pop. -/
def countOps (n : ℕ) (ops : List (MOp α)) : ℕ :=
  ops.foldl (fun c op => match op with
    | MOp.push _ => c + 1
    | MOp.popMin => c - 1
    | MOp.popMax => c - 1) n

theorem foldl_mmstep (ops : List (MOp α)) : ∀ (values : List α) (n : ℕ),
    MMHLocal values → values.length = n →
    MMHLocal (ops.foldl mmstep values) ∧
    (ops.foldl mmstep values).length = countOps n ops := by
  induction ops with
  | nil =>
    intro values n h hl
    rw [List.foldl_nil]
    exact ⟨h, by rw [countOps, List.foldl_nil]; exact hl⟩
  | cons op rest ih =>
    intro values n h hl
    cases op with
    | push x =>
      obtain ⟨h1, h2, h3⟩ := push_correct values x h
      rw [List.foldl_cons]
      exact ih (push values x) (n + 1) h1 (by rw [h3, hl])
    | popMin =>
      rw [List.foldl_cons]
      by_cases hne : values = []
      · subst hne
        have h0 : n = 0 := by rw [← hl, List.length_nil]
        have hlen0 : ([] : List α).length = n - 1 := by
          rw [List.length_nil, h0]
        exact ih [] (n - 1) h hlen0
      · obtain ⟨h1, h2, h3⟩ := pop_min_correct values h hne
        exact ih (pop_min values) (n - 1) h1 (by rw [h3, hl])
    | popMax =>
      rw [List.foldl_cons]
      by_cases hne : values = []
      · subst hne
        have h0 : n = 0 := by rw [← hl, List.length_nil]
        have hlen0 : ([] : List α).length = n - 1 := by
          rw [List.length_nil, h0]
        exact ih [] (n - 1) h hlen0
      · obtain ⟨h1, h2, h3⟩ := pop_max_correct values h hne
        exact ih (pop_max values) (n - 1) h1 (by rw [h3, hl])

/-- **C2**: after bulk construction from any range followed by any sequence
of push/emplace and pop_min/pop_max operations, `size()` (the length of the
stored vector) equals the number of elements currently stored — one per
range element and per push, one fewer per pop — and on a non-empty heap
`min()` returns a stored element that lower-bounds every stored element and
`max()` returns a stored element that upper-bounds every stored element. -/
theorem C2_size_min_max (init : List α) (ops : List (MOp α)) :
    (runMMH init ops).length = countOps init.length ops ∧
    (runMMH init ops ≠ [] →
      (min_fn (runMMH init ops) ∈ runMMH init ops ∧
        ∀ x ∈ runMMH init ops, min_fn (runMMH init ops) ≤ x) ∧
      (max_fn (runMMH init ops) ∈ runMMH init ops ∧
        ∀ x ∈ runMMH init ops, x ≤ max_fn (runMMH init ops))) := by
  obtain ⟨hc0, hl0, hm0⟩ := heapify_correct init
  obtain ⟨hloc, hlen⟩ := foldl_mmstep ops (heapify init) init.length hc0 hl0
  exact ⟨hlen, fun hne =>
    ⟨min_fn_correct _ hloc hne, max_fn_correct _ hloc hne⟩⟩

/-- The C2 statement at a concrete run: construction from `[3, 1, 2]`,
then a push and both pops. -/
theorem C2_size_min_max_witness :
    (runMMH ([3, 1, 2] : List ℤ) [MOp.push 0, MOp.popMin, MOp.popMax]).length
      = countOps ([3, 1, 2] : List ℤ).length
        [MOp.push 0, MOp.popMin, MOp.popMax] ∧
    (runMMH ([3, 1, 2] : List ℤ) [MOp.push 0, MOp.popMin, MOp.popMax] ≠ [] →
      (min_fn (runMMH ([3, 1, 2] : List ℤ)
          [MOp.push 0, MOp.popMin, MOp.popMax])
          ∈ runMMH ([3, 1, 2] : List ℤ) [MOp.push 0, MOp.popMin, MOp.popMax] ∧
        ∀ x ∈ runMMH ([3, 1, 2] : List ℤ)
          [MOp.push 0, MOp.popMin, MOp.popMax],
          min_fn (runMMH ([3, 1, 2] : List ℤ)
            [MOp.push 0, MOp.popMin, MOp.popMax]) ≤ x) ∧
      (max_fn (runMMH ([3, 1, 2] : List ℤ)
          [MOp.push 0, MOp.popMin, MOp.popMax])
          ∈ runMMH ([3, 1, 2] : List ℤ) [MOp.push 0, MOp.popMin, MOp.popMax] ∧
        ∀ x ∈ runMMH ([3, 1, 2] : List ℤ)
          [MOp.push 0, MOp.popMin, MOp.popMax],
          x ≤ max_fn (runMMH ([3, 1, 2] : List ℤ)
            [MOp.push 0, MOp.popMin, MOp.popMax]))) :=
  C2_size_min_max [3, 1, 2] [MOp.push 0, MOp.popMin, MOp.popMax]

end MMH
